import Mathlib

/-!
# Verification of the legevakt geocoding pipeline (`scripts/fetch_legevakter.py`)

This file gives a shallow embedding of the text-normalization helpers, the
`difflib.SequenceMatcher`-based string similarity, the candidate scorer, the
two geocoding providers' result selection, the row validator and the
reconciler / report builder of `scripts/fetch_legevakter.py`, and proves or
refutes the specification's claims about them.

Modelling conventions:
* Python strings are `List Char` (`Str`); Python floats are modelled as exact
  rationals `ℚ` (the claims under study depend only on comparisons and
  exact field values, not on binary rounding).
* External HTTP traffic is a parameter: a provider's responses are passed in
  as data (per query, a list of per-attempt outcomes), exactly the
  information the Python functions consume.
* The haversine distance (transcendental, float-valued in the source) is a
  parameter `hav` of the report builder; every claim about it depends only
  on comparing its value with thresholds.
* `unicodedata.normalize("NFKD", ·)` followed by removal of combining
  characters is the identity on every string this development evaluates it
  on (ASCII after lower-casing and folding of æ/ø/å); it is modelled by
  `nfkdStrip` accordingly.
* Python's `re` word boundary `\b` separates word characters
  (`[a-zA-Z0-9_]` plus non-ASCII word characters) from the rest; `pyWordChar`
  models this, treating all non-ASCII characters as word characters (exact
  on ASCII, and on the letters æ/ø/å that can reach the regex stage).
-/

/-- Python strings, modelled as lists of characters. -/
abbrev Str := List Char

/-!
### Kernel-computable rational arithmetic

The standard `Rat.add`/`Rat.mul`/`Rat.sub` do not reduce inside `decide`
proofs in this toolchain, while `Rat.divInt` and the order relations do.
The embedded pipeline therefore performs its float arithmetic through the
following wrappers, each proven equal to the standard operation, so that
concrete runs of the pipeline can be evaluated in proofs.
-/

/-- Addition on `ℚ` through `Rat.divInt` (equal to `+` by `qAdd_eq`). -/
def qAdd (a b : ℚ) : ℚ := Rat.divInt (a.num * b.den + b.num * a.den) (a.den * b.den)

/-- Multiplication on `ℚ` through `Rat.divInt` (equal to `*` by `qMul_eq`). -/
def qMul (a b : ℚ) : ℚ := Rat.divInt (a.num * b.num) (a.den * b.den)

/-- Subtraction on `ℚ` through `Rat.divInt` (equal to `-` by `qSub_eq`). -/
def qSub (a b : ℚ) : ℚ := Rat.divInt (a.num * b.den - b.num * a.den) (a.den * b.den)

theorem qAdd_eq (a b : ℚ) : qAdd a b = a + b := by
  conv_rhs => rw [← Rat.num_div_den a, ← Rat.num_div_den b]
  rw [qAdd, Rat.divInt_eq_div]
  have ha : ((a.den : ℚ)) ≠ 0 := Nat.cast_ne_zero.mpr a.den_nz
  have hb : ((b.den : ℚ)) ≠ 0 := Nat.cast_ne_zero.mpr b.den_nz
  field_simp

theorem qMul_eq (a b : ℚ) : qMul a b = a * b := by
  conv_rhs => rw [← Rat.num_div_den a, ← Rat.num_div_den b]
  rw [qMul, Rat.divInt_eq_div]
  have ha : ((a.den : ℚ)) ≠ 0 := Nat.cast_ne_zero.mpr a.den_nz
  have hb : ((b.den : ℚ)) ≠ 0 := Nat.cast_ne_zero.mpr b.den_nz
  field_simp

theorem qSub_eq (a b : ℚ) : qSub a b = a - b := by
  conv_rhs => rw [← Rat.num_div_den a, ← Rat.num_div_den b]
  rw [qSub, Rat.divInt_eq_div]
  have ha : ((a.den : ℚ)) ≠ 0 := Nat.cast_ne_zero.mpr a.den_nz
  have hb : ((b.den : ℚ)) ≠ 0 := Nat.cast_ne_zero.mpr b.den_nz
  field_simp
  ring

/-- Whitespace for Python's `\s` (ASCII range) as used by `normalize_text`. -/
def pyIsSpace (c : Char) : Bool :=
  c = ' ' || c = '\t' || c = '\n' || c = '\r' || c.val = 11 || c.val = 12

/-- ASCII decimal digit, modelling `str.isdigit` on the inputs at hand. -/
def pyIsDigit (c : Char) : Bool := '0' ≤ c && c ≤ '9'

/-- Word character for Python's regex `\b` boundary: `[a-zA-Z0-9_]`, plus all
non-ASCII characters (exact on the ASCII range; the non-ASCII characters
reaching the regex stage in this development are word characters). -/
def pyWordChar (c : Char) : Bool :=
  ('a' ≤ c && c ≤ 'z') || ('A' ≤ c && c ≤ 'Z') || pyIsDigit c || c = '_' ||
    c.val ≥ 128

/-- Collapse every run of whitespace to a single space:
`re.sub(r"\s+", " ", text)`. A whitespace character is dropped when
followed by more whitespace, and becomes a single space at the end of its
run. -/
def collapseWs : Str → Str
  | [] => []
  | c :: cs =>
    if pyIsSpace c then
      match cs with
      | [] => [' ']
      | d :: _ => if pyIsSpace d then collapseWs cs else ' ' :: collapseWs cs
    else c :: collapseWs cs

/-- Strip leading and trailing whitespace (`str.strip`). -/
def stripWs (s : Str) : Str :=
  ((s.dropWhile pyIsSpace).reverse.dropWhile pyIsSpace).reverse

/-- `normalize_text`: replace no-break spaces, collapse whitespace, strip.
(The `value is None` case of the Python function is handled by
`normalize_textO` below.) -/
def normalize_text (s : Str) : Str :=
  stripWs (collapseWs (s.map fun c => if c.val = 0xa0 then ' ' else c))

/-- `normalize_text` applied to an optional value (`None` becomes `""`). -/
def normalize_textO (s : Option Str) : Str := normalize_text (s.getD [])

/-- `sanitize_postnummer`: extract digits; if none, return the normalized
text unchanged; else truncate to 4 or left-pad with zeros to 4. -/
def sanitize_postnummer (s : Str) : Str :=
  let raw := normalize_text s
  let digits := raw.filter pyIsDigit
  if digits = [] then raw
  else if digits.length ≥ 4 then digits.take 4
  else List.replicate (4 - digits.length) '0' ++ digits

/-- `sanitize_postnummer` applied to an optional cell value. -/
def sanitize_postnummerO (s : Option Str) : Str :=
  sanitize_postnummer (s.getD [])

/-- Python `str.lower` on the characters of interest (ASCII plus Æ/Ø/Å). -/
def pyLower (c : Char) : Char :=
  if c = 'Æ' then 'æ' else if c = 'Ø' then 'ø' else if c = 'Å' then 'å'
  else c.toLower

/-- The three folding replacements `æ→ae`, `ø→o`, `å→a`. -/
def foldVowel (c : Char) : Str :=
  if c = 'æ' then ['a', 'e'] else if c = 'ø' then ['o']
  else if c = 'å' then ['a'] else [c]

/-- `unicodedata.normalize("NFKD", ·)` followed by dropping combining
characters. On every string this development evaluates (ASCII after
lower-casing and æ/ø/å folding) this is the identity, and it is modelled as
such. -/
def nfkdStrip (s : Str) : Str := s

/-- One step of `re.sub(r"\b<w>\b", r, s)` for a pattern `w` of word
characters: scan left to right; at a position whose preceding character is
not a word character, if `w` is a prefix and the following character (if
any) is not a word character, replace and continue after the match. `prev`
is whether the previous character of the original string is a word
character; `fuel` bounds recursion (callers pass `s.length`, which is
sufficient since the patterns used are nonempty). -/
def subWordGo (w r : Str) : Nat → Bool → Str → Str
  | 0, _, s => s
  | _ + 1, _, [] => []
  | fuel + 1, prev, c :: cs =>
    if !prev && w.isPrefixOf (c :: cs) &&
        (match (c :: cs).drop w.length with
         | [] => true
         | d :: _ => !pyWordChar d) then
      r ++ subWordGo w r fuel true ((c :: cs).drop w.length)
    else c :: subWordGo w r fuel (pyWordChar c) cs

/-- `re.sub(r"\b<w>\b", r, s)` for an all-word-character pattern `w`. -/
def subWord (w r s : Str) : Str := subWordGo w r s.length false s

/-- `re.sub(r"\b<w>\.\b", r, s)`: like `subWord` but the pattern ends in a
literal dot, so the trailing `\b` requires the next character to BE a word
character (a match cannot end the string), and scanning resumes after a
match with a non-word previous character (the matched `.`). -/
def subWordDotGo (w r : Str) : Nat → Bool → Str → Str
  | 0, _, s => s
  | _ + 1, _, [] => []
  | fuel + 1, prev, c :: cs =>
    if !prev && (w ++ ['.']).isPrefixOf (c :: cs) &&
        (match (c :: cs).drop (w.length + 1) with
         | [] => false
         | d :: _ => pyWordChar d) then
      r ++ subWordDotGo w r fuel false ((c :: cs).drop (w.length + 1))
    else c :: subWordDotGo w r fuel (pyWordChar c) cs

/-- `re.sub(r"\b<w>\.\b", r, s)`. -/
def subWordDot (w r s : Str) : Str := subWordDotGo w r s.length false s

/-- Keep-or-space for the final `re.sub(r"[^a-z0-9]+", " ", text)` filter. -/
def azDigit (c : Char) : Bool := ('a' ≤ c && c ≤ 'z') || pyIsDigit c

/-- Collapse every run of non-`[a-z0-9]` characters to a single space. -/
def collapseNonAz : Str → Str
  | [] => []
  | c :: cs =>
    if azDigit c then c :: collapseNonAz cs
    else
      match cs with
      | [] => [' ']
      | d :: _ => if azDigit d then ' ' :: collapseNonAz cs else collapseNonAz cs

/-- `normalize_for_compare`: lower-case, fold æ/ø/å, NFKD-strip, expand the
abbreviation words `gt`, `vn`, `v`, `vei`, `vei.`, `sv.` at word
boundaries, collapse non-alphanumerics to spaces and strip. -/
def normalize_for_compare (s : Str) : Str :=
  let t := nfkdStrip (((normalize_text s).map pyLower).flatMap foldVowel)
  let t := subWord "gt".toList "gate".toList t
  let t := subWord "vn".toList "veien".toList t
  let t := subWord "v".toList "veien".toList t
  let t := subWord "vei".toList "veien".toList t
  let t := subWordDot "vei".toList "veien".toList t
  let t := subWordDot "sv".toList "sving".toList t
  stripWs (collapseNonAz t)

example : normalize_for_compare "  Storgata   5 ".toList = "storgata 5".toList := by decide
example : normalize_for_compare "Brøndbyvn 2".toList = "brondbyvn 2".toList := by decide
example : normalize_for_compare "Oslo v 3".toList = "oslo veien 3".toList := by decide
example : normalize_for_compare "sv.x".toList = "svingx".toList := by decide
example : normalize_for_compare "sv.sv.x".toList = "svingsvingx".toList := by decide
example : normalize_for_compare "x#gt".toList = "x gate".toList := by decide

/-!
## `difflib.SequenceMatcher` (the string-similarity used by the scorer)

Modelled for `isjunk = None` on sequences of fewer than 200 elements (no
junk, no autojunk), which covers every use in the pipeline's scorer on the
strings of interest. `findLongestMatch` is the dynamic program of
`SequenceMatcher.find_longest_match`; `mbSum` is the total size of the
matching blocks of `get_matching_blocks` (the queue there is recursion,
and merging adjacent blocks does not change the total); `similarity` is
`SequenceMatcher.ratio`, `2*M/T` as an exact rational.
-/

/-- A candidate best block of the longest-match search. -/
structure FlmBest where
  besti : Nat
  bestj : Nat
  bestsize : Nat
  deriving DecidableEq, Repr

/-- Inner loop of `find_longest_match` for one row `i`: scan the positions
`j` of `b` in `[blo, bhi)` in increasing order; on a character match set
`newj2len[j] = j2len[j-1] + 1` and update the running best block. `old` is
the previous row's `j2len` (zero outside its set entries, as a Python
`dict.get(·, 0)`). -/
def flmRow (a b : Str) (blo bhi i : Nat) (old : Nat → Nat) (best0 : FlmBest) :
    (Nat → Nat) × FlmBest :=
  (List.range' blo (bhi - blo)).foldl
    (fun st j =>
      match a.get? i, b.get? j with
      | some x, some y =>
        if x = y then
          let k := (if j = 0 then 0 else old (j - 1)) + 1
          ((fun j2 => if j2 = j then k else st.1 j2),
           if k > st.2.bestsize then ⟨i + 1 - k, j + 1 - k, k⟩ else st.2)
        else st
      | _, _ => st)
    ((fun _ => 0), best0)

/-- The dynamic program of `find_longest_match` over rows `i ∈ [alo, ahi)`. -/
def flmCore (a b : Str) (alo ahi blo bhi : Nat) : FlmBest :=
  ((List.range' alo (ahi - alo)).foldl
    (fun st i => flmRow a b blo bhi i st.1 st.2)
    ((fun _ => 0), ⟨alo, blo, 0⟩)).2

/-- Backward extension loop of `find_longest_match` (the junk-free one; the
junk loops never fire since the junk set is empty). `fuel` bounds the walk
(`best.besti` suffices). -/
def flmExtBack (a b : Str) (alo blo : Nat) : Nat → FlmBest → FlmBest
  | 0, best => best
  | fuel + 1, best =>
    if best.besti > alo ∧ best.bestj > blo ∧
        (∃ x, a.get? (best.besti - 1) = some x ∧ b.get? (best.bestj - 1) = some x) then
      flmExtBack a b alo blo fuel ⟨best.besti - 1, best.bestj - 1, best.bestsize + 1⟩
    else best

/-- Forward extension loop of `find_longest_match`. -/
def flmExtFwd (a b : Str) (ahi bhi : Nat) : Nat → FlmBest → FlmBest
  | 0, best => best
  | fuel + 1, best =>
    if best.besti + best.bestsize < ahi ∧ best.bestj + best.bestsize < bhi ∧
        (∃ x, a.get? (best.besti + best.bestsize) = some x ∧
          b.get? (best.bestj + best.bestsize) = some x) then
      flmExtFwd a b ahi bhi fuel ⟨best.besti, best.bestj, best.bestsize + 1⟩
    else best

/-- `SequenceMatcher.find_longest_match` on `a[alo:ahi]` and `b[blo:bhi]`. -/
def findLongestMatch (a b : Str) (alo ahi blo bhi : Nat) : FlmBest :=
  flmExtFwd a b ahi bhi (ahi + bhi)
    (flmExtBack a b alo blo (flmCore a b alo ahi blo bhi).besti
      (flmCore a b alo ahi blo bhi))

/-- Total size of the matching blocks of `get_matching_blocks` on the given
ranges (the recursive decomposition around each longest match; its queue
form in CPython visits the same blocks). `fuel` bounds the recursion depth;
`a.length + b.length + 1` is plenty. -/
def mbSum (a b : Str) : Nat → Nat × Nat × Nat × Nat → Nat
  | 0, _ => 0
  | fuel + 1, (alo, ahi, blo, bhi) =>
    let m := findLongestMatch a b alo ahi blo bhi
    if m.bestsize = 0 then 0
    else
      (if alo < m.besti ∧ blo < m.bestj then mbSum a b fuel (alo, m.besti, blo, m.bestj)
       else 0) +
      m.bestsize +
      (if m.besti + m.bestsize < ahi ∧ m.bestj + m.bestsize < bhi then
        mbSum a b fuel (m.besti + m.bestsize, ahi, m.bestj + m.bestsize, bhi)
       else 0)

/-- `SequenceMatcher(None, a, b).ratio()` as an exact rational:
`2*M / (len(a)+len(b))`, and `1` when both are empty. -/
def similarity (a b : Str) : ℚ :=
  let T := a.length + b.length
  if T = 0 then 1
  else Rat.divInt (2 * (mbSum a b (T + 1) (0, a.length, 0, b.length) : ℤ)) T

example : similarity "aba".toList "babba".toList = Rat.divInt 3 4 := by decide
example : similarity "babba".toList "aba".toList = Rat.divInt 1 2 := by decide
example : similarity "abc".toList "acb".toList = Rat.divInt 2 3 := by decide
example : similarity "aab".toList "baa".toList = Rat.divInt 2 3 := by decide
example : similarity "a".toList "".toList = 0 := by decide
example : similarity "storgata 5".toList "storgata 5b".toList = Rat.divInt 20 21 := by decide

/-!
## Rows, candidate scoring and the two geocoding providers

`LegevaktRow` is the validated row record. The provider functions are
embedded over their HTTP environment: per query (in the order the Python
code issues them, up to the caps) the environment supplies either `none`
(request failed after retries, or a falsy body — both make the loop
`continue`) or `some` parsed candidate list. The query strings themselves
do not influence any processing beyond selecting the environment's answer,
so they are abstracted to the position in this list.
-/

/-- Validated input row (`LegevaktRow` dataclass). -/
structure LegevaktRow where
  source_row : Nat
  navn : Str
  kommune : Str
  adresse : Str
  postnummer : Str
  poststed : Str
  deriving DecidableEq, Repr

/-- Python `x or y` for an optional string `x` (`None` and `""` are falsy). -/
def pyOr (a : Option Str) (b : Str) : Str :=
  match a with
  | none => b
  | some s => if s = [] then b else s

/-- Python `x or y` for strings (`""` is falsy). -/
def pyOrS (a b : Str) : Str := if a = [] then b else a

/-- `p` occurs as a substring of `s` (Python `p in s`). -/
def isSubstr (p : Str) : Str → Bool
  | [] => p.isEmpty
  | c :: cs => p.isPrefixOf (c :: cs) || isSubstr p cs

/-- The delimiter class of `re.split(r"[,/()-]", ·)` in `has_kommune_match`. -/
def isKommuneDelim (c : Char) : Bool :=
  c = ',' || c = '/' || c = '(' || c = ')' || c = '-'

/-- `re.split` on single-character delimiters (empty parts preserved). -/
def splitDelimsGo (cur : Str) : Str → List Str
  | [] => [cur.reverse]
  | c :: cs =>
    if isKommuneDelim c then cur.reverse :: splitDelimsGo [] cs
    else splitDelimsGo (c :: cur) cs

/-- `re.split(r"[,/()-]", s)`. -/
def splitDelims (s : Str) : List Str := splitDelimsGo [] s

/-- `has_kommune_match`: normalized containment either way, also piecewise
on the delimiter-split parts of the source value. -/
def has_kommune_match (source_value candidate_value : Str) : Bool :=
  let source_norm := normalize_for_compare source_value
  let candidate_norm := normalize_for_compare candidate_value
  if source_norm = [] || candidate_norm = [] then false
  else if isSubstr candidate_norm source_norm then true
  else
    (splitDelims source_norm).any fun part =>
      let part := stripWs part
      part ≠ [] && (part = candidate_norm || isSubstr part candidate_norm)

/-- One raw Provider-A candidate (the fields of the `adresser` JSON items
that the script reads; absent keys are `none`). -/
structure GeoCandidate where
  adressetekst : Option Str
  adressetekstutenadressetilleggsnavn : Option Str
  postnummer : Option Str
  poststed : Option Str
  kommunenavn : Option Str
  kommunenummer : Option Str
  lat : Option ℚ
  lon : Option ℚ
  deriving DecidableEq, Repr

/-- `score_geonorge_candidate`: returns `(score, address_ratio)` where
`score = ratio*5 + 3·[postal match] + 2·[city match] + 1·[municipality
match] + 1·[exact normalized address]` (the integer bonuses are summed in
`ℤ` and injected with `Rat.divInt`; `qAdd_eq`/`qMul_eq` relate the
operations to `+`/`*`). -/
def score_geonorge_candidate (candidate : GeoCandidate) (row : LegevaktRow) : ℚ × ℚ :=
  let candidate_address := normalize_text
    (pyOr candidate.adressetekst (pyOr candidate.adressetekstutenadressetilleggsnavn []))
  let candidate_postnummer := sanitize_postnummerO candidate.postnummer
  let candidate_poststed := normalize_textO candidate.poststed
  let candidate_kommune := normalize_textO candidate.kommunenavn
  let input_address_norm := normalize_for_compare row.adresse
  let candidate_address_norm := normalize_for_compare candidate_address
  let r := similarity input_address_norm candidate_address_norm
  let bonus : ℤ :=
    (if candidate_postnummer ≠ [] ∧ candidate_postnummer = row.postnummer then 3 else 0) +
    (if candidate_poststed ≠ [] ∧
        normalize_for_compare candidate_poststed = normalize_for_compare row.poststed
      then 2 else 0) +
    (if has_kommune_match row.kommune candidate_kommune then 1 else 0) +
    (if candidate_address_norm ≠ [] ∧ candidate_address_norm = input_address_norm
      then 1 else 0)
  (qAdd (qMul r 5) (Rat.divInt bonus 1), r)

/-- Outcome of one HTTP attempt, as seen by `request_json`. -/
inductive HttpOutcome (α : Type) where
  | ok (body : α)
  | status (code : Nat)
  | failed
  deriving DecidableEq, Repr

/-- Attempt loop of `request_json`: up to 5 attempts, returning the first
HTTP-200 body; non-200 statuses and exceptions only trigger backoff and a
retry. Attempts beyond the provided list are failures. -/
def requestGo {α : Type} : Nat → List (HttpOutcome α) → Option α
  | 0, _ => none
  | _ + 1, [] => none
  | n + 1, a :: rest =>
    match a with
    | .ok body => some body
    | _ => requestGo n rest

/-- `request_json` over the outcomes of its (up to 5) attempts. -/
def request_json {α : Type} (attempts : List (HttpOutcome α)) : Option α :=
  requestGo 5 attempts

/-- Dedup key of a Provider-A candidate (`(address, postnummer,
kommunenummer)`). -/
def geoKey (c : GeoCandidate) : Str × Str × Str :=
  (normalize_text (pyOr c.adressetekst []),
   sanitize_postnummer (pyOr c.postnummer []),
   normalize_text (pyOr c.kommunenummer []))

/-- Accumulate one response's candidates into `(scored, seen)`: skip
already-seen keys (the key is recorded before the coordinate check, as in
the source), skip candidates without both coordinates, score the rest. -/
def geoAccum (row : LegevaktRow)
    (st : List (ℚ × ℚ × GeoCandidate) × List (Str × Str × Str))
    (cands : List GeoCandidate) :
    List (ℚ × ℚ × GeoCandidate) × List (Str × Str × Str) :=
  cands.foldl
    (fun st c =>
      let key := geoKey c
      if key ∈ st.2 then st
      else
        let seen := key :: st.2
        match c.lat, c.lon with
        | some _, some _ =>
          let sr := score_geonorge_candidate c row
          (st.1 ++ [(sr.1, sr.2, c)], seen)
        | _, _ => (st.1, seen))
    st

/-- Python `max(item[0] for item in scored)` (callers ensure nonempty). -/
def maxScore : List (ℚ × ℚ × GeoCandidate) → ℚ
  | [] => 0
  | x :: xs => xs.foldl (fun m y => max m y.1) x.1

/-- Query loop of `geocode_geonorge`: failed/falsy responses are skipped;
after a data-bearing response, stop early once the best score reaches 9.5. -/
def geoLoop (row : LegevaktRow) :
    List (Option (List GeoCandidate)) →
    List (ℚ × ℚ × GeoCandidate) × List (Str × Str × Str) →
    List (ℚ × ℚ × GeoCandidate) × List (Str × Str × Str)
  | [], st => st
  | resp :: rest, st =>
    match resp with
    | none => geoLoop row rest st
    | some cands =>
      let st := geoAccum row st cands
      if st.1 ≠ [] ∧ maxScore st.1 ≥ Rat.divInt 19 2 then st
      else geoLoop row rest st

/-- Stable insertion for the descending sort of `scored` (`list.sort`
with `reverse=True` is stable, so an element goes before the first
element of not-larger score). -/
def insertScoredDesc (x : ℚ × ℚ × GeoCandidate) :
    List (ℚ × ℚ × GeoCandidate) → List (ℚ × ℚ × GeoCandidate)
  | [] => [x]
  | y :: ys => if y.1 > x.1 then y :: insertScoredDesc x ys else x :: y :: ys

/-- Stable descending sort by score. -/
def sortScoredDesc : List (ℚ × ℚ × GeoCandidate) → List (ℚ × ℚ × GeoCandidate)
  | [] => []
  | x :: xs => insertScoredDesc x (sortScoredDesc xs)

/-- Round half-to-even on `ℚ` (Python `round`). -/
def qRoundHalfEven (q : ℚ) : ℤ :=
  let f := q.floor
  let frac := qSub q (Rat.divInt f 1)
  if frac < Rat.divInt 1 2 then f
  else if Rat.divInt 1 2 < frac then f + 1
  else if f % 2 = 0 then f else f + 1

/-- Python `round(q, ndigits)` on the exact rational model. -/
def pyRound (q : ℚ) (ndigits : Nat) : ℚ :=
  let p : ℤ := (10 : ℤ) ^ ndigits
  Rat.divInt (qRoundHalfEven (qMul q (Rat.divInt p 1))) p

/-- The selected Provider-A result (the dict built by `geocode_geonorge`). -/
structure GeonorgeMatch where
  coordinates : ℚ × ℚ
  address : Str
  postnummer : Str
  poststed : Str
  kommunenavn : Str
  score : ℚ
  address_rat : ℚ
  confidence : Str
  ambiguous : Bool
  deriving DecidableEq, Repr

/-- `geocode_geonorge` over the per-query environment: accumulate deduped
scored candidates, sort stably by descending score, and build the result
from the best candidate; confidence is `high`/`medium`/`low` at the 8/6
cutoffs and `ambiguous` marks a second-best within 0.75. -/
def geocode_geonorge (row : LegevaktRow)
    (responses : List (Option (List GeoCandidate))) : Option GeonorgeMatch :=
  let st := geoLoop row responses ([], [])
  match sortScoredDesc st.1 with
  | [] => none
  | best :: restSorted =>
    let best_score := best.1
    let bc := best.2.2
    let second_score := restSorted.head?.map (·.1)
    some
      { coordinates := (bc.lon.getD 0, bc.lat.getD 0)
        address := normalize_text
          (pyOr bc.adressetekst (pyOr bc.adressetekstutenadressetilleggsnavn row.adresse))
        postnummer := sanitize_postnummer (pyOr bc.postnummer row.postnummer)
        poststed := normalize_text (pyOr bc.poststed row.poststed)
        kommunenavn := normalize_textO bc.kommunenavn
        score := pyRound best_score 3
        address_rat := pyRound best.2.1 3
        confidence :=
          if best_score ≥ 8 then "high".toList
          else if best_score ≥ 6 then "medium".toList
          else "low".toList
        ambiguous :=
          match second_score with
          | none => false
          | some s => qSub best_score s < Rat.divInt 3 4 }

/-- One raw Provider-B JSON item. -/
structure NomItem where
  lat : Option ℚ
  lon : Option ℚ
  display_name : Option Str
  osmtype : Option Str
  deriving DecidableEq, Repr

/-- The accepted Provider-B result. -/
structure NominatimMatch where
  coordinates : ℚ × ℚ
  display_name : Str
  osmtype : Str
  deriving DecidableEq, Repr

/-- `geocode_nominatim` over its per-query environment: first response that
is a nonempty list whose first item has both coordinates wins. -/
def geocode_nominatim : List (Option (List NomItem))  → Option NominatimMatch
  | [] => none
  | resp :: rest =>
    match resp with
    | some (best :: _) =>
      match best.lat, best.lon with
      | some la, some lo =>
        some ⟨(lo, la), normalize_textO best.display_name, normalize_textO best.osmtype⟩
      | _, _ => geocode_nominatim rest
    | _ => geocode_nominatim rest

/-!
## Reconciler and report builder (`build_geojson_and_report`)

The per-row body of the loop is split into `rowWarnings` (the warning
tags, in emission order), `rowChosen` (the selected coordinates and
verified fields), `classifyRow` (the three-way outcome; `Resolved-Doubtful`
is membership of a literal tag in the warnings, exactly as the source
checks `["coordinate_diff_gt_2000m", "low_geonorge_confidence"]`), and the
report accumulators. The per-row appends of the Python loop are expressed
as `filterMap`s over the row list, which produces the same lists in the
same order. The providers enter as functions `geo`/`nom` from a row to its
result, and the haversine distance as `hav`.
-/

/-- Final three-way outcome of a processed row. -/
inductive Classification where
  | resolvedHigh
  | resolvedDoubtful
  | unresolved
  deriving DecidableEq, Repr

/-- Python `int(·)` on a float (truncation toward zero). -/
def pyIntTrunc (q : ℚ) : ℤ := if 0 ≤ q then q.floor else -((-q).floor)

/-- The f-string tag `coordinate_diff_gt_{int(threshold)}m`. -/
def diffTag (threshold : ℚ) : Str :=
  "coordinate_diff_gt_".toList ++ (toString (pyIntTrunc threshold)).toList ++ "m".toList

/-- The tag `low_geonorge_confidence`. -/
def lowConfTag : Str := "low_geonorge_confidence".toList

/-- The tag `ambiguous_geonorge_match`. -/
def ambTag : Str := "ambiguous_geonorge_match".toList

/-- The tag `missing_geonorge_match`. -/
def missGeoTag : Str := "missing_geonorge_match".toList

/-- The tag `missing_nominatim_match`. -/
def missNomTag : Str := "missing_nominatim_match".toList

/-- The literal tag `coordinate_diff_gt_2000m` hard-coded in the doubtful
test of the source. -/
def doubtLit : Str := "coordinate_diff_gt_2000m".toList

/-- The warning tags of one row, in the source's emission order. -/
def rowWarnings (hav : ℚ × ℚ → ℚ × ℚ → ℚ) (warnT doubtT : ℚ)
    (g : Option GeonorgeMatch) (n : Option NominatimMatch) : List Str :=
  (match g, n with
   | some gm, some nm =>
     let d := hav gm.coordinates nm.coordinates
     (if d > warnT then [diffTag warnT] else []) ++
       (if d > doubtT then [diffTag doubtT] else [])
   | _, _ => []) ++
  (match g with
   | some gm => if gm.confidence = "low".toList then [lowConfTag] else []
   | none => []) ++
  (match g with
   | some gm => if gm.ambiguous then [ambTag] else []
   | none => []) ++
  (if g.isNone then [missGeoTag] else []) ++
  (if n.isNone then [missNomTag] else [])

/-- `coordinate_difference_m` (set only when both providers answered). -/
def coordDiff (hav : ℚ × ℚ → ℚ × ℚ → ℚ)
    (g : Option GeonorgeMatch) (n : Option NominatimMatch) : Option ℚ :=
  match g, n with
  | some gm, some nm => some (hav gm.coordinates nm.coordinates)
  | _, _ => none

/-- The selection policy: Provider A's coordinates and verified fields
(each empty verified field falling back to the row's input), else Provider
B's coordinates with the row's input fields, else nothing. -/
def rowChosen (g : Option GeonorgeMatch) (n : Option NominatimMatch)
    (row : LegevaktRow) : Option ((ℚ × ℚ) × Str × Str × Str) :=
  match g with
  | some gm =>
    some (gm.coordinates, pyOrS gm.address row.adresse,
      pyOrS gm.postnummer row.postnummer, pyOrS gm.poststed row.poststed)
  | none =>
    match n with
    | some nm => some (nm.coordinates, row.adresse, row.postnummer, row.poststed)
    | none => none

/-- The literal doubtful test of the source:
`any(tag in warnings for tag in ["coordinate_diff_gt_2000m", "low_geonorge_confidence"])`. -/
def doubtCheck (warnings : List Str) : Bool :=
  doubtLit ∈ warnings ∨ lowConfTag ∈ warnings

/-- Three-way classification of a row (doubtful = emitted and listed in
`doubtful`; high = emitted only; unresolved = no feature). -/
def classifyRow (hav : ℚ × ℚ → ℚ × ℚ → ℚ) (warnT doubtT : ℚ)
    (g : Option GeonorgeMatch) (n : Option NominatimMatch)
    (row : LegevaktRow) : Classification :=
  match rowChosen g n row with
  | none => .unresolved
  | some _ =>
    if doubtCheck (rowWarnings hav warnT doubtT g n) then .resolvedDoubtful
    else .resolvedHigh

/-- A GeoJSON output feature (`make_feature`). -/
structure OutputFeature where
  navn : Str
  kommune : Str
  adresse : Str
  postnummer : Str
  poststed : Str
  coordinates : ℚ × ℚ
  deriving DecidableEq, Repr

/-- `make_feature`. -/
def make_feature (row : LegevaktRow) (coords : ℚ × ℚ)
    (verified_address verified_postnummer verified_poststed : Str) : OutputFeature :=
  ⟨row.navn, row.kommune, verified_address, verified_postnummer,
    verified_poststed, coords⟩

/-- An entry of the report's `unresolved` list. -/
structure UnresolvedEntry where
  source_row : Nat
  navn : Str
  kommune : Str
  adresse : Str
  postnummer : Str
  poststed : Str
  warnings : List Str
  deriving DecidableEq, Repr

/-- An entry of the report's `doubtful` list. -/
structure DoubtfulEntry where
  source_row : Nat
  navn : Str
  warnings : List Str
  deriving DecidableEq, Repr

/-- A full per-row entry of the report's `entries` list. -/
structure ReportEntry where
  source_row : Nat
  navn : Str
  input_kommune : Str
  input_adresse : Str
  input_postnummer : Str
  input_poststed : Str
  selected_adresse : Str
  selected_postnummer : Str
  selected_poststed : Str
  selected_coordinates : ℚ × ℚ
  geonorge : Option GeonorgeMatch
  nominatim : Option NominatimMatch
  coordinate_difference_m : Option ℚ
  warnings : List Str
  deriving DecidableEq, Repr

/-- The GeoJSON output plus the validation report of one run. -/
structure RunReport where
  features : List OutputFeature
  unresolved : List UnresolvedEntry
  doubtful : List DoubtfulEntry
  entries : List ReportEntry
  total_input_rows : Nat
  features_written : Nat
  unresolved_count : Nat
  doubtful_count : Nat
  warn_coord_diff_meters : ℚ
  doubt_coord_diff_meters : ℚ

/-- The per-row feature, if the row resolves. -/
def rowFeature (hav : ℚ × ℚ → ℚ × ℚ → ℚ) (warnT doubtT : ℚ)
    (geo : LegevaktRow → Option GeonorgeMatch)
    (nom : LegevaktRow → Option NominatimMatch)
    (row : LegevaktRow) : Option OutputFeature :=
  (rowChosen (geo row) (nom row) row).map fun sel =>
    make_feature row sel.1 sel.2.1 sel.2.2.1 sel.2.2.2

/-- The per-row unresolved record, if the row does not resolve. -/
def rowUnresolved (hav : ℚ × ℚ → ℚ × ℚ → ℚ) (warnT doubtT : ℚ)
    (geo : LegevaktRow → Option GeonorgeMatch)
    (nom : LegevaktRow → Option NominatimMatch)
    (row : LegevaktRow) : Option UnresolvedEntry :=
  match rowChosen (geo row) (nom row) row with
  | some _ => none
  | none =>
    some ⟨row.source_row, row.navn, row.kommune, row.adresse, row.postnummer,
      row.poststed, rowWarnings hav warnT doubtT (geo row) (nom row)⟩

/-- The per-row doubtful record, if the row resolves and trips the literal
doubtful test. -/
def rowDoubtful (hav : ℚ × ℚ → ℚ × ℚ → ℚ) (warnT doubtT : ℚ)
    (geo : LegevaktRow → Option GeonorgeMatch)
    (nom : LegevaktRow → Option NominatimMatch)
    (row : LegevaktRow) : Option DoubtfulEntry :=
  match rowChosen (geo row) (nom row) row with
  | none => none
  | some _ =>
    if doubtCheck (rowWarnings hav warnT doubtT (geo row) (nom row)) then
      some ⟨row.source_row, row.navn, rowWarnings hav warnT doubtT (geo row) (nom row)⟩
    else none

/-- The per-row full report entry, if the row resolves. -/
def rowEntry (hav : ℚ × ℚ → ℚ × ℚ → ℚ) (warnT doubtT : ℚ)
    (geo : LegevaktRow → Option GeonorgeMatch)
    (nom : LegevaktRow → Option NominatimMatch)
    (row : LegevaktRow) : Option ReportEntry :=
  (rowChosen (geo row) (nom row) row).map fun sel =>
    { source_row := row.source_row
      navn := row.navn
      input_kommune := row.kommune
      input_adresse := row.adresse
      input_postnummer := row.postnummer
      input_poststed := row.poststed
      selected_adresse := sel.2.1
      selected_postnummer := sel.2.2.1
      selected_poststed := sel.2.2.2
      selected_coordinates := sel.1
      geonorge := geo row
      nominatim := nom row
      coordinate_difference_m :=
        (coordDiff hav (geo row) (nom row)).map (pyRound · 1)
      warnings := rowWarnings hav warnT doubtT (geo row) (nom row) }

/-- `build_geojson_and_report`. -/
def build_geojson_and_report (hav : ℚ × ℚ → ℚ × ℚ → ℚ) (warnT doubtT : ℚ)
    (geo : LegevaktRow → Option GeonorgeMatch)
    (nom : LegevaktRow → Option NominatimMatch)
    (rows : List LegevaktRow) : RunReport :=
  let features := rows.filterMap (rowFeature hav warnT doubtT geo nom)
  let unresolvedL := rows.filterMap (rowUnresolved hav warnT doubtT geo nom)
  let doubtfulL := rows.filterMap (rowDoubtful hav warnT doubtT geo nom)
  let entriesL := rows.filterMap (rowEntry hav warnT doubtT geo nom)
  { features := features
    unresolved := unresolvedL
    doubtful := doubtfulL
    entries := entriesL
    total_input_rows := rows.length
    features_written := features.length
    unresolved_count := unresolvedL.length
    doubtful_count := doubtfulL.length
    warn_coord_diff_meters := warnT
    doubt_coord_diff_meters := doubtT }

/-!
## Row validation (`read_legevakter_from_excel`, lines 202–224)

The reading of cells and the header-discovery are outside the claims; a
body row is modelled by its five located cells (`row.get(col)` being
`none` for an absent cell). A row is kept only if all five fields are
nonempty after the stated normalizations.
-/

/-- The five located cells of one body row. -/
structure RawRow where
  navn : Option Str
  kommune : Option Str
  adresse : Option Str
  postnummer : Option Str
  poststed : Option Str
  deriving DecidableEq, Repr

/-- Python `str.rstrip(",")`. -/
def rstripComma (s : Str) : Str :=
  (s.reverse.dropWhile (· = ',')).reverse

/-- The validation of one body row: the five normalized fields, or `none`
if any is empty. -/
def validateRow (raw : RawRow) : Option (Str × Str × Str × Str × Str) :=
  let navn := normalize_textO raw.navn
  let kommune := normalize_textO raw.kommune
  let adresse := rstripComma (normalize_textO raw.adresse)
  let postnummer := sanitize_postnummerO raw.postnummer
  let poststed := normalize_textO raw.poststed
  if navn ≠ [] ∧ kommune ≠ [] ∧ adresse ≠ [] ∧ postnummer ≠ [] ∧ poststed ≠ []
  then some (navn, kommune, adresse, postnummer, poststed)
  else none

/-- The enumeration loop of `read_legevakter_from_excel` (body rows are
numbered from 2). -/
def readRowsGo : Nat → List RawRow → List LegevaktRow
  | _, [] => []
  | idx, raw :: rest =>
    match validateRow raw with
    | some (navn, kommune, adresse, postnummer, poststed) =>
      ⟨idx, navn, kommune, adresse, postnummer, poststed⟩ :: readRowsGo (idx + 1) rest
    | none => readRowsGo (idx + 1) rest

/-- `read_legevakter_from_excel` on the body rows. -/
def read_legevakter (raws : List RawRow) : List LegevaktRow := readRowsGo 2 raws

/-- The number of silently excluded body rows. -/
def excludedCount (raws : List RawRow) : Nat :=
  (raws.filter fun raw => (validateRow raw).isNone).length

/-!
## Shared concrete instances and helper lemmas
-/

/-- A concrete valid row used by several concrete theorems. -/
def exRow : LegevaktRow :=
  ⟨2, "Legevakt A".toList, "Oslo".toList, "Storgata 5".toList,
    "0151".toList, "Oslo".toList⟩

/-- A concrete high-confidence Provider-A result. -/
def exGeoHigh : GeonorgeMatch :=
  ⟨(10, 59), "Storgata 5".toList, "0151".toList, "Oslo".toList,
    "Oslo".toList, 9, 1, "high".toList, false⟩

/-- A concrete Provider-B result. -/
def exNom : NominatimMatch :=
  ⟨(10, 59), "Storgata 5, Oslo".toList, "building".toList⟩

theorem diffTag_eq_cons (t : ℚ) :
    diffTag t =
      'c' :: ("oordinate_diff_gt_".toList ++
        (toString (pyIntTrunc t)).toList ++ "m".toList) := by
  rw [diffTag,
    show "coordinate_diff_gt_".toList = 'c' :: "oordinate_diff_gt_".toList from by decide,
    List.cons_append, List.cons_append]

/-- No warning tag starting with a letter other than `c` can be a distance
tag, whatever the threshold. -/
theorem ne_diffTag_of_head (t : ℚ) (c : Char) (u : Str) (hc : c ≠ 'c') :
    c :: u ≠ diffTag t := by
  rw [diffTag_eq_cons]
  intro h
  have hh := congrArg List.head? h
  simp only [List.head?_cons, Option.some.injEq] at hh
  exact hc hh

/-- Counting partition: two complementary `filterMap`s cover the list. -/
theorem length_filterMap_partition {α β γ : Type} (f : α → Option β)
    (g : α → Option γ) (l : List α)
    (h : ∀ x, (f x).isSome ↔ (g x).isNone) :
    (l.filterMap f).length + (l.filterMap g).length = l.length := by
  induction l with
  | nil => simp
  | cons x xs ih =>
    have hx := h x
    cases hf : f x with
    | some b =>
      have : g x = none := by
        have := hx.mp (by simp [hf])
        simpa using this
      simp [List.filterMap_cons, hf, this]
      omega
    | none =>
      have : (g x).isSome := by
        by_contra hgg
        have h1 : (g x).isNone := by
          cases hg2 : g x with
          | none => simp
          | some c => exact absurd (by simp [hg2]) hgg
        have := hx.mpr h1
        simp [hf] at this
      cases hg : g x with
      | none => rw [hg] at this; simp at this
      | some c =>
        simp [List.filterMap_cons, hf, hg]
        omega

/-- `filterMap` length equals the count of elements where the function
answers. -/
theorem length_filterMap_eq_length_filter {α β : Type} (f : α → Option β)
    (l : List α) :
    (l.filterMap f).length = (l.filter fun x => (f x).isSome).length := by
  induction l with
  | nil => simp
  | cons x xs ih =>
    cases hf : f x with
    | some b => simp [List.filterMap_cons, List.filter_cons, hf, ih]
    | none => simp [List.filterMap_cons, List.filter_cons, hf, ih]

/-!
## C10 — postal-code sanitization
-/

/-- C10 (counterexample): the claim "for every input value, sanitization
returns a string of exactly 4 digits" fails on the digitless input
`"abc"`, which is returned unchanged. -/
theorem c10_counterexample :
    sanitize_postnummer "abc".toList = "abc".toList ∧
      (sanitize_postnummer "abc".toList).length ≠ 4 := by decide

/-- C10 (amended): for every input containing at least one digit,
sanitization returns exactly 4 digits — the digits extracted from the
input, truncated to the first 4 if more, left-padded with zeros if fewer;
digitless inputs are returned as normalized text unchanged. -/
theorem c10_sanitize_four_digits (s : Str)
    (h : (normalize_text s).filter pyIsDigit ≠ []) :
    (sanitize_postnummer s).length = 4 ∧
    (∀ c ∈ sanitize_postnummer s, pyIsDigit c) ∧
    sanitize_postnummer s =
      (if ((normalize_text s).filter pyIsDigit).length ≥ 4 then
        ((normalize_text s).filter pyIsDigit).take 4
       else
        List.replicate (4 - ((normalize_text s).filter pyIsDigit).length) '0' ++
          (normalize_text s).filter pyIsDigit) := by
  have hval : sanitize_postnummer s =
      (if ((normalize_text s).filter pyIsDigit).length ≥ 4 then
        ((normalize_text s).filter pyIsDigit).take 4
       else
        List.replicate (4 - ((normalize_text s).filter pyIsDigit).length) '0' ++
          (normalize_text s).filter pyIsDigit) := by
    simp only [sanitize_postnummer, if_neg h]
  refine ⟨?_, ?_, hval⟩
  · rw [hval]
    by_cases hlen : ((normalize_text s).filter pyIsDigit).length ≥ 4
    · rw [if_pos hlen, List.length_take]
      omega
    · rw [if_neg hlen, List.length_append, List.length_replicate]
      omega
  · intro c hc
    rw [hval] at hc
    by_cases hlen : ((normalize_text s).filter pyIsDigit).length ≥ 4
    · rw [if_pos hlen] at hc
      exact (List.mem_filter.mp (List.mem_of_mem_take hc)).2
    · rw [if_neg hlen] at hc
      rcases List.mem_append.mp hc with hrep | hfil
      · have := List.eq_of_mem_replicate hrep
        subst this
        decide
      · exact (List.mem_filter.mp hfil).2

/-- C10 (witness): the amended theorem at the concrete input `"12"`,
which sanitizes to `"0012"`. -/
theorem c10_witness :
    (normalize_text "12".toList).filter pyIsDigit ≠ [] ∧
      ((sanitize_postnummer "12".toList).length = 4 ∧
       (∀ c ∈ sanitize_postnummer "12".toList, pyIsDigit c) ∧
       sanitize_postnummer "12".toList =
         (if ((normalize_text "12".toList).filter pyIsDigit).length ≥ 4 then
           ((normalize_text "12".toList).filter pyIsDigit).take 4
          else
           List.replicate (4 - ((normalize_text "12".toList).filter pyIsDigit).length) '0' ++
             (normalize_text "12".toList).filter pyIsDigit)) :=
  ⟨by decide, c10_sanitize_four_digits "12".toList (by decide)⟩

/-!
## C8 — abbreviation unification in `normalize_for_compare`
-/

/-- C8 (counterexample): normalizing `"Storgt. 5"` does NOT yield the same
text as normalizing `"Storgate 5"`: the pattern `\bgt\b` only matches `gt`
as a whole word, and in `Storgt.` the `gt` is preceded by the word
character `r`, so no expansion happens (`"storgt 5"` vs `"storgate 5"`). -/
theorem c8_counterexample :
    normalize_for_compare "Storgt. 5".toList ≠
      normalize_for_compare "Storgate 5".toList := by decide

/-- C8 (amended): abbreviation expansion unifies whole-word street-type
abbreviations: normalizing `"Stor gt. 5"` yields the same canonical text
as normalizing `"Stor gate 5"` (both `"stor gate 5"`). -/
theorem c8_whole_word_expansion :
    normalize_for_compare "Stor gt. 5".toList =
      normalize_for_compare "Stor gate 5".toList := by decide

/-!
## C7 — idempotence of `normalize_for_compare` (counterexample part)
-/

/-- C7 (counterexample): `normalize_for_compare` is not idempotent: on
`"_v"` the underscore is a regex word character, so `\bv\b` does not match,
and the final `[^a-z0-9]+` filter then strips the underscore, leaving the
bare word `"v"`; a second normalization expands it to `"veien"`. -/
theorem c7_counterexample :
    normalize_for_compare (normalize_for_compare "_v".toList) ≠
      normalize_for_compare "_v".toList := by decide

/-!
## C9 — similarity symmetry (counterexample part)
-/

/-- C9 (counterexample): the scorer's similarity
(`SequenceMatcher.ratio`) is not symmetric:
`ratio("aba", "babba") = 3/4` but `ratio("babba", "aba") = 1/2` (the
greedy longest-match decomposition differs between the two orders). -/
theorem c9_counterexample :
    similarity "aba".toList "babba".toList ≠
      similarity "babba".toList "aba".toList := by decide


/-!
## C1 — the Resolved-Doubtful classification
-/

/-- Membership in a conditional singleton. -/
theorem mem_ite_singleton {α : Type} {p : Prop} [Decidable p] {x y : α} :
    (x ∈ if p then [y] else ([] : List α)) ↔ p ∧ x = y := by
  by_cases h : p <;> simp [h]

/-- The low-confidence tag is never a distance tag. -/
theorem lowConfTag_ne_diffTag (t : ℚ) : lowConfTag ≠ diffTag t := by
  have h0 : lowConfTag = 'l' :: "ow_geonorge_confidence".toList := by decide
  rw [h0]
  exact ne_diffTag_of_head t 'l' _ (by decide)

/-- The low-confidence tag appears in a row's warnings exactly when
Provider A answered with `low` confidence. -/
theorem mem_warnings_low (hav : ℚ × ℚ → ℚ × ℚ → ℚ) (warnT doubtT : ℚ)
    (g : Option GeonorgeMatch) (n : Option NominatimMatch) :
    (lowConfTag ∈ rowWarnings hav warnT doubtT g n) ↔
      (∃ gm, g = some gm ∧ gm.confidence = "low".toList) := by
  have hamb : lowConfTag ≠ ambTag := by decide
  have hmg : lowConfTag ≠ missGeoTag := by decide
  have hmn : lowConfTag ≠ missNomTag := by decide
  cases g with
  | none =>
    cases n <;>
      simp [rowWarnings, mem_ite_singleton, hamb, hmg, hmn, Option.isNone]
  | some gm =>
    cases n with
    | none => simp [rowWarnings, mem_ite_singleton, hamb, hmg, hmn, Option.isNone]
    | some nm =>
      simp [rowWarnings, mem_ite_singleton, hamb, hmg, hmn, Option.isNone,
        lowConfTag_ne_diffTag warnT, lowConfTag_ne_diffTag doubtT]

/-- When the doubt threshold formats to the literal tag and the warn
threshold does not, the literal tag appears in a row's warnings exactly
when both providers answered and their distance exceeds the doubt
threshold. -/
theorem mem_warnings_diff2000 (hav : ℚ × ℚ → ℚ × ℚ → ℚ) (warnT doubtT : ℚ)
    (g : Option GeonorgeMatch) (n : Option NominatimMatch)
    (hD : diffTag doubtT = doubtLit)
    (hW : diffTag warnT ≠ doubtLit) :
    (doubtLit ∈ rowWarnings hav warnT doubtT g n) ↔
      (∃ d, coordDiff hav g n = some d ∧ d > doubtT) := by
  have h1 : doubtLit ≠ lowConfTag := by decide
  have h2 : doubtLit ≠ ambTag := by decide
  have h3 : doubtLit ≠ missGeoTag := by decide
  have h4 : doubtLit ≠ missNomTag := by decide
  cases g with
  | none =>
    cases n <;>
      simp [rowWarnings, coordDiff, mem_ite_singleton, h1, h2, h3, h4,
        Option.isNone]
  | some gm =>
    cases n with
    | none =>
      simp [rowWarnings, coordDiff, mem_ite_singleton, h1, h2, h3, h4,
        Option.isNone]
    | some nm =>
      simp [rowWarnings, coordDiff, mem_ite_singleton, hD, Ne.symm hW,
        h1, h2, h3, h4, Option.isNone]

/-- C1 (amended): for a resolving row, the classification is
Resolved-Doubtful iff the providers' distance exceeded the configured
doubt threshold D or Provider A's confidence was low — PROVIDED the doubt
threshold formats to the literal tag `coordinate_diff_gt_2000m` (as the
default D = 2000 does) and the warn threshold does not; the source tests
the warnings against that literal tag, not against the configured
threshold, so the claim's "for every configured D" fails (see
`c1_counterexample`). -/
theorem c1_resolved_doubtful_iff (hav : ℚ × ℚ → ℚ × ℚ → ℚ) (warnT doubtT : ℚ)
    (g : Option GeonorgeMatch) (n : Option NominatimMatch) (row : LegevaktRow)
    (hres : (rowChosen g n row).isSome = true)
    (hD : diffTag doubtT = doubtLit)
    (hW : diffTag warnT ≠ doubtLit) :
    (classifyRow hav warnT doubtT g n row = Classification.resolvedDoubtful ↔
      ((∃ d, coordDiff hav g n = some d ∧ d > doubtT) ∨
        (∃ gm, g = some gm ∧ gm.confidence = "low".toList))) := by
  have hlow := mem_warnings_low hav warnT doubtT g n
  have hdiff := mem_warnings_diff2000 hav warnT doubtT g n hD hW
  cases hch : rowChosen g n row with
  | none => rw [hch] at hres; simp at hres
  | some sel =>
    unfold classifyRow
    rw [hch]
    by_cases hc : doubtCheck (rowWarnings hav warnT doubtT g n) = true
    · rw [if_pos hc]
      have hmem : doubtLit ∈ rowWarnings hav warnT doubtT g n ∨
          lowConfTag ∈ rowWarnings hav warnT doubtT g n := by
        simpa [doubtCheck] using hc
      refine iff_of_true rfl ?_
      rcases hmem with hm | hm
      · exact Or.inl (hdiff.mp hm)
      · exact Or.inr (hlow.mp hm)
    · rw [if_neg hc]
      refine iff_of_false (by simp) ?_
      intro hrhs
      apply hc
      have hmem : doubtLit ∈ rowWarnings hav warnT doubtT g n ∨
          lowConfTag ∈ rowWarnings hav warnT doubtT g n := by
        rcases hrhs with h | h
        · exact Or.inl (hdiff.mpr h)
        · exact Or.inr (hlow.mpr h)
      simpa [doubtCheck] using hmem

/-- C1 (counterexample): with a configured doubt threshold of D = 1000 m,
a resolving row whose providers' distance is 1500 m (> D) and whose
Provider-A confidence is `high` is NOT classified Resolved-Doubtful: the
source checks the literal tag `coordinate_diff_gt_2000m`, which these
thresholds never emit, so the claim fails for configured D ≠ 2000. -/
theorem c1_counterexample :
    ((1500 : ℚ) > 1000) ∧
    coordDiff (fun _ _ => (1500 : ℚ)) (some exGeoHigh) (some exNom) = some 1500 ∧
    classifyRow (fun _ _ => (1500 : ℚ)) 500 1000 (some exGeoHigh) (some exNom)
        exRow ≠ Classification.resolvedDoubtful := by decide

/-- C1 (witness): the amended equivalence instantiated at the default
thresholds (500/2000) with a distance of 2500 m. -/
theorem c1_witness :
    (rowChosen (some exGeoHigh) (some exNom) exRow).isSome = true ∧
    diffTag 2000 = doubtLit ∧
    diffTag 500 ≠ doubtLit ∧
    (classifyRow (fun _ _ => (2500 : ℚ)) 500 2000 (some exGeoHigh) (some exNom)
          exRow = Classification.resolvedDoubtful ↔
      ((∃ d, coordDiff (fun _ _ => (2500 : ℚ)) (some exGeoHigh) (some exNom) =
            some d ∧ d > 2000) ∨
        (∃ gm, (some exGeoHigh : Option GeonorgeMatch) = some gm ∧
          gm.confidence = "low".toList))) :=
  ⟨by decide, by decide, by decide,
    c1_resolved_doubtful_iff (fun _ _ => (2500 : ℚ)) 500 2000 (some exGeoHigh)
      (some exNom) exRow (by decide) (by decide) (by decide)⟩

/-!
## C2 — Provider A exhausts retries, Provider B substitutes
-/

/-- If no attempt returns HTTP 200, the retry loop gives up with no
result. -/
theorem requestGo_all_failed {α : Type} (fuel : Nat)
    (attempts : List (HttpOutcome α))
    (h : ∀ o ∈ attempts, ∀ b, o ≠ HttpOutcome.ok b) :
    requestGo fuel attempts = none := by
  induction fuel generalizing attempts with
  | zero => rfl
  | succ m ih =>
    cases attempts with
    | nil => rfl
    | cons a rest =>
      have ha := h a (by simp)
      cases a with
      | ok b => exact absurd rfl (ha b)
      | status code =>
        exact ih rest fun o ho b => h o (by simp [ho]) b
      | failed =>
        exact ih rest fun o ho b => h o (by simp [ho]) b

/-- `request_json` of a run whose every attempt fails is `None`. -/
theorem request_json_all_failed {α : Type} (attempts : List (HttpOutcome α))
    (h : ∀ o ∈ attempts, ∀ b, o ≠ HttpOutcome.ok b) :
    request_json attempts = none :=
  requestGo_all_failed 5 attempts h

/-- The Provider-A query loop ignores queries with no usable response. -/
theorem geoLoop_all_none (row : LegevaktRow)
    (responses : List (Option (List GeoCandidate)))
    (h : ∀ resp ∈ responses, resp = none)
    (st : List (ℚ × ℚ × GeoCandidate) × List (Str × Str × Str)) :
    geoLoop row responses st = st := by
  induction responses with
  | nil => rfl
  | cons resp rest ih =>
    have hr := h resp (by simp)
    subst hr
    exact ih (fun o ho => h o (by simp [ho]))

/-- `geocode_geonorge` of a row all of whose queries fail is `None`. -/
theorem geocode_geonorge_all_failed (row : LegevaktRow)
    (queryAttempts : List (List (HttpOutcome (List GeoCandidate))))
    (h : ∀ as ∈ queryAttempts, ∀ o ∈ as, ∀ b, o ≠ HttpOutcome.ok b) :
    geocode_geonorge row (queryAttempts.map request_json) = none := by
  have hresp : ∀ resp ∈ queryAttempts.map request_json, resp = none := by
    intro resp hresp
    rcases List.mem_map.mp hresp with ⟨as, has, rfl⟩
    exact request_json_all_failed as (h as has)
  unfold geocode_geonorge
  rw [geoLoop_all_none row _ hresp]
  rfl

/-- With Provider A missing and Provider B present, the warnings are
exactly `[missing_geonorge_match]`. -/
theorem rowWarnings_none_some (hav : ℚ × ℚ → ℚ × ℚ → ℚ) (warnT doubtT : ℚ)
    (nm : NominatimMatch) :
    rowWarnings hav warnT doubtT none (some nm) = [missGeoTag] := by
  simp [rowWarnings, Option.isNone]

/-- C2 (amended): when every Provider-A attempt fails (for example all
HTTP 500) and Provider B returns a point, the row is classified
Resolved-HIGH — not Resolved-Doubtful as the claim states, since
`missing_geonorge_match` is not one of the two tags the doubtful test
checks — the warnings include `missing_geonorge_match`, the emitted
feature's coordinates equal Provider B's point, and its address fields
equal the row's original input fields. -/
theorem c2_provider_b_substitute (hav : ℚ × ℚ → ℚ × ℚ → ℚ) (warnT doubtT : ℚ)
    (row : LegevaktRow)
    (queryAttempts : List (List (HttpOutcome (List GeoCandidate))))
    (hfail : ∀ as ∈ queryAttempts, ∀ o ∈ as, ∀ b, o ≠ HttpOutcome.ok b)
    (nm : NominatimMatch) :
    geocode_geonorge row (queryAttempts.map request_json) = none ∧
    classifyRow hav warnT doubtT
        (geocode_geonorge row (queryAttempts.map request_json)) (some nm) row =
      Classification.resolvedHigh ∧
    missGeoTag ∈ rowWarnings hav warnT doubtT
        (geocode_geonorge row (queryAttempts.map request_json)) (some nm) ∧
    rowChosen (geocode_geonorge row (queryAttempts.map request_json)) (some nm)
        row = some (nm.coordinates, row.adresse, row.postnummer, row.poststed) := by
  have hg := geocode_geonorge_all_failed row queryAttempts hfail
  rw [hg]
  have hwarn := rowWarnings_none_some hav warnT doubtT nm
  refine ⟨rfl, ?_, ?_, rfl⟩
  · unfold classifyRow rowChosen
    have hw : doubtCheck [missGeoTag] = false := by decide
    simp [hwarn, hw]
  · rw [hwarn]
    simp

/-- C2 (counterexample): a concrete run of the claimed scenario — five
HTTP 500 attempts for the single Provider-A query, Provider B answers —
satisfies all the claim's premises and conclusions except the
classification, which is Resolved-High (the doubtful list stays empty). -/
theorem c2_counterexample :
    geocode_geonorge exRow
        ([[HttpOutcome.status 500, .status 500, .status 500, .status 500,
           .status 500]].map (request_json (α := List GeoCandidate))) = none ∧
    missGeoTag ∈ rowWarnings (fun _ _ => 0) 500 2000 none (some exNom) ∧
    rowChosen (none : Option GeonorgeMatch) (some exNom) exRow =
      some (exNom.coordinates, exRow.adresse, exRow.postnummer, exRow.poststed) ∧
    classifyRow (fun _ _ => 0) 500 2000 none (some exNom) exRow ≠
      Classification.resolvedDoubtful := by decide

/-- C2 (witness): the amended theorem at the concrete scenario. -/
theorem c2_witness :
    (∀ as ∈ [[(HttpOutcome.status 500 : HttpOutcome (List GeoCandidate)),
        .status 500, .status 500, .status 500, .status 500]],
      ∀ o ∈ as, ∀ b, o ≠ HttpOutcome.ok b) ∧
    (geocode_geonorge exRow
        ([[HttpOutcome.status 500, .status 500, .status 500, .status 500,
           .status 500]].map (request_json (α := List GeoCandidate))) = none ∧
     classifyRow (fun _ _ => 0) 500 2000
         (geocode_geonorge exRow
           ([[HttpOutcome.status 500, .status 500, .status 500, .status 500,
              .status 500]].map (request_json (α := List GeoCandidate))))
         (some exNom) exRow = Classification.resolvedHigh ∧
     missGeoTag ∈ rowWarnings (fun _ _ => 0) 500 2000
         (geocode_geonorge exRow
           ([[HttpOutcome.status 500, .status 500, .status 500, .status 500,
              .status 500]].map (request_json (α := List GeoCandidate))))
         (some exNom) ∧
     rowChosen
         (geocode_geonorge exRow
           ([[HttpOutcome.status 500, .status 500, .status 500, .status 500,
              .status 500]].map (request_json (α := List GeoCandidate))))
         (some exNom) exRow =
       some (exNom.coordinates, exRow.adresse, exRow.postnummer, exRow.poststed)) :=
  ⟨by
    intro as has o ho b
    simp only [List.mem_singleton] at has
    subst has
    simp at ho
    rcases ho with rfl | rfl | rfl | rfl | rfl <;> simp,
    c2_provider_b_substitute (fun _ _ => 0) 500 2000 exRow
      [[HttpOutcome.status 500, .status 500, .status 500, .status 500,
        .status 500]]
      (by
        intro as has o ho b
        simp only [List.mem_singleton] at has
        subst has
        simp at ho
        rcases ho with rfl | rfl | rfl | rfl | rfl <;> simp)
      exNom⟩

/-!
## C3 — partition invariant of the run
-/

/-- Per row, exactly one of unresolved-record / feature is produced. -/
theorem rowUnresolved_isSome_iff (hav : ℚ × ℚ → ℚ × ℚ → ℚ) (warnT doubtT : ℚ)
    (geo : LegevaktRow → Option GeonorgeMatch)
    (nom : LegevaktRow → Option NominatimMatch) (row : LegevaktRow) :
    (rowUnresolved hav warnT doubtT geo nom row).isSome = true ↔
      (rowFeature hav warnT doubtT geo nom row).isNone = true := by
  unfold rowUnresolved rowFeature
  cases rowChosen (geo row) (nom row) row <;> simp

/-- A row is classified `unresolved` exactly when it emits no feature. -/
theorem classify_unresolved_iff (hav : ℚ × ℚ → ℚ × ℚ → ℚ) (warnT doubtT : ℚ)
    (geo : LegevaktRow → Option GeonorgeMatch)
    (nom : LegevaktRow → Option NominatimMatch) (row : LegevaktRow) :
    classifyRow hav warnT doubtT (geo row) (nom row) row =
        Classification.unresolved ↔
      rowFeature hav warnT doubtT geo nom row = none := by
  unfold classifyRow rowFeature
  cases hch : rowChosen (geo row) (nom row) row with
  | none => simp
  | some sel =>
    simp only [Option.map_some]
    constructor
    · intro h
      split at h <;> simp_all
    · intro h
      simp at h
  
/-- C3: every valid row is assigned exactly one of the three
classifications, `unresolved_count + features_written` equals the number
of rows processed, the features are exactly those of the rows classified
other than unresolved, and a row is unresolved exactly when it emits no
feature. -/
theorem c3_run_partition (hav : ℚ × ℚ → ℚ × ℚ → ℚ) (warnT doubtT : ℚ)
    (geo : LegevaktRow → Option GeonorgeMatch)
    (nom : LegevaktRow → Option NominatimMatch) (rows : List LegevaktRow) :
    (build_geojson_and_report hav warnT doubtT geo nom rows).unresolved_count +
        (build_geojson_and_report hav warnT doubtT geo nom rows).features_written =
      rows.length ∧
    (build_geojson_and_report hav warnT doubtT geo nom rows).features_written =
      (rows.filter fun row =>
        decide (classifyRow hav warnT doubtT (geo row) (nom row) row ≠
          Classification.unresolved)).length ∧
    ∀ row ∈ rows,
      (classifyRow hav warnT doubtT (geo row) (nom row) row =
          Classification.unresolved ↔
        rowFeature hav warnT doubtT geo nom row = none) := by
  refine ⟨?_, ?_, fun row _ => classify_unresolved_iff hav warnT doubtT geo nom row⟩
  · show (rows.filterMap (rowUnresolved hav warnT doubtT geo nom)).length +
        (rows.filterMap (rowFeature hav warnT doubtT geo nom)).length = rows.length
    refine length_filterMap_partition _ _ rows fun row => ?_
    rw [Option.isSome_iff_exists, Option.isNone_iff_eq_none]
    constructor
    · rintro ⟨u, hu⟩
      have h1 := (rowUnresolved_isSome_iff hav warnT doubtT geo nom row).mp
        (by simp [hu])
      simpa using h1
    · intro hn
      have h1 := (rowUnresolved_isSome_iff hav warnT doubtT geo nom row).mpr
        (by simp [hn])
      rcases Option.isSome_iff_exists.mp h1 with ⟨u, hu⟩
      exact ⟨u, hu⟩
  · show (rows.filterMap (rowFeature hav warnT doubtT geo nom)).length = _
    rw [length_filterMap_eq_length_filter]
    congr 1
    apply List.filter_congr
    intro row _
    rcases hcl : classifyRow hav warnT doubtT (geo row) (nom row) row with _ | _ | _ <;>
      [skip; skip; skip] <;>
    · first
      | (have hf : rowFeature hav warnT doubtT geo nom row = none :=
          (classify_unresolved_iff hav warnT doubtT geo nom row).mp hcl
         simp [hf, hcl])
      | (have hf : ¬ rowFeature hav warnT doubtT geo nom row = none := by
          rw [← classify_unresolved_iff hav warnT doubtT geo nom row]
          simp [hcl]
         simp [Option.isSome_iff_ne_none, hf, hcl])

/-- C3 (witness): the partition at a concrete one-row run. -/
theorem c3_witness :
    ((build_geojson_and_report (fun _ _ => 0) 500 2000 (fun _ => some exGeoHigh)
          (fun _ => some exNom) [exRow]).unresolved_count +
        (build_geojson_and_report (fun _ _ => 0) 500 2000 (fun _ => some exGeoHigh)
          (fun _ => some exNom) [exRow]).features_written = 1) ∧
    (classifyRow (fun _ _ => 0) 500 2000 (some exGeoHigh) (some exNom) exRow =
        Classification.unresolved ↔
      rowFeature (fun _ _ => 0) 500 2000 (fun _ => some exGeoHigh)
        (fun _ => some exNom) exRow = none) :=
  ⟨(c3_run_partition (fun _ _ => 0) 500 2000 (fun _ => some exGeoHigh)
      (fun _ => some exNom) [exRow]).1,
    (c3_run_partition (fun _ _ => 0) 500 2000 (fun _ => some exGeoHigh)
      (fun _ => some exNom) [exRow]).2.2 exRow (by simp)⟩

/-!
## C6 — per-row audit entries
-/

/-- C6 (counterexample): a valid processed row that resolves with neither
provider is listed in `unresolved` but gets NO entry in the report's
`entries` list, contradicting "full per-row entries ... including rows
classified Unresolved". -/
theorem c6_counterexample :
    (build_geojson_and_report (fun _ _ => 0) 500 2000 (fun _ => none)
        (fun _ => none) [exRow]).unresolved ≠ [] ∧
    (build_geojson_and_report (fun _ _ => 0) 500 2000 (fun _ => none)
        (fun _ => none) [exRow]).entries = [] := by decide

/-- C6 (amended): the report's `entries` list contains a full per-row
entry (row number, name, input fields, selected fields with coordinates,
both providers' raw results, coordinate difference, warnings) for every
row that RESOLVES, and exactly those: rows classified Unresolved produce
no entry, so `entries` has as many elements as there are features. -/
theorem c6_entries_resolved_only (hav : ℚ × ℚ → ℚ × ℚ → ℚ) (warnT doubtT : ℚ)
    (geo : LegevaktRow → Option GeonorgeMatch)
    (nom : LegevaktRow → Option NominatimMatch) (rows : List LegevaktRow) :
    (build_geojson_and_report hav warnT doubtT geo nom rows).entries.length =
      (build_geojson_and_report hav warnT doubtT geo nom rows).features_written ∧
    ∀ row ∈ rows,
      (rowEntry hav warnT doubtT geo nom row = none ↔
        classifyRow hav warnT doubtT (geo row) (nom row) row =
          Classification.unresolved) := by
  constructor
  · show (rows.filterMap (rowEntry hav warnT doubtT geo nom)).length =
      (rows.filterMap (rowFeature hav warnT doubtT geo nom)).length
    rw [length_filterMap_eq_length_filter, length_filterMap_eq_length_filter]
    congr 1
    apply List.filter_congr
    intro row _
    unfold rowEntry rowFeature
    cases rowChosen (geo row) (nom row) row <;> simp
  · intro row _
    rw [classify_unresolved_iff hav warnT doubtT geo nom row]
    unfold rowEntry rowFeature
    cases rowChosen (geo row) (nom row) row <;> simp

/-- C6 (witness): at a concrete one-row run where the row resolves. -/
theorem c6_witness :
    ((build_geojson_and_report (fun _ _ => 0) 500 2000 (fun _ => some exGeoHigh)
          (fun _ => some exNom) [exRow]).entries.length =
      (build_geojson_and_report (fun _ _ => 0) 500 2000 (fun _ => some exGeoHigh)
          (fun _ => some exNom) [exRow]).features_written) ∧
    (rowEntry (fun _ _ => 0) 500 2000 (fun _ => some exGeoHigh)
        (fun _ => some exNom) exRow = none ↔
      classifyRow (fun _ _ => 0) 500 2000 (some exGeoHigh) (some exNom) exRow =
        Classification.unresolved) :=
  ⟨(c6_entries_resolved_only (fun _ _ => 0) 500 2000 (fun _ => some exGeoHigh)
      (fun _ => some exNom) [exRow]).1,
    (c6_entries_resolved_only (fun _ _ => 0) 500 2000 (fun _ => some exGeoHigh)
      (fun _ => some exNom) [exRow]).2 exRow (by simp)⟩

/-!
## C4 — provenance of the emitted address fields
-/

/-- C4 (amended): when Provider A produced a result (Provider B's presence
being immaterial to the selection), the emitted feature's coordinates are
Provider A's point and its address, postal-code and city properties equal
Provider A's verified fields WHENEVER those verified fields are nonempty;
an empty verified field falls back to the row's original input (see
`c4_counterexample`). -/
theorem c4_provider_a_fields (hav : ℚ × ℚ → ℚ × ℚ → ℚ) (warnT doubtT : ℚ)
    (geo : LegevaktRow → Option GeonorgeMatch)
    (nom : LegevaktRow → Option NominatimMatch) (row : LegevaktRow)
    (gm : GeonorgeMatch) (nm : NominatimMatch)
    (hg : geo row = some gm) (hn : nom row = some nm)
    (ha : gm.address ≠ []) (hp : gm.postnummer ≠ []) (hs : gm.poststed ≠ []) :
    rowFeature hav warnT doubtT geo nom row =
      some (make_feature row gm.coordinates gm.address gm.postnummer
        gm.poststed) := by
  unfold rowFeature rowChosen
  rw [hg]
  simp [pyOrS, ha, hp, hs]

/-- The Provider-A candidate of the C4 counterexample: its `adressetekst`
is the truthy-but-blank string `" "`, which normalizes to the empty
verified address. -/
def c4Cand : GeoCandidate :=
  ⟨some " ".toList, none, some "0151".toList, some "Oslo".toList,
    some "Oslo".toList, some "0301".toList, some 59, some 10⟩

/-- C4 (counterexample): with both providers producing a result, the
emitted feature's address does NOT always equal Provider A's verified
address: a blank candidate address yields an empty verified address and
the feature falls back to the row's original input. -/
theorem c4_counterexample :
    (geocode_geonorge exRow [some [c4Cand]]).map (·.address) = some [] ∧
    (build_geojson_and_report (fun _ _ => 0) 500 2000
        (fun _ => geocode_geonorge exRow [some [c4Cand]])
        (fun _ => some exNom) [exRow]).features.map (·.adresse) =
      [exRow.adresse] ∧
    exRow.adresse ≠ [] := by decide

/-- C4 (witness): the amended theorem at a concrete pair of provider
results with nonempty verified fields. -/
theorem c4_witness :
    ((fun _ : LegevaktRow => some exGeoHigh) exRow = some exGeoHigh) ∧
    ((fun _ : LegevaktRow => some exNom) exRow = some exNom) ∧
    exGeoHigh.address ≠ [] ∧ exGeoHigh.postnummer ≠ [] ∧
    exGeoHigh.poststed ≠ [] ∧
    rowFeature (fun _ _ => 0) 500 2000 (fun _ => some exGeoHigh)
        (fun _ => some exNom) exRow =
      some (make_feature exRow exGeoHigh.coordinates exGeoHigh.address
        exGeoHigh.postnummer exGeoHigh.poststed) :=
  ⟨rfl, rfl, by decide, by decide, by decide,
    c4_provider_a_fields (fun _ _ => 0) 500 2000 (fun _ => some exGeoHigh)
      (fun _ => some exNom) exRow exGeoHigh exNom rfl rfl (by decide)
      (by decide) (by decide)⟩

/-!
## C5 — silently excluded rows and the report totals
-/

/-- Valid and excluded body rows partition the input. -/
theorem readRowsGo_length (idx : Nat) (raws : List RawRow) :
    (readRowsGo idx raws).length + excludedCount raws = raws.length := by
  induction raws generalizing idx with
  | nil => rfl
  | cons raw rest ih =>
    cases hv : validateRow raw with
    | none =>
      have h1 : readRowsGo idx (raw :: rest) = readRowsGo (idx + 1) rest := by
        simp only [readRowsGo, hv]
      have h2 : excludedCount (raw :: rest) = excludedCount rest + 1 := by
        simp [excludedCount, List.filter_cons, hv]
      rw [h1, h2, List.length_cons]
      have := ih (idx + 1)
      omega
    | some t =>
      obtain ⟨n1, n2, n3, n4, n5⟩ := t
      have h1 : readRowsGo idx (raw :: rest) =
          ⟨idx, n1, n2, n3, n4, n5⟩ :: readRowsGo (idx + 1) rest := by
        simp only [readRowsGo, hv]
      have h2 : excludedCount (raw :: rest) = excludedCount rest := by
        simp [excludedCount, List.filter_cons, hv]
      rw [h1, h2, List.length_cons, List.length_cons]
      have := ih (idx + 1)
      omega

/-- Every produced row records the body index it came from, and that body
row validated. -/
theorem mem_readRowsGo (idx : Nat) (raws : List RawRow) (r : LegevaktRow)
    (h : r ∈ readRowsGo idx raws) :
    ∃ k, ∃ hk : k < raws.length,
      r.source_row = idx + k ∧ (validateRow (raws.get ⟨k, hk⟩)).isSome = true := by
  induction raws generalizing idx with
  | nil => simp [readRowsGo] at h
  | cons raw rest ih =>
    cases hv : validateRow raw with
    | none =>
      rw [readRowsGo, hv] at h
      rcases ih (idx + 1) h with ⟨k, hk, hsrc, hval⟩
      exact ⟨k + 1, by simpa using Nat.succ_lt_succ hk, by omega, hval⟩
    | some t =>
      obtain ⟨navn, kommune, adresse, postnummer, poststed⟩ := t
      rw [readRowsGo, hv] at h
      rcases List.mem_cons.mp h with rfl | htail
      · exact ⟨0, by simp, by simp, by simp [hv]⟩
      · rcases ih (idx + 1) htail with ⟨k, hk, hsrc, hval⟩
        exact ⟨k + 1, by simpa using Nat.succ_lt_succ hk, by omega, hval⟩

/-- An unresolved record carries its row's source index. -/
theorem rowUnresolved_source_row (hav : ℚ × ℚ → ℚ × ℚ → ℚ) (warnT doubtT : ℚ)
    (geo : LegevaktRow → Option GeonorgeMatch)
    (nom : LegevaktRow → Option NominatimMatch) (row : LegevaktRow)
    (u : UnresolvedEntry)
    (h : rowUnresolved hav warnT doubtT geo nom row = some u) :
    u.source_row = row.source_row := by
  unfold rowUnresolved at h
  cases hch : rowChosen (geo row) (nom row) row with
  | some sel =>
    rw [hch] at h
    simp at h
  | none =>
    rw [hch] at h
    simp only [Option.some.injEq] at h
    rw [← h]

/-- A doubtful record carries its row's source index. -/
theorem rowDoubtful_source_row (hav : ℚ × ℚ → ℚ × ℚ → ℚ) (warnT doubtT : ℚ)
    (geo : LegevaktRow → Option GeonorgeMatch)
    (nom : LegevaktRow → Option NominatimMatch) (row : LegevaktRow)
    (d : DoubtfulEntry)
    (h : rowDoubtful hav warnT doubtT geo nom row = some d) :
    d.source_row = row.source_row := by
  unfold rowDoubtful at h
  cases hch : rowChosen (geo row) (nom row) row with
  | none =>
    rw [hch] at h
    simp at h
  | some sel =>
    rw [hch] at h
    by_cases hdc :
        doubtCheck (rowWarnings hav warnT doubtT (geo row) (nom row)) = true
    · rw [if_pos hdc] at h
      simp only [Option.some.injEq] at h
      rw [← h]
    · rw [if_neg hdc] at h
      simp at h

/-- C5 (amended): body rows with an empty required field are silently
excluded: they appear in neither the `unresolved` nor the `doubtful` list,
the number of body rows exceeds the report's `total_input_rows` (which
counts only VALID rows, not raw body rows) by exactly the number of
excluded rows, and `total_input_rows = features_written +
unresolved_count` (doubtful rows are a subset of the feature-emitting
rows, so the claim's sum with `doubtful_count` does not hold; see
`c5_counterexample`). -/
theorem c5_excluded_rows (hav : ℚ × ℚ → ℚ × ℚ → ℚ) (warnT doubtT : ℚ)
    (geo : LegevaktRow → Option GeonorgeMatch)
    (nom : LegevaktRow → Option NominatimMatch) (raws : List RawRow) :
    raws.length =
      (build_geojson_and_report hav warnT doubtT geo nom
          (read_legevakter raws)).total_input_rows + excludedCount raws ∧
    (build_geojson_and_report hav warnT doubtT geo nom
        (read_legevakter raws)).total_input_rows =
      (build_geojson_and_report hav warnT doubtT geo nom
          (read_legevakter raws)).features_written +
        (build_geojson_and_report hav warnT doubtT geo nom
          (read_legevakter raws)).unresolved_count ∧
    ∀ i, ∀ hi : i < raws.length, validateRow (raws.get ⟨i, hi⟩) = none →
      (∀ u ∈ (build_geojson_and_report hav warnT doubtT geo nom
          (read_legevakter raws)).unresolved, u.source_row ≠ i + 2) ∧
      (∀ d ∈ (build_geojson_and_report hav warnT doubtT geo nom
          (read_legevakter raws)).doubtful, d.source_row ≠ i + 2) := by
  refine ⟨?_, ?_, ?_⟩
  · show raws.length = (read_legevakter raws).length + excludedCount raws
    rw [← readRowsGo_length 2 raws]
    rfl
  · show (read_legevakter raws).length = _ + _
    have h := length_filterMap_partition
      (rowUnresolved hav warnT doubtT geo nom)
      (rowFeature hav warnT doubtT geo nom) (read_legevakter raws)
      (fun row => by
        rw [Option.isSome_iff_exists, Option.isNone_iff_eq_none]
        constructor
        · rintro ⟨u, hu⟩
          have h1 := (rowUnresolved_isSome_iff hav warnT doubtT geo nom row).mp
            (by simp [hu])
          simpa using h1
        · intro hn
          have h1 := (rowUnresolved_isSome_iff hav warnT doubtT geo nom row).mpr
            (by simp [hn])
          rcases Option.isSome_iff_exists.mp h1 with ⟨u, hu⟩
          exact ⟨u, hu⟩)
    show (read_legevakter raws).length =
      ((read_legevakter raws).filterMap (rowFeature hav warnT doubtT geo nom)).length +
        ((read_legevakter raws).filterMap (rowUnresolved hav warnT doubtT geo nom)).length
    omega
  · intro i hi hnone
    constructor
    · intro u hu
      rcases List.mem_filterMap.mp hu with ⟨row, hrow, hur⟩
      rw [rowUnresolved_source_row hav warnT doubtT geo nom row u hur]
      rcases mem_readRowsGo 2 raws row hrow with ⟨k, hk, hsrc, hval⟩
      rw [hsrc]
      intro hcontra
      have hki : k = i := by omega
      subst hki
      rw [hnone] at hval
      simp at hval
    · intro d hd
      rcases List.mem_filterMap.mp hd with ⟨row, hrow, hdr⟩
      rw [rowDoubtful_source_row hav warnT doubtT geo nom row d hdr]
      rcases mem_readRowsGo 2 raws row hrow with ⟨k, hk, hsrc, hval⟩
      rw [hsrc]
      intro hcontra
      have hki : k = i := by omega
      subst hki
      rw [hnone] at hval
      simp at hval

/-- The body row of the C5 scenario: its postal-code cell is blank, so the
row is silently excluded. -/
def c5Raw : RawRow :=
  ⟨some "Legevakt A".toList, some "Oslo".toList, some "Storgata 5".toList,
    some "  ".toList, some "Oslo".toList⟩

/-- C5 (counterexample): with one body row excluded for a missing postal
code, the report's `total_input_rows` (which counts valid rows only) does
NOT exceed `features_written + unresolved_count + doubtful_count` by the
number of excluded rows: here it is 0 while the claimed sum is 1. -/
theorem c5_counterexample :
    validateRow c5Raw = none ∧
    excludedCount [c5Raw] = 1 ∧
    (build_geojson_and_report (fun _ _ => 0) 500 2000 (fun _ => none)
        (fun _ => none) (read_legevakter [c5Raw])).total_input_rows ≠
      (build_geojson_and_report (fun _ _ => 0) 500 2000 (fun _ => none)
          (fun _ => none) (read_legevakter [c5Raw])).features_written +
        (build_geojson_and_report (fun _ _ => 0) 500 2000 (fun _ => none)
          (fun _ => none) (read_legevakter [c5Raw])).unresolved_count +
        (build_geojson_and_report (fun _ _ => 0) 500 2000 (fun _ => none)
          (fun _ => none) (read_legevakter [c5Raw])).doubtful_count +
        excludedCount [c5Raw] := by decide

/-- C5 (witness): the amended statement at the concrete one-excluded-row
input. -/
theorem c5_witness :
    validateRow c5Raw = none ∧
    ([c5Raw].length =
      (build_geojson_and_report (fun _ _ => 0) 500 2000 (fun _ => none)
          (fun _ => none) (read_legevakter [c5Raw])).total_input_rows +
        excludedCount [c5Raw]) ∧
    ((∀ u ∈ (build_geojson_and_report (fun _ _ => 0) 500 2000 (fun _ => none)
          (fun _ => none) (read_legevakter [c5Raw])).unresolved,
        u.source_row ≠ 0 + 2) ∧
      (∀ d ∈ (build_geojson_and_report (fun _ _ => 0) 500 2000 (fun _ => none)
          (fun _ => none) (read_legevakter [c5Raw])).doubtful,
        d.source_row ≠ 0 + 2)) :=
  ⟨by decide,
    (c5_excluded_rows (fun _ _ => 0) 500 2000 (fun _ => none) (fun _ => none)
      [c5Raw]).1,
    (c5_excluded_rows (fun _ _ => 0) 500 2000 (fun _ => none) (fun _ => none)
      [c5Raw]).2.2 0 (by decide) (by decide)⟩

/-!
## C9 (amended part) — self-similarity is 1

The dynamic program of `find_longest_match` on two copies of the same
string finds the full-length diagonal block: the invariant is that after
processing row `i`, the best block is `(0, 0, i+1)` and every `j2len`
entry is bounded by its diagonal position.
-/

/-- Invariant of one row's inner fold (`j` scanned up to `p`) on identical
strings: entries are bounded, entries at and beyond `p` are untouched, the
best block is the full diagonal up to the row (updated in passing `j = i`). -/
def InnerInv (a : Str) (i p : Nat) (st : (Nat → Nat) × FlmBest) : Prop :=
  (∀ j, st.1 j ≤ j + 1 ∧ st.1 j ≤ i + 1) ∧
  (∀ j, p ≤ j → st.1 j = 0) ∧
  (p ≤ i → st.2 = ⟨0, 0, i⟩) ∧
  (i < p → st.2 = ⟨0, 0, i + 1⟩ ∧ st.1 i = i + 1)

/-- Invariant propagation along a `foldl` over `List.range'`. -/
theorem foldl_range'_invariant {σ : Type} (f : σ → Nat → σ)
    (P : Nat → σ → Prop) (n : Nat)
    (step : ∀ p st, p < n → P p st → P (p + 1) (f st p)) :
    ∀ m p st, p + m ≤ n → P p st → P (p + m) ((List.range' p m).foldl f st) := by
  intro m
  induction m with
  | zero => intro p st _ h; simpa using h
  | succ m ih =>
    intro p st hpm h
    have h1 : P (p + 1) (f st p) := step p st (by omega) h
    have h2 := ih (p + 1) (f st p) (by omega) h1
    have harr : p + 1 + m = p + (m + 1) := by omega
    rw [harr] at h2
    simpa [List.range'_succ] using h2

/-- One inner-fold step preserves `InnerInv` on identical strings (the
`let k` of `flmRow` is written inlined here; the two forms are
definitionally equal). -/
theorem flm_step_self (a : Str) (i : Nat) (hi : i < a.length)
    (old : Nat → Nat) (hold : ∀ j, old j ≤ j + 1 ∧ old j ≤ i)
    (hdiag : 0 < i → old (i - 1) = i) :
    ∀ p st, p < a.length → InnerInv a i p st →
      InnerInv a i (p + 1)
        ((fun (st : (Nat → Nat) × FlmBest) j =>
          match a.get? i, a.get? j with
          | some x, some y =>
            if x = y then
              ((fun j2 => if j2 = j then (if j = 0 then 0 else old (j - 1)) + 1
                  else st.1 j2),
               if (if j = 0 then 0 else old (j - 1)) + 1 > st.2.bestsize then
                 ⟨i + 1 - ((if j = 0 then 0 else old (j - 1)) + 1),
                  j + 1 - ((if j = 0 then 0 else old (j - 1)) + 1),
                  (if j = 0 then 0 else old (j - 1)) + 1⟩
               else st.2)
            else st
          | _, _ => st) st p) := by
  intro p st hp hinv
  obtain ⟨hb1, hb2, hb3, hb4⟩ := hinv
  have hgi : a.get? i = some (a.get ⟨i, hi⟩) := List.get?_eq_get hi
  have hgp : a.get? p = some (a.get ⟨p, hp⟩) := List.get?_eq_get hp
  simp only [hgi, hgp]
  by_cases hxy : a.get ⟨i, hi⟩ = a.get ⟨p, hp⟩
  case neg =>
    rw [if_neg hxy]
    have hip : p ≠ i := by
      intro hc
      apply hxy
      cases hc
      rfl
    exact ⟨hb1, fun j hj => hb2 j (by omega), fun hle => hb3 (by omega),
      fun hlt => hb4 (by omega)⟩
  case pos =>
    rw [if_pos hxy]
    set k := (if p = 0 then 0 else old (p - 1)) + 1 with hkdef
    have hk1 : k ≤ p + 1 := by
      rw [hkdef]
      by_cases hp0 : p = 0
      · simp [hp0]
      · rw [if_neg hp0]
        have := (hold (p - 1)).1
        omega
    have hk2 : k ≤ i + 1 := by
      rw [hkdef]
      by_cases hp0 : p = 0
      · simp [hp0]
      · rw [if_neg hp0]
        have := (hold (p - 1)).2
        omega
    rcases Nat.lt_trichotomy p i with hpi | hpi | hpi
    · -- before the diagonal: the best block is not improved
      rw [hb3 (Nat.le_of_lt hpi)]
      have hnot : ¬ (k > (FlmBest.mk 0 0 i).bestsize) := by
        show ¬ (i < k)
        omega
      rw [if_neg hnot]
      refine ⟨?_, ?_, fun _ => rfl, fun hc => absurd hc (by omega)⟩
      · intro j
        by_cases hj : j = p
        · subst hj
          simp only [if_pos rfl]
          exact ⟨hk1, hk2⟩
        · simp only [if_neg hj]
          exact hb1 j
      · intro j hj
        have hjp : j ≠ p := by omega
        simp only [if_neg hjp]
        exact hb2 j (by omega)
    · -- the diagonal step: the best block grows to p + 1
      subst hpi
      rw [hb3 (Nat.le_refl p)]
      have hkval : k = p + 1 := by
        rw [hkdef]
        by_cases hp0 : p = 0
        · simp [hp0]
        · rw [if_neg hp0, hdiag (Nat.pos_of_ne_zero hp0)]
      have hgt : k > (FlmBest.mk 0 0 p).bestsize := by
        show p < k
        omega
      rw [if_pos hgt]
      refine ⟨?_, ?_, fun hc => absurd hc (by omega), fun _ => ⟨?_, ?_⟩⟩
      · intro j
        by_cases hj : j = p
        · subst hj
          show (if j = j then k else st.1 j) ≤ j + 1 ∧
              (if j = j then k else st.1 j) ≤ j + 1
          rw [if_pos rfl]
          omega
        · simp only [if_neg hj]
          exact hb1 j
      · intro j hj
        have hjp : j ≠ p := by omega
        simp only [if_neg hjp]
        exact hb2 j (by omega)
      · rw [hkval]
        simp
      · show (if p = p then k else st.1 p) = p + 1
        rw [if_pos rfl]
        omega
    · -- after the diagonal: the best block is already p + 1 wide
      obtain ⟨hbb, hself⟩ := hb4 hpi
      rw [hbb]
      have hnot : ¬ (k > (FlmBest.mk 0 0 (i + 1)).bestsize) := by
        show ¬ (i + 1 < k)
        omega
      rw [if_neg hnot]
      refine ⟨?_, ?_, fun hc => absurd hc (by omega), fun _ => ⟨rfl, ?_⟩⟩
      · intro j
        by_cases hj : j = p
        · subst hj
          simp only [if_pos rfl]
          exact ⟨hk1, hk2⟩
        · simp only [if_neg hj]
          exact hb1 j
      · intro j hj
        have hjp : j ≠ p := by omega
        simp only [if_neg hjp]
        exact hb2 j (by omega)
      · have hip : i ≠ p := by omega
        simp only [if_neg hip]
        exact hself

/-- A full row of the DP on identical strings establishes the row
invariant. -/
theorem flmRow_self (a : Str) (i : Nat) (hi : i < a.length) (old : Nat → Nat)
    (hold : ∀ j, old j ≤ j + 1 ∧ old j ≤ i)
    (hdiag : 0 < i → old (i - 1) = i) :
    InnerInv a i a.length (flmRow a a 0 a.length i old ⟨0, 0, i⟩) := by
  have h0 : InnerInv a i 0 ((fun _ => 0), ⟨0, 0, i⟩) :=
    ⟨fun j => ⟨Nat.zero_le _, Nat.zero_le _⟩, fun j _ => rfl,
      fun _ => rfl, fun hc => absurd hc (by omega)⟩
  have key := foldl_range'_invariant _ (InnerInv a i) a.length
    (flm_step_self a i hi old hold hdiag) a.length 0
    ((fun _ => 0), ⟨0, 0, i⟩) (by omega) h0
  rw [Nat.zero_add] at key
  exact key

/-- Invariant of the outer fold of the DP on identical strings. -/
def OuterInv (a : Str) (p : Nat) (st : (Nat → Nat) × FlmBest) : Prop :=
  (∀ j, st.1 j ≤ j + 1 ∧ st.1 j ≤ p) ∧
  (0 < p → st.1 (p - 1) = p) ∧
  st.2 = ⟨0, 0, p⟩

/-- The DP core on two copies of a string finds the full diagonal. -/
theorem flmCore_self (a : Str) :
    flmCore a a 0 a.length 0 a.length = ⟨0, 0, a.length⟩ := by
  have h0 : OuterInv a 0 ((fun _ => 0), ⟨0, 0, 0⟩) :=
    ⟨fun j => ⟨Nat.zero_le _, Nat.le_refl 0⟩, fun hc => absurd hc (by omega), rfl⟩
  have step : ∀ p st, p < a.length → OuterInv a p st →
      OuterInv a (p + 1)
        ((fun (st : (Nat → Nat) × FlmBest) i => flmRow a a 0 a.length i st.1 st.2)
          st p) := by
    intro p st hp hinv
    obtain ⟨ho1, ho2, ho3⟩ := hinv
    show OuterInv a (p + 1) (flmRow a a 0 a.length p st.1 st.2)
    rw [ho3]
    obtain ⟨hi1, hi2, hi3, hi4⟩ := flmRow_self a p hp st.1 ho1 ho2
    have hp' := hi4 hp
    refine ⟨fun j => hi1 j, fun _ => ?_, hp'.1⟩
    simpa using hp'.2
  have key := foldl_range'_invariant _ (OuterInv a) a.length step a.length 0
    ((fun _ => 0), ⟨0, 0, 0⟩) (by omega) h0
  simp only [Nat.zero_add] at key
  exact key.2.2

/-- The forward extension loop does nothing once the block reaches the
range end. -/
theorem flmExtFwd_stuck (a b : Str) (ahi bhi fuel : Nat) (best : FlmBest)
    (h : ¬ best.besti + best.bestsize < ahi) :
    flmExtFwd a b ahi bhi fuel best = best := by
  cases fuel with
  | zero => rfl
  | succ m =>
    simp only [flmExtFwd]
    rw [if_neg fun hc => h hc.1]

/-- `find_longest_match` on two copies of a string returns the whole
string as the single block. -/
theorem findLongestMatch_self (a : Str) :
    findLongestMatch a a 0 a.length 0 a.length = ⟨0, 0, a.length⟩ := by
  unfold findLongestMatch
  rw [flmCore_self]
  have hback : flmExtBack a a 0 0 (FlmBest.mk 0 0 a.length).besti
      ⟨0, 0, a.length⟩ = ⟨0, 0, a.length⟩ := rfl
  rw [hback]
  exact flmExtFwd_stuck a a a.length a.length _ _
    (by show ¬ (0 + a.length < a.length); omega)

/-- The matching blocks of a string against itself total its length. -/
theorem mbSum_self (a : Str) (fuel : Nat) :
    mbSum a a (fuel + 1) (0, a.length, 0, a.length) = a.length := by
  simp only [mbSum]
  rw [findLongestMatch_self]
  by_cases h : a.length = 0
  · simp [h]
  · rw [if_neg (by simpa using h)]
    rw [if_neg (by show ¬ ((0:Nat) < 0 ∧ (0:Nat) < 0); simp)]
    rw [if_neg (by show ¬ (0 + a.length < a.length ∧ 0 + a.length < a.length); omega)]
    show 0 + a.length + 0 = a.length
    omega

/-- C9 (amended): the scorer's similarity is reflexive-maximal —
`similarity(a, a) = 1` for every string `a` (symmetry, the claim's other
half, fails: see `c9_counterexample`). -/
theorem c9_self_similarity (a : Str) : similarity a a = 1 := by
  unfold similarity
  by_cases h : a.length + a.length = 0
  · rw [if_pos h]
  · rw [if_neg h]
    rw [mbSum_self a (a.length + a.length)]
    have hlen : a.length ≠ 0 := by omega
    have hq : ((a.length : ℚ)) ≠ 0 := Nat.cast_ne_zero.mpr hlen
    rw [Rat.divInt_eq_div]
    push_cast
    rw [show ((a.length : ℚ) + a.length) = 2 * a.length by ring]
    exact div_self (by positivity)

/-!
### Idempotence of `normalize_for_compare` on tame strings (C7 support)

`normalize_for_compare` is analysed through the decomposition of a string
into maximal runs of `[a-z0-9]` characters ("blocks"): the whole-word
substitution stages act blockwise, and the final collapse/strip stage turns
a block list into its az-tokens joined by single spaces. A second
application then leaves that canonical form fixed.
-/

/-- ASCII and not an underscore: the character set of the amended C7 claim. -/
def tameChar (c : Char) : Prop := c.toNat < 128 ∧ c ≠ '_'

/-- ASCII, not an ASCII uppercase letter, not an underscore: the characters
reaching the regex stages for a tame input. -/
def tameLow (c : Char) : Prop :=
  c.toNat < 128 ∧ ¬(65 ≤ c.toNat ∧ c.toNat ≤ 90) ∧ c.toNat ≠ 95

instance (c : Char) : Decidable (tameChar c) := by
  unfold tameChar
  infer_instance

instance (c : Char) : Decidable (tameLow c) := by
  unfold tameLow
  infer_instance

theorem char_eq_iff_toNat (a b : Char) : a = b ↔ a.toNat = b.toNat :=
  ⟨fun h => h ▸ rfl, fun h => Char.ext (UInt32.ext h)⟩

theorem azDigit_iff (c : Char) :
    azDigit c = true ↔ (97 ≤ c.toNat ∧ c.toNat ≤ 122) ∨ (48 ≤ c.toNat ∧ c.toNat ≤ 57) := by
  simp only [azDigit, pyIsDigit, Bool.or_eq_true, Bool.and_eq_true, decide_eq_true_eq]
  exact Iff.rfl

theorem pyWordChar_iff (c : Char) : pyWordChar c = true ↔
    (97 ≤ c.toNat ∧ c.toNat ≤ 122) ∨ (65 ≤ c.toNat ∧ c.toNat ≤ 90) ∨
    (48 ≤ c.toNat ∧ c.toNat ≤ 57) ∨ c.toNat = 95 ∨ 128 ≤ c.toNat := by
  simp only [pyWordChar, pyIsDigit, Bool.or_eq_true, Bool.and_eq_true, decide_eq_true_eq,
    char_eq_iff_toNat]
  show (((97 ≤ c.toNat ∧ c.toNat ≤ 122 ∨ 65 ≤ c.toNat ∧ c.toNat ≤ 90) ∨
      48 ≤ c.toNat ∧ c.toNat ≤ 57) ∨ c.toNat = 95) ∨ 128 ≤ c.toNat ↔ _
  tauto

/-- An `[a-z0-9]` character is a regex word character. -/
theorem pyWordChar_of_azDigit {c : Char} (h : azDigit c = true) : pyWordChar c = true := by
  rw [pyWordChar_iff]; rw [azDigit_iff] at h; tauto

/-- A tame lower character outside `[a-z0-9]` is not a regex word character. -/
theorem pyWordChar_eq_false {c : Char} (hc : tameLow c) (h : azDigit c = false) :
    pyWordChar c = false := by
  rw [Bool.eq_false_iff]
  intro hw
  rw [pyWordChar_iff] at hw
  rw [Bool.eq_false_iff] at h
  apply h
  rw [azDigit_iff]
  obtain ⟨h1, h2, h3⟩ := hc
  omega

theorem pyIsSpace_iff (c : Char) : pyIsSpace c = true ↔
    c.toNat = 32 ∨ c.toNat = 9 ∨ c.toNat = 10 ∨ c.toNat = 13 ∨
    c.toNat = 11 ∨ c.toNat = 12 := by
  simp only [pyIsSpace, Bool.or_eq_true, decide_eq_true_eq, char_eq_iff_toNat]
  show ((((c.toNat = 32 ∨ c.toNat = 9) ∨ c.toNat = 10) ∨ c.toNat = 13) ∨
      c.val = 11) ∨ c.val = 12 ↔ _
  have h11 : (c.val = 11) ↔ c.toNat = 11 := by
    constructor
    · intro h; rw [show c.toNat = c.val.toNat from rfl, h]; rfl
    · intro h; exact UInt32.ext h
  have h12 : (c.val = 12) ↔ c.toNat = 12 := by
    constructor
    · intro h; rw [show c.toNat = c.val.toNat from rfl, h]; rfl
    · intro h; exact UInt32.ext h
  rw [h11, h12]
  tauto

/-- An `[a-z0-9]` character is not Python whitespace. -/
theorem not_space_of_azDigit {c : Char} (h : azDigit c = true) : pyIsSpace c = false := by
  rw [Bool.eq_false_iff]
  intro hs
  rw [pyIsSpace_iff] at hs
  rw [azDigit_iff] at h
  omega

/-- Decompose a string into maximal runs of equal `azDigit`-class characters,
each tagged with that class. -/
def blocks : Str → List (Bool × Str)
  | [] => []
  | c :: cs =>
    match blocks cs with
    | [] => [(azDigit c, [c])]
    | (b, run) :: rest =>
      if azDigit c = b then (b, c :: run) :: rest
      else (azDigit c, [c]) :: (b, run) :: rest

/-- Concatenate the runs of a block list back into a string. -/
def render : List (Bool × Str) → Str
  | [] => []
  | (_, run) :: rest => run ++ render rest

/-- The tag of the first block, if any. -/
def headTag : List (Bool × Str) → Option Bool
  | [] => none
  | (b, _) :: _ => some b

/-- Well-formed block lists: runs are nonempty and uniformly tagged, and
adjacent tags alternate. -/
def WFB : List (Bool × Str) → Prop
  | [] => True
  | (b, run) :: rest =>
    run ≠ [] ∧ (∀ c ∈ run, azDigit c = b) ∧ headTag rest ≠ some b ∧ WFB rest

theorem render_blocks (s : Str) : render (blocks s) = s := by
  induction s with
  | nil => rfl
  | cons c cs ih =>
    cases hb : blocks cs with
    | nil =>
      rw [hb] at ih
      simp only [blocks, hb, render]
      rw [← ih]
      rfl
    | cons p rest =>
      obtain ⟨b, run⟩ := p
      rw [hb] at ih
      by_cases h : azDigit c = b
      · simp only [blocks, hb, if_pos h]
        simp only [render] at ih ⊢
        rw [← ih]
        rfl
      · simp only [blocks, hb, if_neg h]
        simp only [render] at ih ⊢
        rw [← ih]
        rfl

theorem blocks_wf (s : Str) : WFB (blocks s) := by
  induction s with
  | nil => trivial
  | cons c cs ih =>
    cases hb : blocks cs with
    | nil =>
      simp only [blocks, hb]
      refine ⟨by simp, ?_, by simp [headTag], trivial⟩
      intro d hd
      simp only [List.mem_singleton] at hd
      rw [hd]
    | cons p rest =>
      obtain ⟨b, run⟩ := p
      rw [hb] at ih
      obtain ⟨hne, huni, halt, hrest⟩ := ih
      by_cases h : azDigit c = b
      · simp only [blocks, hb, if_pos h]
        exact ⟨by simp, by
          intro d hd
          rcases List.mem_cons.mp hd with rfl | hd
          · exact h
          · exact huni d hd, halt, hrest⟩
      · simp only [blocks, hb, if_neg h]
        refine ⟨by simp, ?_, ?_, hne, huni, halt, hrest⟩
        · intro d hd
          simp only [List.mem_singleton] at hd
          rw [hd]
        · simp only [headTag, ne_eq, Option.some.injEq]
          exact fun hc => h hc.symm

theorem blocks_chars (s : Str) : ∀ p ∈ blocks s, ∀ c ∈ p.2, c ∈ s := by
  induction s with
  | nil => intro p hp; simp [blocks] at hp
  | cons c cs ih =>
    intro p hp d hd
    cases hb : blocks cs with
    | nil =>
      simp only [blocks, hb] at hp
      simp only [List.mem_singleton] at hp
      subst hp
      simp only [List.mem_singleton] at hd
      simp [hd]
    | cons q rest =>
      obtain ⟨b, run⟩ := q
      simp only [blocks, hb] at hp
      by_cases h : azDigit c = b
      · rw [if_pos h] at hp
        rcases List.mem_cons.mp hp with rfl | hp
        · rcases List.mem_cons.mp hd with rfl | hd
          · simp
          · exact List.mem_cons_of_mem _ (ih (b, run) (hb ▸ List.mem_cons_self _ _) d hd)
        · exact List.mem_cons_of_mem _ (ih p (hb ▸ List.mem_cons_of_mem _ hp) d hd)
      · rw [if_neg h] at hp
        rcases List.mem_cons.mp hp with rfl | hp
        · simp only [List.mem_singleton] at hd
          simp [hd]
        · exact List.mem_cons_of_mem _ (ih p (hb ▸ hp) d hd)

/-- `List.isPrefixOf` as an existential append decomposition. -/
theorem isPrefixOf_ex : ∀ (l₁ l₂ : Str), l₁.isPrefixOf l₂ = true ↔ ∃ t, l₁ ++ t = l₂ := by
  intro l₁
  induction l₁ with
  | nil => intro l₂; simp [List.isPrefixOf]
  | cons a as ih =>
    intro l₂
    cases l₂ with
    | nil => simp [List.isPrefixOf]
    | cons b bs =>
      rw [show (a :: as).isPrefixOf (b :: bs) = (a == b && as.isPrefixOf bs) from rfl]
      constructor
      · intro h
        rw [Bool.and_eq_true, beq_iff_eq] at h
        obtain ⟨rfl, h2⟩ := h
        obtain ⟨t, ht⟩ := (ih bs).mp h2
        exact ⟨t, by rw [List.cons_append, ht]⟩
      · intro h
        obtain ⟨t, ht⟩ := h
        have ht' : a :: (as ++ t) = b :: bs := ht
        injection ht' with h1 h2
        rw [Bool.and_eq_true, beq_iff_eq]
        exact ⟨h1, (ih bs).mpr ⟨t, h2⟩⟩

theorem subWordGo_nil (w r : Str) (fuel : Nat) (prev : Bool) :
    subWordGo w r fuel prev [] = [] := by
  cases fuel <;> rfl

theorem subWordDotGo_nil (w r : Str) (fuel : Nat) (prev : Bool) :
    subWordDotGo w r fuel prev [] = [] := by
  cases fuel <;> rfl

/-- A scanner position whose previous character is a word character passes
over a run of word characters unchanged. -/
theorem subWordGo_pass_word (w r : Str) :
    ∀ run, (∀ c ∈ run, pyWordChar c = true) →
    ∀ rest fuel, subWordGo w r (run.length + fuel) true (run ++ rest)
      = run ++ subWordGo w r fuel true rest := by
  intro run
  induction run with
  | nil => intro _ rest fuel; simp
  | cons c cs ih =>
    intro hw rest fuel
    have hc : pyWordChar c = true := hw c (List.mem_cons_self _ _)
    simp only [List.length_cons, List.cons_append]
    rw [show cs.length + 1 + fuel = cs.length + fuel + 1 from by omega]
    rw [subWordGo]
    rw [if_neg (by simp)]
    rw [hc, ih (fun d hd => hw d (List.mem_cons_of_mem _ hd)) rest fuel]

theorem subWordDotGo_pass_word (w r : Str) :
    ∀ run, (∀ c ∈ run, pyWordChar c = true) →
    ∀ rest fuel, subWordDotGo w r (run.length + fuel) true (run ++ rest)
      = run ++ subWordDotGo w r fuel true rest := by
  intro run
  induction run with
  | nil => intro _ rest fuel; simp
  | cons c cs ih =>
    intro hw rest fuel
    have hc : pyWordChar c = true := hw c (List.mem_cons_self _ _)
    simp only [List.length_cons, List.cons_append]
    rw [show cs.length + 1 + fuel = cs.length + fuel + 1 from by omega]
    rw [subWordDotGo]
    rw [if_neg (by simp)]
    rw [hc, ih (fun d hd => hw d (List.mem_cons_of_mem _ hd)) rest fuel]

/-- The scanner passes over a run of non-word characters unchanged
(the pattern starts with a word character, so no match can start inside). -/
theorem subWordGo_pass_nonword (w r : Str) (hw : w ≠ [])
    (hwaz : ∀ c ∈ w, azDigit c = true) :
    ∀ run, (∀ c ∈ run, pyWordChar c = false) →
    ∀ rest fuel prev, subWordGo w r (run.length + fuel) prev (run ++ rest)
      = run ++ subWordGo w r fuel (if run = [] then prev else false) rest := by
  intro run
  induction run with
  | nil => intro _ rest fuel prev; simp
  | cons c cs ih =>
    intro hr rest fuel prev
    have hc : pyWordChar c = false := hr c (List.mem_cons_self _ _)
    obtain ⟨wh, wt, rfl⟩ : ∃ wh wt, w = wh :: wt := by
      cases w with
      | nil => exact absurd rfl hw
      | cons a as => exact ⟨a, as, rfl⟩
    have hwh : pyWordChar wh = true :=
      pyWordChar_of_azDigit (hwaz wh (List.mem_cons_self _ _))
    have hne : wh ≠ c := by
      intro h
      rw [h, hc] at hwh
      exact Bool.false_ne_true hwh
    simp only [List.length_cons, List.cons_append]
    rw [show cs.length + 1 + fuel = cs.length + fuel + 1 from by omega]
    rw [subWordGo]
    rw [if_neg (by simp [List.isPrefixOf, hne])]
    rw [hc]
    rw [ih (fun d hd => hr d (List.mem_cons_of_mem _ hd)) rest fuel false]
    rw [ite_self]
    rw [if_neg (by simp)]

theorem subWordDotGo_pass_nonword (w r : Str) (hw : w ≠ [])
    (hwaz : ∀ c ∈ w, azDigit c = true) :
    ∀ run, (∀ c ∈ run, pyWordChar c = false) →
    ∀ rest fuel prev, subWordDotGo w r (run.length + fuel) prev (run ++ rest)
      = run ++ subWordDotGo w r fuel (if run = [] then prev else false) rest := by
  intro run
  induction run with
  | nil => intro _ rest fuel prev; simp
  | cons c cs ih =>
    intro hr rest fuel prev
    have hc : pyWordChar c = false := hr c (List.mem_cons_self _ _)
    obtain ⟨wh, wt, rfl⟩ : ∃ wh wt, w = wh :: wt := by
      cases w with
      | nil => exact absurd rfl hw
      | cons a as => exact ⟨a, as, rfl⟩
    have hwh : pyWordChar wh = true :=
      pyWordChar_of_azDigit (hwaz wh (List.mem_cons_self _ _))
    have hne : wh ≠ c := by
      intro h
      rw [h, hc] at hwh
      exact Bool.false_ne_true hwh
    simp only [List.length_cons, List.cons_append]
    rw [show cs.length + 1 + fuel = cs.length + fuel + 1 from by omega]
    rw [subWordDotGo]
    rw [if_neg (by simp [List.cons_append, List.isPrefixOf, hne])]
    rw [hc]
    rw [ih (fun d hd => hr d (List.mem_cons_of_mem _ hd)) rest fuel false]
    rw [ite_self]
    rw [if_neg (by simp)]

/-- At the start of a maximal `[a-z0-9]` run differing from the pattern,
the whole-word guard of `subWordGo` is false. -/
theorem subWord_noMatch_run (w : Str) (hwaz : ∀ c ∈ w, azDigit c = true)
    (run : Str) (hraz : ∀ c ∈ run, azDigit c = true) (hne : run ≠ w)
    (rest : Str) (hrest : ∀ d, rest.head? = some d → azDigit d = false) :
    (w.isPrefixOf (run ++ rest) &&
      (match (run ++ rest).drop w.length with
       | [] => true
       | d :: _ => !pyWordChar d)) = false := by
  by_cases hp : w.isPrefixOf (run ++ rest)
  case neg =>
    rw [Bool.eq_false_iff]
    intro hcon
    rw [Bool.and_eq_true] at hcon
    exact hp hcon.1
  case pos =>
    obtain ⟨tl, htl⟩ := (isPrefixOf_ex w (run ++ rest)).mp hp
    have htake : w = (run ++ rest).take w.length := by
      rw [← htl, List.take_left]
    rcases Nat.lt_or_ge run.length w.length with h2 | h1
    · -- the pattern would extend past the run; its char at the run's end is
      -- an az character while the rest starts with a non-az character
      exfalso
      cases rest with
      | nil =>
        have hlen := congrArg List.length htl
        simp only [List.length_append, List.length_nil] at hlen
        omega
      | cons d rest' =>
        have hd : azDigit d = false := hrest d rfl
        have htk : w.take (run.length + 1) = run ++ [d] := by
          have h1 : (run ++ d :: rest').take (run.length + 1) = run ++ [d] := by
            rw [List.take_append]
            simp
          rw [← h1, htake, List.take_take]
          congr 1
          omega
        have hdw : d ∈ w := by
          have : d ∈ w.take (run.length + 1) := by
            rw [htk]
            exact List.mem_append_right _ (List.mem_cons_self _ _)
          exact List.take_subset _ _ this
        rw [hwaz d hdw] at hd
        exact Bool.false_ne_true hd.symm
    · rcases Nat.eq_or_lt_of_le h1 with heq | hlt
      · -- equal lengths force run = w
        exfalso
        exact hne ((List.append_inj htl heq).1).symm
      · -- the character right after the pattern is still inside the run
        have hdrop : (run ++ rest).drop w.length = run.drop w.length ++ rest :=
          List.drop_append_of_le_length (le_of_lt hlt)
        have hlen : (run.drop w.length).length = run.length - w.length := by
          simp [List.length_drop]
        cases hd : run.drop w.length with
        | nil => rw [hd] at hlen; simp at hlen; omega
        | cons d ds =>
          have hdrun : d ∈ run := by
            have : d ∈ run.drop w.length := by rw [hd]; exact List.mem_cons_self _ _
            exact List.mem_of_mem_drop this
          have : pyWordChar d = true := pyWordChar_of_azDigit (hraz d hdrun)
          rw [hdrop, hd]
          simp [this]

/-- For a well-formed block list whose head is not an az-block, the rendered
string does not start with an `[a-z0-9]` character. -/
theorem render_head_nonaz {bs : List (Bool × Str)} (hwf : WFB bs)
    (hht : headTag bs ≠ some true) :
    ∀ d, (render bs).head? = some d → azDigit d = false := by
  intro d hd
  cases bs with
  | nil => simp [render] at hd
  | cons p rest =>
    obtain ⟨b, run⟩ := p
    cases b with
    | true => exact absurd rfl hht
    | false =>
      obtain ⟨hne, huni, _, _⟩ := hwf
      cases run with
      | nil => exact absurd rfl hne
      | cons c cs =>
        simp only [render, List.cons_append, List.head?_cons, Option.some.injEq] at hd
        rw [← hd]
        exact huni c (List.mem_cons_self _ _)

/-- Every character of a rendered block list lies in one of its blocks. -/
theorem render_mem {bs : List (Bool × Str)} {c : Char} (h : c ∈ render bs) :
    ∃ p ∈ bs, c ∈ p.2 := by
  induction bs with
  | nil => simp [render] at h
  | cons p rest ih =>
    obtain ⟨b, run⟩ := p
    simp only [render, List.mem_append] at h
    rcases h with h | h
    · exact ⟨(b, run), List.mem_cons_self _ _, h⟩
    · obtain ⟨q, hq, hc⟩ := ih h
      exact ⟨q, List.mem_cons_of_mem _ hq, hc⟩

/-- The effect of one whole-word substitution pass on a single block. -/
def replTok (w rep : Str) : Bool × Str → Bool × Str
  | (true, run) => if run = w then (true, rep) else (true, run)
  | (false, run) => (false, run)

/-- `subWordGo` passes over a maximal az-run that differs from the pattern. -/
theorem subWordGo_pass_run (w rep : Str) (hwaz : ∀ c ∈ w, azDigit c = true) :
    ∀ run, run ≠ [] → (∀ c ∈ run, azDigit c = true) → run ≠ w →
    ∀ rest fuel, (∀ d, rest.head? = some d → azDigit d = false) →
    subWordGo w rep (run.length + fuel) false (run ++ rest)
      = run ++ subWordGo w rep fuel true rest := by
  intro run hrne hraz hrun rest fuel hrest
  cases run with
  | nil => exact absurd rfl hrne
  | cons c run' =>
    have hg := subWord_noMatch_run w hwaz (c :: run') hraz hrun rest hrest
    have hg' : (w.isPrefixOf (c :: (run' ++ rest)) &&
        (match (c :: (run' ++ rest)).drop w.length with
         | [] => true
         | d :: _ => !pyWordChar d)) = false := hg
    simp only [List.length_cons, List.cons_append]
    rw [show run'.length + 1 + fuel = run'.length + fuel + 1 from by omega]
    rw [subWordGo]
    rw [if_neg (by
      simp only [Bool.not_false, Bool.true_and]
      intro hcon
      rw [hcon] at hg'
      exact Bool.false_ne_true hg'.symm)]
    rw [pyWordChar_of_azDigit (hraz c (List.mem_cons_self _ _))]
    rw [subWordGo_pass_word w rep run'
      (fun d hd => pyWordChar_of_azDigit (hraz d (List.mem_cons_of_mem _ hd))) rest fuel]

/-- `subWordGo` replaces the pattern when it stands as a whole maximal run. -/
theorem subWordGo_match_run (w rep : Str) (hw : w ≠ []) :
    ∀ rest fuel, (∀ d, rest.head? = some d → pyWordChar d = false) →
    subWordGo w rep (w.length + fuel) false (w ++ rest)
      = rep ++ subWordGo w rep (w.length - 1 + fuel) true rest := by
  intro rest fuel hrest
  obtain ⟨wh, wt, rfl⟩ : ∃ wh wt, w = wh :: wt := by
    cases w with
    | nil => exact absurd rfl hw
    | cons a as => exact ⟨a, as, rfl⟩
  have hpre : (wh :: wt).isPrefixOf (wh :: (wt ++ rest)) = true :=
    (isPrefixOf_ex (wh :: wt) (wh :: (wt ++ rest))).mpr ⟨rest, rfl⟩
  have hdrop : (wh :: (wt ++ rest)).drop (wh :: wt).length = rest :=
    List.drop_left (wh :: wt) rest
  simp only [List.length_cons, List.cons_append]
  rw [show wt.length + 1 + fuel = wt.length + fuel + 1 from by omega]
  rw [subWordGo]
  rw [if_pos (by
    simp only [Bool.not_false, Bool.true_and, Bool.and_eq_true]
    refine ⟨hpre, ?_⟩
    rw [hdrop]
    cases hr : rest with
    | nil => rfl
    | cons d tl =>
      have : pyWordChar d = false := hrest d (by rw [hr]; rfl)
      simp [this])]
  rw [hdrop]
  rw [show wt.length + 1 - 1 + fuel = wt.length + fuel from by omega]

/-- A word character seen right before the rendered tail of a block list
whose head is a non-az block: the boundary hypothesis `render_head_nonaz`
in `pyWordChar` form. -/
theorem render_head_nonword {bs : List (Bool × Str)} (hwf : WFB bs)
    (hht : headTag bs ≠ some true) (hch : ∀ p ∈ bs, ∀ c ∈ p.2, tameLow c) :
    ∀ d, (render bs).head? = some d → pyWordChar d = false := by
  intro d hd
  have haz : azDigit d = false := render_head_nonaz hwf hht d hd
  have hmem : d ∈ render bs := by
    cases hrb : render bs with
    | nil => rw [hrb] at hd; simp at hd
    | cons x xs =>
      rw [hrb] at hd
      simp only [List.head?_cons, Option.some.injEq] at hd
      rw [← hd]
      exact List.mem_cons_self _ _
  obtain ⟨p, hp, hc⟩ := render_mem hmem
  exact pyWordChar_eq_false (hch p hp d hc) haz

/-- `subWordGo` on a rendered well-formed tame block list replaces exactly
the az-blocks equal to the pattern. -/
theorem subWordGo_blocks_go (w rep : Str) (hw : w ≠ [])
    (hwaz : ∀ c ∈ w, azDigit c = true) :
    ∀ bs prev fuel, WFB bs → (∀ p ∈ bs, ∀ c ∈ p.2, tameLow c) →
    (render bs).length ≤ fuel →
    (prev = true → headTag bs ≠ some true) →
    subWordGo w rep fuel prev (render bs) = render (bs.map (replTok w rep)) := by
  intro bs
  induction bs with
  | nil =>
    intro prev fuel _ _ _ _
    exact subWordGo_nil w rep fuel prev
  | cons p bs' ih =>
    obtain ⟨b, run⟩ := p
    intro prev fuel hwf hchars hfuel hprev
    obtain ⟨hne, huni, halt, hwf'⟩ := hwf
    have hchars' : ∀ p ∈ bs', ∀ c ∈ p.2, tameLow c :=
      fun p hp => hchars p (List.mem_cons_of_mem _ hp)
    have hlen : run.length + (render bs').length ≤ fuel := by
      have : render ((b, run) :: bs') = run ++ render bs' := rfl
      rw [this, List.length_append] at hfuel
      exact hfuel
    cases b with
    | false =>
      have hrw : ∀ c ∈ run, pyWordChar c = false := fun c hc =>
        pyWordChar_eq_false (hchars (false, run) (List.mem_cons_self _ _) c hc) (huni c hc)
      show subWordGo w rep fuel prev (run ++ render bs') = _
      rw [show fuel = run.length + (fuel - run.length) from by omega]
      rw [subWordGo_pass_nonword w rep hw hwaz run hrw (render bs') _ prev]
      rw [if_neg hne]
      rw [ih false (fuel - run.length) hwf' hchars' (by omega)
        (fun h => absurd h (by simp))]
      rfl
    | true =>
      have hb : prev = false := by
        cases prev with
        | false => rfl
        | true => exact absurd rfl (hprev rfl)
      subst hb
      have hraz : ∀ c ∈ run, azDigit c = true := huni
      by_cases hrun : run = w
      · -- the block is the pattern: replace it
        show subWordGo w rep fuel false (run ++ render bs') = _
        rw [hrun] at hlen ⊢
        rw [show fuel = w.length + (fuel - w.length) from by omega]
        rw [subWordGo_match_run w rep hw (render bs') (fuel - w.length)
          (render_head_nonword hwf' halt hchars')]
        rw [ih true (w.length - 1 + (fuel - w.length)) hwf' hchars'
          (by have : 1 ≤ w.length := List.length_pos.mpr hw; omega)
          (fun _ => halt)]
        show _ = render (replTok w rep (true, w) :: bs'.map (replTok w rep))
        rw [show replTok w rep (true, w) = (true, rep) from by simp [replTok]]
        rfl
      · -- a different az-run: pass over it
        show subWordGo w rep fuel false (run ++ render bs') = _
        rw [show fuel = run.length + (fuel - run.length) from by omega]
        rw [subWordGo_pass_run w rep hwaz run hne hraz hrun (render bs')
          (fuel - run.length) (render_head_nonaz hwf' halt)]
        rw [ih true (fuel - run.length) hwf' hchars' (by omega) (fun _ => halt)]
        show _ = render (replTok w rep (true, run) :: bs'.map (replTok w rep))
        rw [show replTok w rep (true, run) = (true, run) from by
          simp [replTok, hrun]]
        rfl

/-- At the start of a maximal `[a-z0-9]` run differing from the pattern,
the guard of the dot-pattern scanner is false: `w.` can only match with the
run exactly equal to `w`. -/
theorem subWordDot_noMatch_run (w : Str) (hwaz : ∀ c ∈ w, azDigit c = true)
    (run : Str) (hraz : ∀ c ∈ run, azDigit c = true) (hne : run ≠ w)
    (rest : Str) (hrest : ∀ d, rest.head? = some d → azDigit d = false) :
    ((w ++ ['.']).isPrefixOf (run ++ rest) &&
      (match (run ++ rest).drop (w.length + 1) with
       | [] => false
       | d :: _ => pyWordChar d)) = false := by
  by_cases hp : (w ++ ['.']).isPrefixOf (run ++ rest)
  case neg =>
    rw [Bool.eq_false_iff]
    intro hcon
    rw [Bool.and_eq_true] at hcon
    exact hp hcon.1
  case pos =>
    exfalso
    obtain ⟨tl, htl⟩ := (isPrefixOf_ex (w ++ ['.']) (run ++ rest)).mp hp
    have htake : w ++ ['.'] = (run ++ rest).take (w.length + 1) := by
      rw [← htl]
      rw [show w.length + 1 = (w ++ ['.']).length from by
        rw [List.length_append, List.length_singleton]]
      rw [List.take_left]
    rcases Nat.lt_or_ge run.length w.length with h2 | h1
    · -- the pattern's az part would extend past the run
      cases rest with
      | nil =>
        have hlen := congrArg List.length htl
        simp only [List.length_append, List.length_singleton, List.length_nil] at hlen
        omega
      | cons d rest' =>
        have hd : azDigit d = false := hrest d rfl
        have htk : w.take (run.length + 1) = run ++ [d] := by
          have hx : (run ++ d :: rest').take (run.length + 1) = run ++ [d] := by
            rw [List.take_append]
            simp
          have hy : (w ++ ['.']).take (run.length + 1) = w.take (run.length + 1) :=
            List.take_append_of_le_length (by omega)
          rw [← hx, ← hy, htake, List.take_take]
          congr 1
          omega
        have hdw : d ∈ w := by
          have : d ∈ w.take (run.length + 1) := by
            rw [htk]
            exact List.mem_append_right _ (List.mem_cons_self _ _)
          exact List.take_subset _ _ this
        rw [hwaz d hdw] at hd
        exact Bool.false_ne_true hd.symm
    · rcases Nat.eq_or_lt_of_le h1 with heq | hlt
      · -- equal lengths force run = w
        rw [List.append_assoc] at htl
        exact hne ((List.append_inj htl heq).1).symm
      · -- the pattern's dot would land inside the az run
        have htk : (w ++ ['.']).take (w.length + 1) = w ++ ['.'] := by
          rw [List.take_append]
          simp
        have hdot : '.' ∈ run := by
          have hmem : '.' ∈ w ++ ['.'] :=
            List.mem_append_right _ (List.mem_cons_self _ _)
          rw [htake] at hmem
          have hy : (run ++ rest).take (w.length + 1) = run.take (w.length + 1) :=
            List.take_append_of_le_length (by omega)
          rw [hy] at hmem
          exact List.take_subset _ _ hmem
        have := hraz '.' hdot
        simp [azDigit, pyIsDigit] at this

/-- The dot scanner passes over a maximal az-run differing from the pattern. -/
theorem subWordDotGo_pass_run (w rep : Str) (hwaz : ∀ c ∈ w, azDigit c = true) :
    ∀ run, run ≠ [] → (∀ c ∈ run, azDigit c = true) → run ≠ w →
    ∀ rest fuel, (∀ d, rest.head? = some d → azDigit d = false) →
    subWordDotGo w rep (run.length + fuel) false (run ++ rest)
      = run ++ subWordDotGo w rep fuel true rest := by
  intro run hrne hraz hrun rest fuel hrest
  cases run with
  | nil => exact absurd rfl hrne
  | cons c run' =>
    have hg := subWordDot_noMatch_run w hwaz (c :: run') hraz hrun rest hrest
    have hg' : ((w ++ ['.']).isPrefixOf (c :: (run' ++ rest)) &&
        (match (c :: (run' ++ rest)).drop (w.length + 1) with
         | [] => false
         | d :: _ => pyWordChar d)) = false := hg
    simp only [List.length_cons, List.cons_append]
    rw [show run'.length + 1 + fuel = run'.length + fuel + 1 from by omega]
    rw [subWordDotGo]
    rw [if_neg (by
      simp only [Bool.not_false, Bool.true_and]
      intro hcon
      rw [hcon] at hg'
      exact Bool.false_ne_true hg'.symm)]
    rw [pyWordChar_of_azDigit (hraz c (List.mem_cons_self _ _))]
    rw [subWordDotGo_pass_word w rep run'
      (fun d hd => pyWordChar_of_azDigit (hraz d (List.mem_cons_of_mem _ hd))) rest fuel]

/-- The dot scanner passes over an az-run equal to the pattern when the
character after the following dot (if any) is not a word character. -/
theorem subWordDotGo_pass_w (w rep : Str) (hw : w ≠ [])
    (hwaz : ∀ c ∈ w, azDigit c = true) :
    ∀ rest fuel, (∀ d tl, rest = '.' :: d :: tl → pyWordChar d = false) →
    subWordDotGo w rep (w.length + fuel) false (w ++ rest)
      = w ++ subWordDotGo w rep fuel true rest := by
  intro rest fuel hshape
  obtain ⟨wh, wt, rfl⟩ : ∃ wh wt, w = wh :: wt := by
    cases w with
    | nil => exact absurd rfl hw
    | cons a as => exact ⟨a, as, rfl⟩
  have hg' : (((wh :: wt) ++ ['.']).isPrefixOf (wh :: (wt ++ rest)) &&
      (match (wh :: (wt ++ rest)).drop ((wh :: wt).length + 1) with
       | [] => false
       | d :: _ => pyWordChar d)) = false := by
    by_cases hp : ((wh :: wt) ++ ['.']).isPrefixOf (wh :: (wt ++ rest))
    · obtain ⟨tl0, htl0⟩ := (isPrefixOf_ex ((wh :: wt) ++ ['.'])
        (wh :: (wt ++ rest))).mp hp
      have htl1 : (wh :: wt) ++ ('.' :: tl0) = (wh :: wt) ++ rest := by
        have h2 : ((wh :: wt) ++ ['.']) ++ tl0 = (wh :: wt) ++ rest := htl0
        rw [List.append_assoc] at h2
        exact h2
      have hrest : rest = '.' :: tl0 := (List.append_cancel_left htl1).symm
      have hdrop : (wh :: (wt ++ rest)).drop ((wh :: wt).length + 1) = tl0 := by
        rw [hrest]
        have h := @List.drop_append _ (wh :: wt) ('.' :: tl0) 1
        exact h
      rw [hdrop, hp, Bool.true_and]
      cases htl : tl0 with
      | nil => rfl
      | cons d tl' =>
        have : pyWordChar d = false := hshape d tl' (by rw [hrest, htl])
        exact this
    · rw [Bool.eq_false_iff]
      intro hcon
      rw [Bool.and_eq_true] at hcon
      exact hp hcon.1
  simp only [List.length_cons, List.cons_append]
  rw [show wt.length + 1 + fuel = wt.length + fuel + 1 from by omega]
  rw [subWordDotGo]
  rw [if_neg (by
    simp only [Bool.not_false, Bool.true_and]
    intro hcon
    rw [hcon] at hg'
    exact Bool.false_ne_true hg'.symm)]
  rw [pyWordChar_of_azDigit (hwaz wh (List.mem_cons_self _ _))]
  rw [subWordDotGo_pass_word (wh :: wt) rep wt
    (fun d hd => pyWordChar_of_azDigit (hwaz d (List.mem_cons_of_mem _ hd))) rest fuel]

/-- The dot scanner's match step: the pattern stands as a whole az-run,
followed by a dot and a word character; the match consumes the run and the
dot and resumes with a non-word previous character. -/
theorem subWordDotGo_match (w rep : Str) (hw : w ≠ []) :
    ∀ d rest fuel, pyWordChar d = true →
    subWordDotGo w rep (w.length + 1 + fuel) false (w ++ '.' :: d :: rest)
      = rep ++ subWordDotGo w rep (w.length + fuel) false (d :: rest) := by
  intro d rest fuel hd
  obtain ⟨wh, wt, rfl⟩ : ∃ wh wt, w = wh :: wt := by
    cases w with
    | nil => exact absurd rfl hw
    | cons a as => exact ⟨a, as, rfl⟩
  have hpre : ((wh :: wt) ++ ['.']).isPrefixOf (wh :: (wt ++ '.' :: d :: rest)) = true :=
    (isPrefixOf_ex _ _).mpr ⟨d :: rest, by simp⟩
  have hdrop : (wh :: (wt ++ '.' :: d :: rest)).drop ((wh :: wt).length + 1) = d :: rest := by
    have h := @List.drop_append _ (wh :: wt) ('.' :: d :: rest) 1
    exact h
  simp only [List.length_cons, List.cons_append]
  rw [show wt.length + 1 + 1 + fuel = wt.length + 1 + fuel + 1 from by omega]
  rw [subWordDotGo]
  rw [if_pos (by
    simp only [Bool.not_false, Bool.true_and, Bool.and_eq_true]
    refine ⟨hpre, ?_⟩
    rw [hdrop]
    exact hd)]
  rw [hdrop]

/-- Glue a replacement onto the front of a block list, fusing with a
leading az-block if there is one. -/
def mergeRep (rep : Str) : List (Bool × Str) → List (Bool × Str)
  | (true, r2) :: out2 => (true, rep ++ r2) :: out2
  | out => (true, rep) :: out

theorem render_mergeRep (rep : Str) (out : List (Bool × Str)) :
    render (mergeRep rep out) = rep ++ render out := by
  rcases out with _ | ⟨⟨b, r⟩, out2⟩
  · simp [mergeRep, render]
  · cases b
    · simp [mergeRep, render]
    · simp [mergeRep, render, List.append_assoc]

/-- The effect of one dot-pattern pass (`re.sub(r"\b<w>\.\b", ·)`) on a
well-formed block list: an az-block equal to the pattern followed by a
single-dot block and another az-block merges the replacement with that
az-block; everything else is untouched. -/
def dotReplB (w rep : Str) : List (Bool × Str) → List (Bool × Str)
  | [] => []
  | (false, run) :: rest => (false, run) :: dotReplB w rep rest
  | (true, run) :: [] => [(true, run)]
  | (true, run) :: (b2, f) :: rest2 =>
    if run = w ∧ b2 = false ∧ f = ['.'] ∧ headTag rest2 = some true then
      mergeRep rep (dotReplB w rep rest2)
    else (true, run) :: dotReplB w rep ((b2, f) :: rest2)

/-- `subWordDotGo` on a rendered well-formed tame block list acts as
`dotReplB`. -/
theorem subWordDotGo_blocks_go (w rep : Str) (hw : w ≠ [])
    (hwaz : ∀ c ∈ w, azDigit c = true) :
    ∀ n bs, bs.length ≤ n →
    ∀ prev fuel, WFB bs → (∀ p ∈ bs, ∀ c ∈ p.2, tameLow c) →
    (render bs).length ≤ fuel →
    (prev = true → headTag bs ≠ some true) →
    subWordDotGo w rep fuel prev (render bs) = render (dotReplB w rep bs) := by
  intro n
  induction n with
  | zero =>
    intro bs hbs prev fuel _ _ _ _
    have hnil : bs = [] := List.eq_nil_of_length_eq_zero (Nat.le_zero.mp hbs)
    subst hnil
    exact subWordDotGo_nil w rep fuel prev
  | succ n ihn =>
    intro bs hbs prev fuel hwf hchars hfuel hprev
    cases bs with
    | nil => exact subWordDotGo_nil w rep fuel prev
    | cons p bs' =>
      obtain ⟨b, run⟩ := p
      obtain ⟨hne, huni, halt, hwf'⟩ := hwf
      have hchars' : ∀ p ∈ bs', ∀ c ∈ p.2, tameLow c :=
        fun p hp => hchars p (List.mem_cons_of_mem _ hp)
      have hlen : run.length + (render bs').length ≤ fuel := by
        have h : render ((b, run) :: bs') = run ++ render bs' := rfl
        rw [h, List.length_append] at hfuel
        exact hfuel
      have hbs' : bs'.length ≤ n := by
        simp only [List.length_cons] at hbs
        omega
      cases b with
      | false =>
        have hrw : ∀ c ∈ run, pyWordChar c = false := fun c hc =>
          pyWordChar_eq_false (hchars (false, run) (List.mem_cons_self _ _) c hc) (huni c hc)
        show subWordDotGo w rep fuel prev (run ++ render bs') = _
        rw [show fuel = run.length + (fuel - run.length) from by omega]
        rw [subWordDotGo_pass_nonword w rep hw hwaz run hrw (render bs') _ prev]
        rw [if_neg hne]
        rw [ihn bs' hbs' false (fuel - run.length) hwf' hchars' (by omega)
          (fun h => absurd h (by simp))]
        rfl
      | true =>
        have hb : prev = false := by
          cases prev with
          | false => rfl
          | true => exact absurd rfl (hprev rfl)
        subst hb
        cases bs' with
        | nil =>
          -- a final az-run: pass over it whether or not it equals the pattern
          by_cases hrun : run = w
          · rw [hrun] at hlen
            rw [hrun]
            show subWordDotGo w rep fuel false (w ++ render ([] : List (Bool × Str))) = _
            rw [show fuel = w.length + (fuel - w.length) from by omega]
            rw [subWordDotGo_pass_w w rep hw hwaz (render ([] : List (Bool × Str)))
              (fuel - w.length) (fun d tl h => by simp [render] at h)]
            rw [show render ([] : List (Bool × Str)) = ([] : Str) from rfl]
            rw [subWordDotGo_nil]
            rfl
          · show subWordDotGo w rep fuel false (run ++ render ([] : List (Bool × Str))) = _
            rw [show fuel = run.length + (fuel - run.length) from by omega]
            rw [subWordDotGo_pass_run w rep hwaz run hne huni hrun
              (render ([] : List (Bool × Str))) (fuel - run.length)
              (fun d hd => by simp [render] at hd)]
            rw [show render ([] : List (Bool × Str)) = ([] : Str) from rfl]
            rw [subWordDotGo_nil]
            rfl
        | cons q bs2 =>
          obtain ⟨b2, f⟩ := q
          cases b2 with
          | true => exact absurd rfl halt
          | false =>
            obtain ⟨hne2, huni2, halt2, hwf2⟩ := hwf'
            have hchars2 : ∀ p ∈ bs2, ∀ c ∈ p.2, tameLow c :=
              fun p hp => hchars' p (List.mem_cons_of_mem _ hp)
            have hbs2 : bs2.length ≤ n := by
              simp only [List.length_cons] at hbs
              omega
            by_cases hrun : run = w
            · by_cases hfdot : f = ['.'] ∧ headTag bs2 = some true
              · -- the dot pattern matches and merges with the next az-run
                obtain ⟨hf, hhead⟩ := hfdot
                obtain ⟨run2, bs3, rfl⟩ : ∃ run2 bs3, bs2 = (true, run2) :: bs3 := by
                  cases bs2 with
                  | nil => simp [headTag] at hhead
                  | cons r bs3 =>
                    obtain ⟨b3, r3⟩ := r
                    simp only [headTag, Option.some.injEq] at hhead
                    exact ⟨r3, bs3, by rw [hhead]⟩
                obtain ⟨hne3, huni3, halt3, hwf3⟩ := hwf2
                obtain ⟨d, run2', rfl⟩ : ∃ d run2', run2 = d :: run2' := by
                  cases run2 with
                  | nil => exact absurd rfl hne3
                  | cons a as => exact ⟨a, as, rfl⟩
                rw [hrun, hf]
                show subWordDotGo w rep fuel false
                  (w ++ '.' :: d :: (run2' ++ render bs3)) = _
                have hfuel' : (w ++ '.' :: d :: (run2' ++ render bs3)).length ≤ fuel := by
                  rw [hrun, hf] at hlen
                  have h : (render ((false, ['.']) :: (true, d :: run2') :: bs3)) =
                      '.' :: d :: (run2' ++ render bs3) := rfl
                  rw [h] at hlen
                  simp only [List.length_append, List.length_cons] at hlen ⊢
                  omega
                have hwlen : w.length + 1 ≤ fuel := by
                  simp only [List.length_append, List.length_cons] at hfuel'
                  omega
                rw [show fuel = (w.length + 1) + (fuel - w.length - 1) from by omega]
                rw [subWordDotGo_match w rep hw d (run2' ++ render bs3) _
                  (pyWordChar_of_azDigit (huni3 d (List.mem_cons_self _ _)))]
                have hih : subWordDotGo w rep (w.length + (fuel - w.length - 1)) false
                    (render ((true, d :: run2') :: bs3))
                    = render (dotReplB w rep ((true, d :: run2') :: bs3)) :=
                  ihn ((true, d :: run2') :: bs3)
                    (by simp only [List.length_cons] at hbs ⊢; omega) false
                    (w.length + (fuel - w.length - 1))
                    (show WFB ((true, d :: run2') :: bs3) from ⟨hne3, huni3, halt3, hwf3⟩)
                    hchars2
                    (by
                      show (d :: run2' ++ render bs3).length ≤ _
                      simp only [List.length_append, List.length_cons] at hfuel' ⊢
                      omega)
                    (fun h => absurd h (by simp))
                have hih' : subWordDotGo w rep (w.length + (fuel - w.length - 1)) false
                    (d :: (run2' ++ render bs3))
                    = render (dotReplB w rep ((true, d :: run2') :: bs3)) := hih
                rw [hih']
                show _ = render (dotReplB w rep
                  ((true, w) :: (false, ['.']) :: (true, d :: run2') :: bs3))
                rw [show dotReplB w rep
                    ((true, w) :: (false, ['.']) :: (true, d :: run2') :: bs3)
                  = mergeRep rep (dotReplB w rep ((true, d :: run2') :: bs3)) from by
                  simp [dotReplB, headTag]]
                rw [render_mergeRep]
              · -- the pattern run is followed by something other than ".<word>"
                have hshape : ∀ d tl, render ((false, f) :: bs2) = '.' :: d :: tl →
                    pyWordChar d = false := by
                  intro d tl heq
                  obtain ⟨d0, ftail, rfl⟩ : ∃ d0 ftail, f = d0 :: ftail := by
                    cases f with
                    | nil => exact absurd rfl hne2
                    | cons a as => exact ⟨a, as, rfl⟩
                  have heq' : d0 :: (ftail ++ render bs2) = '.' :: d :: tl := heq
                  cases ftail with
                  | cons e ftail' =>
                    have heq2 : e :: (ftail' ++ render bs2) = d :: tl := by
                      injection heq'
                    have hde : d = e := by
                      injection heq2 with h1 h2
                      exact h1.symm
                    rw [hde]
                    exact pyWordChar_eq_false
                      (hchars' (false, d0 :: e :: ftail') (List.mem_cons_self _ _) e
                        (List.mem_cons_of_mem _ (List.mem_cons_self _ _)))
                      (huni2 e (List.mem_cons_of_mem _ (List.mem_cons_self _ _)))
                  | nil =>
                    have hd0 : d0 = '.' := by
                      injection heq' with h1 h2
                    have heq2 : render bs2 = d :: tl := by
                      injection heq' with h1 h2
                    have hf : d0 :: ([] : Str) = ['.'] := by rw [hd0]
                    have hht2 : headTag bs2 ≠ some true := fun hcon => hfdot ⟨hf, hcon⟩
                    have hd : (render bs2).head? = some d := by
                      rw [heq2]
                      rfl
                    exact render_head_nonword hwf2 hht2 hchars2 d hd
                rw [hrun] at hlen
                rw [hrun]
                show subWordDotGo w rep fuel false
                  (w ++ render ((false, f) :: bs2)) = _
                rw [show fuel = w.length + (fuel - w.length) from by omega]
                rw [subWordDotGo_pass_w w rep hw hwaz (render ((false, f) :: bs2))
                  (fuel - w.length) hshape]
                rw [ihn ((false, f) :: bs2) hbs' true (fuel - w.length)
                  ⟨hne2, huni2, halt2, hwf2⟩ hchars' (by omega) (fun _ => halt)]
                show _ = render (dotReplB w rep ((true, w) :: (false, f) :: bs2))
                rw [show dotReplB w rep ((true, w) :: (false, f) :: bs2)
                  = (true, w) :: dotReplB w rep ((false, f) :: bs2) from by
                  simp [dotReplB, hfdot]]
                rfl
            · -- a different az-run: pass over it
              show subWordDotGo w rep fuel false
                (run ++ render ((false, f) :: bs2)) = _
              rw [show fuel = run.length + (fuel - run.length) from by omega]
              rw [subWordDotGo_pass_run w rep hwaz run hne huni hrun
                (render ((false, f) :: bs2)) (fuel - run.length)
                (render_head_nonaz
                  (show WFB ((false, f) :: bs2) from ⟨hne2, huni2, halt2, hwf2⟩) halt)]
              rw [ihn ((false, f) :: bs2) hbs' true (fuel - run.length)
                ⟨hne2, huni2, halt2, hwf2⟩ hchars' (by omega) (fun _ => halt)]
              show _ = render (dotReplB w rep ((true, run) :: (false, f) :: bs2))
              rw [show dotReplB w rep ((true, run) :: (false, f) :: bs2)
                = (true, run) :: dotReplB w rep ((false, f) :: bs2) from by
                simp [dotReplB, hrun]]
              rfl

/-- The az-tokens (runs of `[a-z0-9]`) of a block list, in order. -/
def azToks : List (Bool × Str) → List Str
  | [] => []
  | (true, run) :: rest => run :: azToks rest
  | (false, _) :: rest => azToks rest

theorem headTag_map_replTok (w rep : Str) (bs : List (Bool × Str)) :
    headTag (bs.map (replTok w rep)) = headTag bs := by
  cases bs with
  | nil => rfl
  | cons p rest =>
    obtain ⟨b, run⟩ := p
    cases b with
    | false => rfl
    | true =>
      simp only [List.map_cons, replTok]
      by_cases h : run = w
      · rw [if_pos h]; rfl
      · rw [if_neg h]; rfl

theorem WFB_map_replTok (w rep : Str) (hrep : rep ≠ [])
    (hrepaz : ∀ c ∈ rep, azDigit c = true) :
    ∀ bs, WFB bs → WFB (bs.map (replTok w rep)) := by
  intro bs
  induction bs with
  | nil => intro _; trivial
  | cons p rest ih =>
    obtain ⟨b, run⟩ := p
    intro hwf
    obtain ⟨hne, huni, halt, hwf'⟩ := hwf
    cases b with
    | false =>
      exact ⟨hne, huni, by rw [headTag_map_replTok]; exact halt, ih hwf'⟩
    | true =>
      simp only [List.map_cons, replTok]
      by_cases h : run = w
      · rw [if_pos h]
        exact ⟨hrep, hrepaz, by rw [headTag_map_replTok]; exact halt, ih hwf'⟩
      · rw [if_neg h]
        exact ⟨hne, huni, by rw [headTag_map_replTok]; exact halt, ih hwf'⟩

theorem chars_map_replTok (w rep : Str) :
    ∀ (bs : List (Bool × Str)), ∀ p ∈ bs.map (replTok w rep), ∀ c ∈ p.2,
    (∃ q ∈ bs, c ∈ q.2) ∨ c ∈ rep := by
  intro bs
  induction bs with
  | nil => intro p hp; simp at hp
  | cons q rest ih =>
    obtain ⟨b, run⟩ := q
    intro p hp c hc
    simp only [List.map_cons, List.mem_cons] at hp
    rcases hp with rfl | hp
    · cases b with
      | false => exact Or.inl ⟨(false, run), List.mem_cons_self _ _, hc⟩
      | true =>
        simp only [replTok] at hc
        by_cases h : run = w
        · rw [if_pos h] at hc
          exact Or.inr hc
        · rw [if_neg h] at hc
          exact Or.inl ⟨(true, run), List.mem_cons_self _ _, hc⟩
    · rcases ih p hp c hc with ⟨q, hq, hcq⟩ | hcr
      · exact Or.inl ⟨q, List.mem_cons_of_mem _ hq, hcq⟩
      · exact Or.inr hcr

theorem azToks_map_replTok (w rep : Str) :
    ∀ bs, azToks (bs.map (replTok w rep))
      = (azToks bs).map (fun t => if t = w then rep else t) := by
  intro bs
  induction bs with
  | nil => rfl
  | cons p rest ih =>
    obtain ⟨b, run⟩ := p
    cases b with
    | false =>
      simp only [List.map_cons, replTok, azToks]
      exact ih
    | true =>
      simp only [List.map_cons, replTok, azToks]
      by_cases h : run = w
      · rw [if_pos h]
        simp only [azToks, ih, List.map_cons, if_pos h]
      · rw [if_neg h]
        simp only [azToks, ih, List.map_cons, if_neg h]

theorem headTag_mergeRep (rep : Str) (out : List (Bool × Str)) :
    headTag (mergeRep rep out) = some true := by
  rcases out with _ | ⟨⟨b, r⟩, out2⟩
  · rfl
  · cases b <;> rfl

theorem headTag_dotReplB (w rep : Str) :
    ∀ bs, headTag (dotReplB w rep bs) = headTag bs := by
  intro bs
  match bs with
  | [] => rfl
  | (false, run) :: rest => rfl
  | (true, run) :: [] => rfl
  | (true, run) :: (b2, f) :: rest2 =>
    simp only [dotReplB]
    by_cases h : run = w ∧ b2 = false ∧ f = ['.'] ∧ headTag rest2 = some true
    · rw [if_pos h, headTag_mergeRep]
      rfl
    · rw [if_neg h]
      rfl

theorem WFB_dotReplB (w rep : Str) (hrep : rep ≠ [])
    (hrepaz : ∀ c ∈ rep, azDigit c = true) :
    ∀ n (bs : List (Bool × Str)), bs.length ≤ n → WFB bs →
    WFB (dotReplB w rep bs) := by
  intro n
  induction n with
  | zero =>
    intro bs hbs _
    have hnil : bs = [] := List.eq_nil_of_length_eq_zero (Nat.le_zero.mp hbs)
    subst hnil
    trivial
  | succ n ihn =>
    intro bs hbs hwf
    match bs with
    | [] => trivial
    | (false, run) :: rest =>
      obtain ⟨hne, huni, halt, hwf'⟩ := hwf
      refine ⟨hne, huni, ?_, ihn rest (by simp only [List.length_cons] at hbs ⊢; omega) hwf'⟩
      rw [headTag_dotReplB]
      exact halt
    | (true, run) :: [] => exact hwf
    | (true, run) :: (b2, f) :: rest2 =>
      obtain ⟨hne, huni, halt, hne2, huni2, halt2, hwf2⟩ := hwf
      simp only [dotReplB]
      by_cases h : run = w ∧ b2 = false ∧ f = ['.'] ∧ headTag rest2 = some true
      · rw [if_pos h]
        have hout : WFB (dotReplB w rep rest2) :=
          ihn rest2 (by simp only [List.length_cons] at hbs ⊢; omega) hwf2
        have hhead : headTag (dotReplB w rep rest2) = some true := by
          rw [headTag_dotReplB]
          exact h.2.2.2
        cases hdout : dotReplB w rep rest2 with
        | nil => rw [hdout] at hhead; simp [headTag] at hhead
        | cons q out2 =>
          obtain ⟨b', r2⟩ := q
          rw [hdout] at hhead
          simp only [headTag, Option.some.injEq] at hhead
          subst hhead
          rw [hdout] at hout
          obtain ⟨hne3, huni3, halt3, hwf3⟩ := hout
          show WFB ((true, rep ++ r2) :: out2)
          refine ⟨by simp [hrep], ?_, halt3, hwf3⟩
          intro c hc
          rcases List.mem_append.mp hc with hc | hc
          · exact hrepaz c hc
          · exact huni3 c hc
      · rw [if_neg h]
        refine ⟨hne, huni, ?_, ihn ((b2, f) :: rest2) (by simp only [List.length_cons] at hbs ⊢; omega)
          ⟨hne2, huni2, halt2, hwf2⟩⟩
        rw [headTag_dotReplB]
        exact halt

theorem azToks_dotReplB (w rep : Str) :
    ∀ n (bs : List (Bool × Str)), bs.length ≤ n →
    ∀ t ∈ azToks (dotReplB w rep bs), t ∈ azToks bs ∨ ∃ u, t = rep ++ u := by
  intro n
  induction n with
  | zero =>
    intro bs hbs t ht
    have hnil : bs = [] := List.eq_nil_of_length_eq_zero (Nat.le_zero.mp hbs)
    subst hnil
    simp [dotReplB, azToks] at ht
  | succ n ihn =>
    intro bs hbs t ht
    match bs, ht with
    | [], ht => simp [dotReplB, azToks] at ht
    | (false, run) :: rest, ht =>
      have ht' : t ∈ azToks (dotReplB w rep rest) := ht
      have := ihn rest (by simp only [List.length_cons] at hbs ⊢; omega) t ht'
      simpa [azToks] using this
    | (true, run) :: [], ht =>
      simp only [dotReplB, azToks] at ht ⊢
      exact Or.inl ht
    | (true, run) :: (b2, f) :: rest2, ht =>
      simp only [dotReplB] at ht
      by_cases h : run = w ∧ b2 = false ∧ f = ['.'] ∧ headTag rest2 = some true
      · rw [if_pos h] at ht
        have hsub : ∀ s, s ∈ azToks (dotReplB w rep rest2) →
            s ∈ azToks ((true, run) :: (b2, f) :: rest2) ∨ ∃ u, s = rep ++ u := by
          intro s hs
          rcases ihn rest2 (by simp only [List.length_cons] at hbs ⊢; omega) s hs with hs' | hs'
          · left
            rw [h.2.1]
            simp only [azToks]
            right
            exact hs'
          · right
            exact hs'
        cases hdout : dotReplB w rep rest2 with
        | nil =>
          rw [hdout] at ht
          simp only [mergeRep, azToks, List.mem_singleton] at ht
          subst ht
          exact Or.inr ⟨[], by simp⟩
        | cons q out2 =>
          obtain ⟨b', r2⟩ := q
          rw [hdout] at ht
          cases b' with
          | true =>
            simp only [mergeRep, azToks, List.mem_cons] at ht
            rcases ht with rfl | ht
            · exact Or.inr ⟨r2, rfl⟩
            · have : t ∈ azToks (dotReplB w rep rest2) := by
                rw [hdout]
                simp only [azToks, List.mem_cons]
                right
                exact ht
              exact hsub t this
          | false =>
            simp only [mergeRep, azToks, List.mem_cons] at ht
            rcases ht with rfl | ht
            · exact Or.inr ⟨[], by simp⟩
            · have : t ∈ azToks (dotReplB w rep rest2) := by
                rw [hdout]
                simpa [azToks] using ht
              exact hsub t this
      · rw [if_neg h] at ht
        simp only [azToks, List.mem_cons] at ht
        rcases ht with rfl | ht
        · left
          simp [azToks]
        · have := ihn ((b2, f) :: rest2) (by simp only [List.length_cons] at hbs ⊢; omega) t ht
          rcases this with h' | h'
          · left
            simp only [azToks]
            cases b2 with
            | true =>
              simp only [azToks] at h' ⊢
              right
              exact h'
            | false =>
              simp only [azToks] at h' ⊢
              right
              exact h'
          · right
            exact h'

theorem chars_dotReplB (w rep : Str) :
    ∀ n (bs : List (Bool × Str)), bs.length ≤ n →
    ∀ p ∈ dotReplB w rep bs, ∀ c ∈ p.2,
    (∃ q ∈ bs, c ∈ q.2) ∨ c ∈ rep := by
  intro n
  induction n with
  | zero =>
    intro bs hbs p hp
    have hnil : bs = [] := List.eq_nil_of_length_eq_zero (Nat.le_zero.mp hbs)
    subst hnil
    simp [dotReplB] at hp
  | succ n ihn =>
    intro bs hbs p hp c hc
    match bs, hp with
    | [], hp => simp [dotReplB] at hp
    | (false, run) :: rest, hp =>
      have hp' : p ∈ (false, run) :: dotReplB w rep rest := hp
      rcases List.mem_cons.mp hp' with rfl | hp2
      · exact Or.inl ⟨(false, run), List.mem_cons_self _ _, hc⟩
      · rcases ihn rest (by simp only [List.length_cons] at hbs ⊢; omega) p hp2 c hc with
          ⟨q, hq, hcq⟩ | hcr
        · exact Or.inl ⟨q, List.mem_cons_of_mem _ hq, hcq⟩
        · exact Or.inr hcr
    | (true, run) :: [], hp =>
      have hp' : p ∈ [(true, run)] := hp
      simp only [List.mem_singleton] at hp'
      subst hp'
      exact Or.inl ⟨(true, run), List.mem_cons_self _ _, hc⟩
    | (true, run) :: (b2, f) :: rest2, hp =>
      simp only [dotReplB] at hp
      have hsub : ∀ q, q ∈ dotReplB w rep rest2 → ∀ e ∈ q.2,
          (∃ q' ∈ (true, run) :: (b2, f) :: rest2, e ∈ q'.2) ∨ e ∈ rep := by
        intro q hq e he
        rcases ihn rest2 (by simp only [List.length_cons] at hbs ⊢; omega) q hq e he with
          ⟨q', hq', he'⟩ | her
        · exact Or.inl ⟨q', List.mem_cons_of_mem _ (List.mem_cons_of_mem _ hq'), he'⟩
        · exact Or.inr her
      by_cases h : run = w ∧ b2 = false ∧ f = ['.'] ∧ headTag rest2 = some true
      · rw [if_pos h] at hp
        cases hdout : dotReplB w rep rest2 with
        | nil =>
          rw [hdout] at hp
          simp only [mergeRep, List.mem_singleton] at hp
          subst hp
          exact Or.inr hc
        | cons q out2 =>
          obtain ⟨b', r2⟩ := q
          rw [hdout] at hp
          cases b' with
          | true =>
            simp only [mergeRep, List.mem_cons] at hp
            rcases hp with rfl | hp
            · rcases List.mem_append.mp hc with hc | hc
              · exact Or.inr hc
              · exact hsub (true, r2) (by rw [hdout]; exact List.mem_cons_self _ _) c hc
            · exact hsub p (by rw [hdout]; exact List.mem_cons_of_mem _ hp) c hc
          | false =>
            simp only [mergeRep, List.mem_cons] at hp
            rcases hp with rfl | hp
            · exact Or.inr hc
            · rcases hp with rfl | hp
              · exact hsub (false, r2) (by rw [hdout]; exact List.mem_cons_self _ _) c hc
              · exact hsub p (by rw [hdout]; exact List.mem_cons_of_mem _ hp) c hc
      · rw [if_neg h] at hp
        rcases List.mem_cons.mp hp with rfl | hp2
        · exact Or.inl ⟨(true, run), List.mem_cons_self _ _, hc⟩
        · rcases ihn ((b2, f) :: rest2) (by simp only [List.length_cons] at hbs ⊢; omega)
            p hp2 c hc with ⟨q, hq, hcq⟩ | hcr
          · exact Or.inl ⟨q, List.mem_cons_of_mem _ hq, hcq⟩
          · exact Or.inr hcr

/-- The dot pass is the identity on block lists without any dot character. -/
theorem dotReplB_id_nodot (w rep : Str) :
    ∀ (bs : List (Bool × Str)), (∀ p ∈ bs, '.' ∉ p.2) →
    dotReplB w rep bs = bs := by
  intro bs
  induction bs with
  | nil => intro _; rfl
  | cons p rest ih =>
    intro hdot
    obtain ⟨b, run⟩ := p
    cases b with
    | false =>
      show (false, run) :: dotReplB w rep rest = _
      rw [ih (fun q hq => hdot q (List.mem_cons_of_mem _ hq))]
    | true =>
      cases rest with
      | nil => rfl
      | cons q rest2 =>
        obtain ⟨b2, f⟩ := q
        simp only [dotReplB]
        rw [if_neg (fun hcon => by
          have : ('.' : Char) ∈ f := by rw [hcon.2.2.1]; exact List.mem_cons_self _ _
          exact hdot (b2, f) (List.mem_cons_of_mem _ (List.mem_cons_self _ _)) this)]
        rw [ih (fun q hq => hdot q (List.mem_cons_of_mem _ hq))]

/-- The dot pass is the identity when no az-token equals the pattern. -/
theorem dotReplB_id_ne (w rep : Str) :
    ∀ (bs : List (Bool × Str)), (∀ t ∈ azToks bs, t ≠ w) →
    dotReplB w rep bs = bs := by
  intro bs
  induction bs with
  | nil => intro _; rfl
  | cons p rest ih =>
    intro hted
    obtain ⟨b, run⟩ := p
    cases b with
    | false =>
      show (false, run) :: dotReplB w rep rest = _
      rw [ih (fun t ht => hted t ht)]
    | true =>
      have hrun : run ≠ w := hted run (by simp [azToks])
      cases rest with
      | nil => rfl
      | cons q rest2 =>
        obtain ⟨b2, f⟩ := q
        simp only [dotReplB]
        rw [if_neg (fun hcon => hrun hcon.1)]
        rw [ih (fun t ht => hted t (by simp only [azToks]; exact List.mem_cons_of_mem _ ht))]

/-- A substitution pass is the identity when no az-token equals the pattern. -/
theorem map_replTok_id (w rep : Str) :
    ∀ (bs : List (Bool × Str)), (∀ t ∈ azToks bs, t ≠ w) →
    bs.map (replTok w rep) = bs := by
  intro bs
  induction bs with
  | nil => intro _; rfl
  | cons p rest ih =>
    intro hted
    obtain ⟨b, run⟩ := p
    cases b with
    | false =>
      simp only [List.map_cons, replTok]
      rw [ih (fun t ht => hted t ht)]
    | true =>
      have hrun : run ≠ w := hted run (by simp [azToks])
      simp only [List.map_cons, replTok]
      rw [if_neg hrun]
      rw [ih (fun t ht => hted t (by simp only [azToks]; exact List.mem_cons_of_mem _ ht))]

/-- Rendered block list after the `[^a-z0-9]+ → " "` collapse: az-runs stay,
every non-az run becomes one space. -/
def spacedJoin : List (Bool × Str) → Str
  | [] => []
  | (true, run) :: rest => run ++ spacedJoin rest
  | (false, _) :: rest => ' ' :: spacedJoin rest

/-- Az-tokens joined by single spaces: the canonical output form of
`normalize_for_compare`. -/
def joinToks : List Str → Str
  | [] => []
  | [t] => t
  | t :: t2 :: ts => t ++ ' ' :: joinToks (t2 :: ts)

/-- Strip trailing whitespace. -/
def stripRight (s : Str) : Str := (s.reverse.dropWhile pyIsSpace).reverse

theorem stripWs_eq_stripRight (s : Str) :
    stripWs s = stripRight (s.dropWhile pyIsSpace) := rfl

theorem collapseNonAz_cons_az {c : Char} (h : azDigit c = true) (cs : Str) :
    collapseNonAz (c :: cs) = c :: collapseNonAz cs := by
  rw [collapseNonAz.eq_def]
  simp [h]

theorem collapseNonAz_singleton_nonaz {c : Char} (h : azDigit c = false) :
    collapseNonAz [c] = [' '] := by
  rw [collapseNonAz.eq_def]
  simp [h]

theorem collapseNonAz_cons_nonaz_az {c d : Char} (h : azDigit c = false)
    (hd : azDigit d = true) (cs : Str) :
    collapseNonAz (c :: d :: cs) = ' ' :: collapseNonAz (d :: cs) := by
  rw [collapseNonAz.eq_def]
  simp [h, hd]

theorem collapseNonAz_cons_nonaz_nonaz {c d : Char} (h : azDigit c = false)
    (hd : azDigit d = false) (cs : Str) :
    collapseNonAz (c :: d :: cs) = collapseNonAz (d :: cs) := by
  rw [collapseNonAz.eq_def]
  simp [h, hd]

theorem collapse_az_pass (run : Str) (h : ∀ c ∈ run, azDigit c = true) (rest : Str) :
    collapseNonAz (run ++ rest) = run ++ collapseNonAz rest := by
  induction run with
  | nil => rfl
  | cons c cs ih =>
    show collapseNonAz (c :: (cs ++ rest)) = _
    rw [collapseNonAz_cons_az (h c (List.mem_cons_self _ _))]
    rw [ih (fun d hd => h d (List.mem_cons_of_mem _ hd))]
    rfl

theorem collapse_nonaz_end (run : Str) (hne : run ≠ [])
    (h : ∀ c ∈ run, azDigit c = false) :
    collapseNonAz run = [' '] := by
  induction run with
  | nil => exact absurd rfl hne
  | cons c cs ih =>
    cases cs with
    | nil => exact collapseNonAz_singleton_nonaz (h c (List.mem_cons_self _ _))
    | cons d cs' =>
      rw [collapseNonAz_cons_nonaz_nonaz (h c (List.mem_cons_self _ _))
        (h d (List.mem_cons_of_mem _ (List.mem_cons_self _ _)))]
      exact ih (by simp) (fun e he => h e (List.mem_cons_of_mem _ he))

theorem collapse_nonaz_mid (run : Str) (hne : run ≠ [])
    (h : ∀ c ∈ run, azDigit c = false) (d : Char) (hd : azDigit d = true) (rest : Str) :
    collapseNonAz (run ++ d :: rest) = ' ' :: collapseNonAz (d :: rest) := by
  induction run with
  | nil => exact absurd rfl hne
  | cons c cs ih =>
    show collapseNonAz (c :: (cs ++ d :: rest)) = _
    cases cs with
    | nil =>
      exact collapseNonAz_cons_nonaz_az (h c (List.mem_cons_self _ _)) hd _
    | cons e cs' =>
      show collapseNonAz (c :: e :: (cs' ++ d :: rest)) = _
      rw [collapseNonAz_cons_nonaz_nonaz (h c (List.mem_cons_self _ _))
        (h e (List.mem_cons_of_mem _ (List.mem_cons_self _ _)))]
      exact ih (by simp) (fun x hx => h x (List.mem_cons_of_mem _ hx))

/-- The final collapse stage on a rendered well-formed block list. -/
theorem collapse_spacedJoin :
    ∀ (bs : List (Bool × Str)), WFB bs → collapseNonAz (render bs) = spacedJoin bs := by
  intro bs
  induction bs with
  | nil => intro _; rfl
  | cons p rest ih =>
    intro hwf
    obtain ⟨hne, huni, halt, hwf'⟩ := hwf
    obtain ⟨b, run⟩ := p
    cases b with
    | true =>
      show collapseNonAz (run ++ render rest) = run ++ spacedJoin rest
      rw [collapse_az_pass run huni, ih hwf']
    | false =>
      cases rest with
      | nil =>
        show collapseNonAz (run ++ render []) = [' ']
        rw [show render ([] : List (Bool × Str)) = ([] : Str) from rfl,
          List.append_nil]
        exact collapse_nonaz_end run hne huni
      | cons q rest2 =>
        obtain ⟨b2, run2⟩ := q
        cases b2 with
        | false => exact absurd rfl halt
        | true =>
          have hne2 : run2 ≠ [] := hwf'.1
          have huni2 : ∀ c ∈ run2, azDigit c = true := hwf'.2.1
          obtain ⟨d, run2', hr2⟩ : ∃ d run2', run2 = d :: run2' := by
            cases run2 with
            | nil => exact absurd rfl hne2
            | cons a as => exact ⟨a, as, rfl⟩
          subst hr2
          show collapseNonAz (run ++ (d :: (run2' ++ render rest2)))
            = ' ' :: spacedJoin ((true, d :: run2') :: rest2)
          rw [collapse_nonaz_mid run hne huni d (huni2 d (List.mem_cons_self _ _))]
          rw [show (d :: (run2' ++ render rest2))
            = render ((true, d :: run2') :: rest2) from rfl]
          rw [ih hwf']

theorem stripRight_all_nonspace (t : Str) (h : ∀ c ∈ t, pyIsSpace c = false) :
    stripRight t = t := by
  rw [stripRight]
  cases htr : t.reverse with
  | nil =>
    rw [List.reverse_eq_nil_iff] at htr
    simp [htr]
  | cons c cs =>
    rw [List.dropWhile_cons_of_neg (by
      rw [h c (by
        have : c ∈ t.reverse := by rw [htr]; exact List.mem_cons_self _ _
        exact List.mem_reverse.mp this)]
      exact Bool.false_ne_true)]
    rw [← htr, List.reverse_reverse]

theorem stripRight_append (a b : Str) (hb : ∃ c ∈ b, pyIsSpace c = false) :
    stripRight (a ++ b) = a ++ stripRight b := by
  rw [stripRight, List.reverse_append, List.dropWhile_append]
  have hne : b.reverse.dropWhile pyIsSpace ≠ [] := by
    intro hcon
    obtain ⟨c, hc, hcs⟩ := hb
    have := List.dropWhile_eq_nil_iff.mp hcon c (List.mem_reverse.mpr hc)
    rw [hcs] at this
    exact Bool.false_ne_true this
  rw [if_neg (by simpa using hne)]
  rw [List.reverse_append, List.reverse_reverse]
  rfl

theorem stripRight_append_space (a b : Str) (hb : ∀ c ∈ b, pyIsSpace c = true) :
    stripRight (a ++ b) = stripRight a := by
  rw [stripRight, List.reverse_append, List.dropWhile_append]
  have hnil : b.reverse.dropWhile pyIsSpace = [] :=
    List.dropWhile_eq_nil_iff.mpr (fun c hc => hb c (List.mem_reverse.mp hc))
  rw [if_pos (by simp [hnil])]
  rfl

theorem stripRight_spacedJoin :
    ∀ n (bs : List (Bool × Str)), bs.length ≤ n → WFB bs →
    headTag bs ≠ some false →
    stripRight (spacedJoin bs) = joinToks (azToks bs) := by
  intro n
  induction n with
  | zero =>
    intro bs hbs _ _
    have hnil : bs = [] := List.eq_nil_of_length_eq_zero (Nat.le_zero.mp hbs)
    subst hnil
    rfl
  | succ n ihn =>
    intro bs hbs hwf hht
    match bs with
    | [] => rfl
    | (false, run) :: rest => exact absurd rfl hht
    | (true, run) :: rest =>
      obtain ⟨hne, huni, halt, hwf'⟩ := hwf
      have hrunsp : ∀ c ∈ run, pyIsSpace c = false :=
        fun c hc => not_space_of_azDigit (huni c hc)
      match rest, halt, hwf' with
      | [], _, _ =>
        show stripRight (run ++ spacedJoin []) = joinToks (azToks [(true, run)])
        rw [show spacedJoin ([] : List (Bool × Str)) = ([] : Str) from rfl,
          List.append_nil]
        exact stripRight_all_nonspace run hrunsp
      | (true, f) :: rest2, halt, _ => exact absurd rfl halt
      | (false, f) :: rest2, _, hwf' =>
        obtain ⟨hnef, hunif, halt2, hwf2⟩ := hwf'
        match rest2, halt2, hwf2 with
        | [], _, _ =>
          show stripRight (run ++ (' ' :: spacedJoin []))
            = joinToks (azToks [(true, run)])
          rw [show (' ' :: spacedJoin ([] : List (Bool × Str))) = [' '] from rfl]
          rw [stripRight_append_space run [' '] (by
            intro c hc
            simp only [List.mem_singleton] at hc
            rw [hc]
            rfl)]
          exact stripRight_all_nonspace run hrunsp
        | (false, r3) :: rest3, halt2, _ => exact absurd rfl halt2
        | (true, r3) :: rest3, _, hwf2 =>
          obtain ⟨hner3, hunir3, halt3, hwf3⟩ := hwf2
          obtain ⟨d3, r3', hr3⟩ : ∃ d3 r3', r3 = d3 :: r3' := by
            cases r3 with
            | nil => exact absurd rfl hner3
            | cons a as => exact ⟨a, as, rfl⟩
          have hwit : ∃ c ∈ (' ' :: spacedJoin ((true, r3) :: rest3)), pyIsSpace c = false := by
            refine ⟨d3, ?_, not_space_of_azDigit (hunir3 d3 (by rw [hr3]; exact List.mem_cons_self _ _))⟩
            apply List.mem_cons_of_mem
            show d3 ∈ r3 ++ spacedJoin rest3
            exact List.mem_append_left _ (by rw [hr3]; exact List.mem_cons_self _ _)
          have hwit2 : ∃ c ∈ spacedJoin ((true, r3) :: rest3), pyIsSpace c = false := by
            obtain ⟨c, hc, hcs⟩ := hwit
            rcases List.mem_cons.mp hc with rfl | hc
            · simp [pyIsSpace] at hcs
            · exact ⟨c, hc, hcs⟩
          show stripRight (run ++ (' ' :: spacedJoin ((true, r3) :: rest3)))
            = joinToks (azToks ((true, run) :: (false, f) :: (true, r3) :: rest3))
          rw [stripRight_append run _ hwit]
          rw [show (' ' :: spacedJoin ((true, r3) :: rest3))
            = [' '] ++ spacedJoin ((true, r3) :: rest3) from rfl]
          rw [stripRight_append [' '] _ hwit2]
          rw [ihn ((true, r3) :: rest3) (by simp only [List.length_cons] at hbs ⊢; omega)
            ⟨hner3, hunir3, halt3, hwf3⟩ (by simp [headTag])]
          show run ++ (' ' :: joinToks (r3 :: azToks rest3))
            = joinToks (run :: r3 :: azToks rest3)
          rfl

theorem strip_spacedJoin (bs : List (Bool × Str)) (hwf : WFB bs) :
    stripWs (spacedJoin bs) = joinToks (azToks bs) := by
  rw [stripWs_eq_stripRight]
  match bs with
  | [] => rfl
  | (true, run) :: rest =>
    obtain ⟨hne, huni, halt, hwf'⟩ := hwf
    obtain ⟨d, run', hr⟩ : ∃ d run', run = d :: run' := by
      cases run with
      | nil => exact absurd rfl hne
      | cons a as => exact ⟨a, as, rfl⟩
    have hd : pyIsSpace d = false :=
      not_space_of_azDigit (huni d (by rw [hr]; exact List.mem_cons_self _ _))
    have hdw : (spacedJoin ((true, run) :: rest)).dropWhile pyIsSpace
        = spacedJoin ((true, run) :: rest) := by
      show (run ++ spacedJoin rest).dropWhile pyIsSpace = run ++ spacedJoin rest
      rw [hr]
      exact List.dropWhile_cons_of_neg (by rw [hd]; exact Bool.false_ne_true)
    rw [hdw]
    exact stripRight_spacedJoin ((true, run) :: rest).length _ le_rfl
      ⟨hne, huni, halt, hwf'⟩ (by simp [headTag])
  | (false, run) :: rest =>
    obtain ⟨hne, huni, halt, hwf'⟩ := hwf
    show stripRight ((' ' :: spacedJoin rest).dropWhile pyIsSpace) = joinToks (azToks rest)
    rw [List.dropWhile_cons_of_pos (by rfl)]
    match rest, halt, hwf' with
    | [], _, _ => rfl
    | (false, f) :: rest2, halt, _ => exact absurd rfl halt
    | (true, f) :: rest2, _, hwf' =>
      obtain ⟨hnef, hunif, halt2, hwf2⟩ := hwf'
      obtain ⟨d, f', hf⟩ : ∃ d f', f = d :: f' := by
        cases f with
        | nil => exact absurd rfl hnef
        | cons a as => exact ⟨a, as, rfl⟩
      have hd : pyIsSpace d = false :=
        not_space_of_azDigit (hunif d (by rw [hf]; exact List.mem_cons_self _ _))
      have hdw : (spacedJoin ((true, f) :: rest2)).dropWhile pyIsSpace
          = spacedJoin ((true, f) :: rest2) := by
        show (f ++ spacedJoin rest2).dropWhile pyIsSpace = f ++ spacedJoin rest2
        rw [hf]
        exact List.dropWhile_cons_of_neg (by rw [hd]; exact Bool.false_ne_true)
      rw [hdw]
      exact stripRight_spacedJoin ((true, f) :: rest2).length _ le_rfl
        ⟨hnef, hunif, halt2, hwf2⟩ (by simp [headTag])

/-- The final collapse-and-strip stage turns a rendered well-formed block
list into its az-tokens joined by single spaces. -/
theorem strip_collapse_blocks (bs : List (Bool × Str)) (hwf : WFB bs) :
    stripWs (collapseNonAz (render bs)) = joinToks (azToks bs) := by
  rw [collapse_spacedJoin bs hwf]
  exact strip_spacedJoin bs hwf

/-- The canonical block list of a token list: az-blocks separated by
single-space blocks. -/
def interleaveToks : List Str → List (Bool × Str)
  | [] => []
  | [t] => [(true, t)]
  | t :: t2 :: ts => (true, t) :: (false, [' ']) :: interleaveToks (t2 :: ts)

theorem render_interleave (toks : List Str) :
    render (interleaveToks toks) = joinToks toks := by
  induction toks with
  | nil => rfl
  | cons t ts ih =>
    cases ts with
    | nil => simp [interleaveToks, joinToks, render]
    | cons t2 ts' =>
      show render ((true, t) :: (false, [' ']) :: interleaveToks (t2 :: ts'))
        = t ++ ' ' :: joinToks (t2 :: ts')
      show t ++ (' ' :: render (interleaveToks (t2 :: ts'))) = _
      rw [ih]

theorem azToks_interleave (toks : List Str) :
    azToks (interleaveToks toks) = toks := by
  induction toks with
  | nil => rfl
  | cons t ts ih =>
    cases ts with
    | nil => rfl
    | cons t2 ts' =>
      show t :: azToks (interleaveToks (t2 :: ts')) = t :: t2 :: ts'
      rw [ih]

theorem headTag_interleave_cons (t : Str) (ts : List Str) :
    headTag (interleaveToks (t :: ts)) = some true := by
  cases ts <;> rfl

theorem WFB_interleave (toks : List Str)
    (hgood : ∀ t ∈ toks, t ≠ [] ∧ ∀ c ∈ t, azDigit c = true) :
    WFB (interleaveToks toks) := by
  induction toks with
  | nil => trivial
  | cons t ts ih =>
    obtain ⟨hne, haz⟩ := hgood t (List.mem_cons_self _ _)
    cases ts with
    | nil => exact ⟨hne, haz, by simp [headTag], trivial⟩
    | cons t2 ts' =>
      refine ⟨hne, haz, by simp [headTag], ?_, ?_, ?_, ?_⟩
      · simp
      · intro c hc
        simp only [List.mem_singleton] at hc
        rw [hc]
        rfl
      · rw [headTag_interleave_cons]
        simp
      · exact ih (fun u hu => hgood u (List.mem_cons_of_mem _ hu))

theorem chars_interleave (toks : List Str) :
    ∀ p ∈ interleaveToks toks, ∀ c ∈ p.2, (∃ t ∈ toks, c ∈ t) ∨ c = ' ' := by
  induction toks with
  | nil => intro p hp; simp [interleaveToks] at hp
  | cons t ts ih =>
    intro p hp c hc
    cases ts with
    | nil =>
      simp only [interleaveToks, List.mem_singleton] at hp
      subst hp
      exact Or.inl ⟨t, List.mem_cons_self _ _, hc⟩
    | cons t2 ts' =>
      rcases List.mem_cons.mp hp with rfl | hp
      · exact Or.inl ⟨t, List.mem_cons_self _ _, hc⟩
      · rcases List.mem_cons.mp hp with rfl | hp
        · simp only [List.mem_singleton] at hc
          exact Or.inr hc
        · rcases ih p hp c hc with ⟨u, hu, hcu⟩ | hsp
          · exact Or.inl ⟨u, List.mem_cons_of_mem _ hu, hcu⟩
          · exact Or.inr hsp

theorem toLower_eq_self (c : Char) (h : ¬(65 ≤ c.toNat ∧ c.toNat ≤ 90)) : c.toLower = c := by
  unfold Char.toLower
  simp only [ge_iff_le]
  rw [if_neg h]

theorem toNat_toLower_upper (c : Char) (h1 : 65 ≤ c.toNat) (h2 : c.toNat ≤ 90) :
    (c.toLower).toNat = c.toNat + 32 := by
  unfold Char.toLower
  simp only [ge_iff_le]
  rw [if_pos ⟨h1, h2⟩]
  have hv : (c.toNat + 32).isValidChar := by
    left
    omega
  rw [Char.ofNat, dif_pos hv]
  rfl

theorem toNat_lt_128_of_azDigit {c : Char} (h : azDigit c = true) : c.toNat < 128 := by
  rw [azDigit_iff] at h
  omega

theorem pyLower_id_of_az_space {c : Char} (h : azDigit c = true ∨ c = ' ') :
    pyLower c = c := by
  have hlt : c.toNat < 128 := by
    rcases h with h | rfl
    · exact toNat_lt_128_of_azDigit h
    · decide
  have hnotup : ¬(65 ≤ c.toNat ∧ c.toNat ≤ 90) := by
    rcases h with h | rfl
    · rw [azDigit_iff] at h
      omega
    · decide
  rw [pyLower]
  rw [if_neg (fun hc => by rw [hc] at hlt; simp at hlt)]
  rw [if_neg (fun hc => by rw [hc] at hlt; simp at hlt)]
  rw [if_neg (fun hc => by rw [hc] at hlt; simp at hlt)]
  exact toLower_eq_self c hnotup

theorem foldVowel_id_of_ascii {c : Char} (h : c.toNat < 128) : foldVowel c = [c] := by
  rw [foldVowel]
  rw [if_neg (fun hc => by rw [hc] at h; simp at h)]
  rw [if_neg (fun hc => by rw [hc] at h; simp at h)]
  rw [if_neg (fun hc => by rw [hc] at h; simp at h)]

theorem flatMap_singleton_id (s : Str) (f : Char → Str)
    (h : ∀ c ∈ s, f c = [c]) : s.flatMap f = s := by
  induction s with
  | nil => rfl
  | cons c cs ih =>
    rw [List.flatMap_cons, h c (List.mem_cons_self _ _),
      ih (fun d hd => h d (List.mem_cons_of_mem _ hd))]
    rfl

theorem nbsp_map_id (s : Str) (h : ∀ c ∈ s, c.toNat < 128) :
    (s.map fun c => if c.val = 0xa0 then ' ' else c) = s := by
  have : ∀ c ∈ s, (if c.val = 0xa0 then ' ' else c) = c := by
    intro c hc
    rw [if_neg]
    intro hcon
    have h160 : c.toNat = 160 := by
      rw [show c.toNat = c.val.toNat from rfl, hcon]
      rfl
    have := h c hc
    omega
  rw [List.map_congr_left this]
  simp

theorem collapseWs_cons_nonspace {c : Char} (h : pyIsSpace c = false) (cs : Str) :
    collapseWs (c :: cs) = c :: collapseWs cs := by
  rw [collapseWs.eq_def]
  simp [h]

theorem collapseWs_cons_space_nonspace {c d : Char} (hc : pyIsSpace c = true)
    (hd : pyIsSpace d = false) (cs : Str) :
    collapseWs (c :: d :: cs) = ' ' :: collapseWs (d :: cs) := by
  rw [collapseWs.eq_def]
  simp [hc, hd]

theorem collapseWs_all_nonspace (s : Str) (h : ∀ c ∈ s, pyIsSpace c = false) :
    collapseWs s = s := by
  induction s with
  | nil => rfl
  | cons c cs ih =>
    rw [collapseWs_cons_nonspace (h c (List.mem_cons_self _ _))]
    rw [ih (fun d hd => h d (List.mem_cons_of_mem _ hd))]

theorem collapseWs_pass_nonspace (t : Str) (h : ∀ c ∈ t, pyIsSpace c = false) (rest : Str) :
    collapseWs (t ++ rest) = t ++ collapseWs rest := by
  induction t with
  | nil => rfl
  | cons c cs ih =>
    show collapseWs (c :: (cs ++ rest)) = _
    rw [collapseWs_cons_nonspace (h c (List.mem_cons_self _ _))]
    rw [ih (fun d hd => h d (List.mem_cons_of_mem _ hd))]
    rfl

theorem joinToks_head_cons (d : Char) (t' : Str) (ts : List Str) :
    ∃ X, joinToks ((d :: t') :: ts) = d :: X := by
  cases ts with
  | nil => exact ⟨t', rfl⟩
  | cons t2 ts' => exact ⟨t' ++ ' ' :: joinToks (t2 :: ts'), rfl⟩

theorem collapseWs_joinToks (toks : List Str)
    (hgood : ∀ t ∈ toks, t ≠ [] ∧ ∀ c ∈ t, azDigit c = true) :
    collapseWs (joinToks toks) = joinToks toks := by
  induction toks with
  | nil => rfl
  | cons t ts ih =>
    obtain ⟨hne, haz⟩ := hgood t (List.mem_cons_self _ _)
    have hnsp : ∀ c ∈ t, pyIsSpace c = false :=
      fun c hc => not_space_of_azDigit (haz c hc)
    cases ts with
    | nil =>
      show collapseWs t = t
      exact collapseWs_all_nonspace t hnsp
    | cons t2 ts' =>
      show collapseWs (t ++ ' ' :: joinToks (t2 :: ts')) = _
      rw [collapseWs_pass_nonspace t hnsp]
      obtain ⟨hne2, haz2⟩ := hgood t2 (List.mem_cons_of_mem _ (List.mem_cons_self _ _))
      obtain ⟨d2, t2', ht2⟩ : ∃ d2 t2', t2 = d2 :: t2' := by
        cases t2 with
        | nil => exact absurd rfl hne2
        | cons a as => exact ⟨a, as, rfl⟩
      obtain ⟨X, hX⟩ := joinToks_head_cons d2 t2' ts'
      rw [ht2, hX]
      rw [collapseWs_cons_space_nonspace (by rfl)
        (not_space_of_azDigit (haz2 d2 (by rw [ht2]; exact List.mem_cons_self _ _)))]
      rw [← hX, ← ht2]
      rw [ih (fun u hu => hgood u (List.mem_cons_of_mem _ hu))]
      rfl

theorem joinToks_chars (toks : List Str) :
    ∀ c ∈ joinToks toks, (∃ t ∈ toks, c ∈ t) ∨ c = ' ' := by
  induction toks with
  | nil => intro c hc; simp [joinToks] at hc
  | cons t ts ih =>
    intro c hc
    cases ts with
    | nil => exact Or.inl ⟨t, List.mem_cons_self _ _, hc⟩
    | cons t2 ts' =>
      have hc' : c ∈ t ++ ' ' :: joinToks (t2 :: ts') := hc
      rcases List.mem_append.mp hc' with hc2 | hc2
      · exact Or.inl ⟨t, List.mem_cons_self _ _, hc2⟩
      · rcases List.mem_cons.mp hc2 with rfl | hc3
        · exact Or.inr rfl
        · rcases ih c hc3 with ⟨u, hu, hcu⟩ | hsp
          · exact Or.inl ⟨u, List.mem_cons_of_mem _ hu, hcu⟩
          · exact Or.inr hsp

theorem stripRight_joinToks (toks : List Str)
    (hgood : ∀ t ∈ toks, t ≠ [] ∧ ∀ c ∈ t, azDigit c = true) :
    stripRight (joinToks toks) = joinToks toks := by
  induction toks with
  | nil => rfl
  | cons t ts ih =>
    obtain ⟨hne, haz⟩ := hgood t (List.mem_cons_self _ _)
    have hnsp : ∀ c ∈ t, pyIsSpace c = false :=
      fun c hc => not_space_of_azDigit (haz c hc)
    cases ts with
    | nil => exact stripRight_all_nonspace t hnsp
    | cons t2 ts' =>
      obtain ⟨hne2, haz2⟩ := hgood t2 (List.mem_cons_of_mem _ (List.mem_cons_self _ _))
      obtain ⟨d2, t2', ht2⟩ : ∃ d2 t2', t2 = d2 :: t2' := by
        cases t2 with
        | nil => exact absurd rfl hne2
        | cons a as => exact ⟨a, as, rfl⟩
      have hd2az : azDigit d2 = true := haz2 d2 (by rw [ht2]; exact List.mem_cons_self _ _)
      have hd2mem : d2 ∈ joinToks (t2 :: ts') := by
        obtain ⟨X, hX⟩ := joinToks_head_cons d2 t2' ts'
        rw [ht2, hX]
        exact List.mem_cons_self _ _
      have hwit : ∃ c ∈ (' ' :: joinToks (t2 :: ts')), pyIsSpace c = false :=
        ⟨d2, List.mem_cons_of_mem _ hd2mem, not_space_of_azDigit hd2az⟩
      have hwit2 : ∃ c ∈ joinToks (t2 :: ts'), pyIsSpace c = false :=
        ⟨d2, hd2mem, not_space_of_azDigit hd2az⟩
      show stripRight (t ++ ' ' :: joinToks (t2 :: ts')) = _
      rw [stripRight_append t _ hwit]
      rw [show (' ' :: joinToks (t2 :: ts')) = [' '] ++ joinToks (t2 :: ts') from rfl]
      rw [stripRight_append [' '] _ hwit2]
      rw [ih (fun u hu => hgood u (List.mem_cons_of_mem _ hu))]
      rfl

theorem stripWs_joinToks (toks : List Str)
    (hgood : ∀ t ∈ toks, t ≠ [] ∧ ∀ c ∈ t, azDigit c = true) :
    stripWs (joinToks toks) = joinToks toks := by
  rw [stripWs_eq_stripRight]
  cases toks with
  | nil => rfl
  | cons t ts =>
    obtain ⟨hne, haz⟩ := hgood t (List.mem_cons_self _ _)
    obtain ⟨d, t', ht⟩ : ∃ d t', t = d :: t' := by
      cases t with
      | nil => exact absurd rfl hne
      | cons a as => exact ⟨a, as, rfl⟩
    obtain ⟨X, hX⟩ := joinToks_head_cons d t' ts
    rw [ht, hX]
    rw [List.dropWhile_cons_of_neg (by
      rw [not_space_of_azDigit (haz d (by rw [ht]; exact List.mem_cons_self _ _))]
      exact Bool.false_ne_true)]
    rw [← hX, ← ht]
    exact stripRight_joinToks (t :: ts) hgood

/-- The four whole-word abbreviation patterns of `normalize_for_compare`. -/
def abbrevPats : List Str :=
  ["gt".toList, "vn".toList, "v".toList, "vei".toList]

theorem tameLow_of_azDigit {c : Char} (h : azDigit c = true) : tameLow c := by
  rw [azDigit_iff] at h
  exact ⟨by omega, by omega, by omega⟩

/-- `normalize_for_compare` fixes every string of good az-tokens joined by
single spaces (its own canonical output form). -/
theorem nfc_joinToks_fixed (toks : List Str)
    (hgood : ∀ t ∈ toks, t ≠ [] ∧ (∀ c ∈ t, azDigit c = true) ∧ t ∉ abbrevPats) :
    normalize_for_compare (joinToks toks) = joinToks toks := by
  have hgood' : ∀ t ∈ toks, t ≠ [] ∧ ∀ c ∈ t, azDigit c = true :=
    fun t ht => ⟨(hgood t ht).1, (hgood t ht).2.1⟩
  have hchars : ∀ c ∈ joinToks toks, azDigit c = true ∨ c = ' ' := by
    intro c hc
    rcases joinToks_chars toks c hc with ⟨t, ht, hct⟩ | hsp
    · exact Or.inl ((hgood' t ht).2 c hct)
    · exact Or.inr hsp
  have hascii : ∀ c ∈ joinToks toks, c.toNat < 128 := by
    intro c hc
    rcases hchars c hc with h | rfl
    · exact toNat_lt_128_of_azDigit h
    · decide
  have h1 : normalize_text (joinToks toks) = joinToks toks := by
    rw [normalize_text, nbsp_map_id _ hascii, collapseWs_joinToks _ hgood',
      stripWs_joinToks _ hgood']
  have h2 : (joinToks toks).map pyLower = joinToks toks := by
    rw [List.map_congr_left (fun c hc => pyLower_id_of_az_space (hchars c hc))]
    simp
  have h3 : (joinToks toks).flatMap foldVowel = joinToks toks :=
    flatMap_singleton_id _ _ (fun c hc => foldVowel_id_of_ascii (hascii c hc))
  have hchbs : ∀ p ∈ interleaveToks toks, ∀ c ∈ p.2, tameLow c := by
    intro p hp c hc
    rcases chars_interleave toks p hp c hc with ⟨t, ht, hct⟩ | rfl
    · exact tameLow_of_azDigit ((hgood' t ht).2 c hct)
    · exact ⟨by decide, by decide, by decide⟩
  have hstage : ∀ w rep : Str, w ≠ [] → (∀ c ∈ w, azDigit c = true) →
      (∀ t ∈ toks, t ≠ w) → subWord w rep (joinToks toks) = joinToks toks := by
    intro w rep hw hwaz hnw
    rw [subWord]
    conv_lhs => rw [← render_interleave toks]
    rw [subWordGo_blocks_go w rep hw hwaz (interleaveToks toks) false
      (render (interleaveToks toks)).length (WFB_interleave toks hgood') hchbs
      le_rfl (fun h => absurd h (by simp))]
    rw [map_replTok_id w rep _ (by rw [azToks_interleave]; exact hnw)]
    exact render_interleave toks
  have hnodot : ∀ p ∈ interleaveToks toks, ('.' : Char) ∉ p.2 := by
    intro p hp hdot
    rcases chars_interleave toks p hp '.' hdot with ⟨t, ht, hct⟩ | heq
    · have := (hgood' t ht).2 '.' hct
      simp [azDigit, pyIsDigit] at this
    · simp at heq
  have hstageDot : ∀ w rep : Str, w ≠ [] → (∀ c ∈ w, azDigit c = true) →
      subWordDot w rep (joinToks toks) = joinToks toks := by
    intro w rep hw hwaz
    rw [subWordDot]
    conv_lhs => rw [← render_interleave toks]
    rw [subWordDotGo_blocks_go w rep hw hwaz (interleaveToks toks).length
      (interleaveToks toks) le_rfl false (render (interleaveToks toks)).length
      (WFB_interleave toks hgood') hchbs le_rfl (fun h => absurd h (by simp))]
    rw [dotReplB_id_nodot w rep _ hnodot]
    exact render_interleave toks
  have hfinal : stripWs (collapseNonAz (joinToks toks)) = joinToks toks := by
    conv_lhs => rw [← render_interleave toks]
    rw [strip_collapse_blocks _ (WFB_interleave toks hgood')]
    rw [azToks_interleave]
  have hnw : ∀ (w : Str), w ∈ abbrevPats → ∀ t ∈ toks, t ≠ w := by
    intro w hwp t ht hcon
    exact (hgood t ht).2.2 (by rw [hcon]; exact hwp)
  show stripWs (collapseNonAz
    (subWordDot "sv".toList "sving".toList
      (subWordDot "vei".toList "veien".toList
        (subWord "vei".toList "veien".toList
          (subWord "v".toList "veien".toList
            (subWord "vn".toList "veien".toList
              (subWord "gt".toList "gate".toList
                (nfkdStrip (((normalize_text (joinToks toks)).map pyLower).flatMap
                  foldVowel))))))))) = joinToks toks
  rw [h1, h2, h3]
  rw [show nfkdStrip (joinToks toks) = joinToks toks from rfl]
  rw [hstage "gt".toList "gate".toList (by decide) (by decide)
    (hnw _ (by simp [abbrevPats]))]
  rw [hstage "vn".toList "veien".toList (by decide) (by decide)
    (hnw _ (by simp [abbrevPats]))]
  rw [hstage "v".toList "veien".toList (by decide) (by decide)
    (hnw _ (by simp [abbrevPats]))]
  rw [hstage "vei".toList "veien".toList (by decide) (by decide)
    (hnw _ (by simp [abbrevPats]))]
  rw [hstageDot "vei".toList "veien".toList (by decide) (by decide)]
  rw [hstageDot "sv".toList "sving".toList (by decide) (by decide)]
  exact hfinal

theorem collapseWs_chars : ∀ (s : Str), ∀ c ∈ collapseWs s, c ∈ s ∨ c = ' ' := by
  intro s
  induction s with
  | nil => intro c hc; simp [collapseWs] at hc
  | cons x cs ih =>
    intro c hc
    by_cases hx : pyIsSpace x = true
    · cases cs with
      | nil =>
        rw [collapseWs.eq_def] at hc
        simp only [hx, if_true] at hc
        simp only [List.mem_singleton] at hc
        exact Or.inr hc
      | cons d cs' =>
        rw [collapseWs.eq_def] at hc
        simp only [hx, if_true] at hc
        by_cases hd : pyIsSpace d = true
        · rw [if_pos hd] at hc
          rcases ih c hc with h | h
          · exact Or.inl (List.mem_cons_of_mem _ h)
          · exact Or.inr h
        · rw [if_neg hd] at hc
          rcases List.mem_cons.mp hc with rfl | hc2
          · exact Or.inr rfl
          · rcases ih c hc2 with h | h
            · exact Or.inl (List.mem_cons_of_mem _ h)
            · exact Or.inr h
    · rw [collapseWs_cons_nonspace (Bool.not_eq_true _ ▸ hx : pyIsSpace x = false)] at hc
      rcases List.mem_cons.mp hc with rfl | hc2
      · exact Or.inl (List.mem_cons_self _ _)
      · rcases ih c hc2 with h | h
        · exact Or.inl (List.mem_cons_of_mem _ h)
        · exact Or.inr h

theorem stripWs_subset (s : Str) : ∀ c ∈ stripWs s, c ∈ s := by
  intro c hc
  rw [stripWs] at hc
  rw [List.mem_reverse] at hc
  have h1 := (@List.dropWhile_sublist _ ((s.dropWhile pyIsSpace).reverse) pyIsSpace).subset hc
  rw [List.mem_reverse] at h1
  exact (@List.dropWhile_sublist _ s pyIsSpace).subset h1

theorem tameLow_pyLower {c : Char} (hc : tameChar c) : tameLow (pyLower c) := by
  obtain ⟨hlt, hne⟩ := hc
  have hne95 : c.toNat ≠ 95 := by
    intro h95
    exact hne (char_eq_iff_toNat c '_' |>.mpr (by rw [h95]; rfl))
  rw [pyLower]
  rw [if_neg (fun h => by rw [h] at hlt; simp at hlt)]
  rw [if_neg (fun h => by rw [h] at hlt; simp at hlt)]
  rw [if_neg (fun h => by rw [h] at hlt; simp at hlt)]
  by_cases hup : 65 ≤ c.toNat ∧ c.toNat ≤ 90
  · have h32 := toNat_toLower_upper c hup.1 hup.2
    exact ⟨by omega, by omega, by omega⟩
  · rw [toLower_eq_self c hup]
    exact ⟨hlt, hup, hne95⟩

theorem WFB_azToks : ∀ (bs : List (Bool × Str)), WFB bs →
    ∀ t ∈ azToks bs, t ≠ [] ∧ ∀ c ∈ t, azDigit c = true := by
  intro bs
  induction bs with
  | nil => intro _ t ht; simp [azToks] at ht
  | cons p rest ih =>
    intro hwf t ht
    obtain ⟨b, run⟩ := p
    obtain ⟨hne, huni, halt, hwf'⟩ := hwf
    cases b with
    | false => exact ih hwf' t ht
    | true =>
      rcases List.mem_cons.mp ht with rfl | ht2
      · exact ⟨hne, huni⟩
      · exact ih hwf' t ht2

theorem chain_notin : ∀ t0 y1 y2 y3 y4 : Str,
    y1 = (if t0 = "gt".toList then "gate".toList else t0) →
    y2 = (if y1 = "vn".toList then "veien".toList else y1) →
    y3 = (if y2 = "v".toList then "veien".toList else y2) →
    y4 = (if y3 = "vei".toList then "veien".toList else y3) →
    y4 ∉ abbrevPats := by
  intro t0 y1 y2 y3 y4 h1 h2 h3 h4
  subst h4
  subst h3
  subst h2
  subst h1
  by_cases e1 : t0 = "gt".toList
  · subst e1
    decide
  · rw [if_neg e1]
    by_cases e2 : t0 = "vn".toList
    · subst e2
      decide
    · rw [if_neg e2]
      by_cases e3 : t0 = "v".toList
      · subst e3
        decide
      · rw [if_neg e3]
        by_cases e4 : t0 = "vei".toList
        · subst e4
          decide
        · rw [if_neg e4]
          simp only [abbrevPats, List.mem_cons, List.not_mem_nil, or_false]
          intro hcon
          rcases hcon with h | h | h | h
          · exact e1 h
          · exact e2 h
          · exact e3 h
          · exact e4 h

theorem sving_append_notin (u : Str) : ("sving".toList ++ u) ∉ abbrevPats := by
  intro h
  simp only [abbrevPats, List.mem_cons, List.not_mem_nil, or_false] at h
  rcases h with h | h | h | h
  · have hl := congrArg List.length h
    rw [List.length_append] at hl
    rw [show ("sving".toList : Str).length = 5 from rfl] at hl
    rw [show ("gt".toList : Str).length = 2 from rfl] at hl
    omega
  · have hl := congrArg List.length h
    rw [List.length_append] at hl
    rw [show ("sving".toList : Str).length = 5 from rfl] at hl
    rw [show ("vn".toList : Str).length = 2 from rfl] at hl
    omega
  · have hl := congrArg List.length h
    rw [List.length_append] at hl
    rw [show ("sving".toList : Str).length = 5 from rfl] at hl
    rw [show ("v".toList : Str).length = 1 from rfl] at hl
    omega
  · have hl := congrArg List.length h
    rw [List.length_append] at hl
    rw [show ("sving".toList : Str).length = 5 from rfl] at hl
    rw [show ("vei".toList : Str).length = 3 from rfl] at hl
    omega

theorem replT_ne_vei (x : Str) :
    (if x = "vei".toList then "veien".toList else x) ≠ "vei".toList := by
  by_cases h : x = "vei".toList
  · rw [if_pos h]
    decide
  · rw [if_neg h]
    exact h

/-- A whole-word substitution stage at the block level. -/
theorem subWord_blocks (w rep : Str) (hw : w ≠ [])
    (hwaz : ∀ c ∈ w, azDigit c = true) (bs : List (Bool × Str)) (hwf : WFB bs)
    (hch : ∀ p ∈ bs, ∀ c ∈ p.2, tameLow c) :
    subWord w rep (render bs) = render (bs.map (replTok w rep)) := by
  rw [subWord]
  exact subWordGo_blocks_go w rep hw hwaz bs false (render bs).length hwf hch le_rfl
    (fun h => absurd h (by simp))

/-- A dot-pattern substitution stage at the block level. -/
theorem subWordDot_blocks (w rep : Str) (hw : w ≠ [])
    (hwaz : ∀ c ∈ w, azDigit c = true) (bs : List (Bool × Str)) (hwf : WFB bs)
    (hch : ∀ p ∈ bs, ∀ c ∈ p.2, tameLow c) :
    subWordDot w rep (render bs) = render (dotReplB w rep bs) := by
  rw [subWordDot]
  exact subWordDotGo_blocks_go w rep hw hwaz bs.length bs le_rfl false
    (render bs).length hwf hch le_rfl (fun h => absurd h (by simp))

/-- The six regex substitution stages followed by the collapse/strip stage,
on a rendered well-formed tame block list, produce a canonical
space-joined token string whose tokens are none of the abbreviation
patterns. -/
theorem pipeline_blocks (bs : List (Bool × Str)) (hwf : WFB bs)
    (hch : ∀ p ∈ bs, ∀ c ∈ p.2, tameLow c) :
    ∃ toks,
      stripWs (collapseNonAz
        (subWordDot "sv".toList "sving".toList
          (subWordDot "vei".toList "veien".toList
            (subWord "vei".toList "veien".toList
              (subWord "v".toList "veien".toList
                (subWord "vn".toList "veien".toList
                  (subWord "gt".toList "gate".toList (render bs)))))))) = joinToks toks ∧
      ∀ t ∈ toks, t ≠ [] ∧ (∀ c ∈ t, azDigit c = true) ∧ t ∉ abbrevPats := by
  have step_ch : ∀ (w rep : Str), (∀ c ∈ rep, tameLow c) →
      ∀ (cs : List (Bool × Str)), (∀ p ∈ cs, ∀ c ∈ p.2, tameLow c) →
      ∀ p ∈ cs.map (replTok w rep), ∀ c ∈ p.2, tameLow c := by
    intro w rep hrep cs hcs p hp c hc
    rcases chars_map_replTok w rep cs p hp c hc with ⟨q, hq, hcq⟩ | hcr
    · exact hcs q hq c hcq
    · exact hrep c hcr
  have hwf1 := WFB_map_replTok "gt".toList "gate".toList (by decide) (by decide) bs hwf
  have hch1 := step_ch "gt".toList "gate".toList (by decide) bs hch
  have hwf2 := WFB_map_replTok "vn".toList "veien".toList (by decide) (by decide) _ hwf1
  have hch2 := step_ch "vn".toList "veien".toList (by decide) _ hch1
  have hwf3 := WFB_map_replTok "v".toList "veien".toList (by decide) (by decide) _ hwf2
  have hch3 := step_ch "v".toList "veien".toList (by decide) _ hch2
  have hwf4 := WFB_map_replTok "vei".toList "veien".toList (by decide) (by decide) _ hwf3
  have hch4 := step_ch "vei".toList "veien".toList (by decide) _ hch3
  have htoks4 : azToks ((((bs.map (replTok "gt".toList "gate".toList)).map
      (replTok "vn".toList "veien".toList)).map
      (replTok "v".toList "veien".toList)).map
      (replTok "vei".toList "veien".toList))
      = ((((azToks bs).map (fun t => if t = "gt".toList then "gate".toList else t)).map
        (fun t => if t = "vn".toList then "veien".toList else t)).map
        (fun t => if t = "v".toList then "veien".toList else t)).map
        (fun t => if t = "vei".toList then "veien".toList else t) := by
    rw [azToks_map_replTok, azToks_map_replTok, azToks_map_replTok, azToks_map_replTok]
  have hne_vei : ∀ t ∈ azToks ((((bs.map (replTok "gt".toList "gate".toList)).map
      (replTok "vn".toList "veien".toList)).map
      (replTok "v".toList "veien".toList)).map
      (replTok "vei".toList "veien".toList)), t ≠ "vei".toList := by
    intro t ht
    rw [htoks4] at ht
    obtain ⟨x, _, rfl⟩ := List.mem_map.mp ht
    exact replT_ne_vei x
  have hnotin4 : ∀ t ∈ azToks ((((bs.map (replTok "gt".toList "gate".toList)).map
      (replTok "vn".toList "veien".toList)).map
      (replTok "v".toList "veien".toList)).map
      (replTok "vei".toList "veien".toList)), t ∉ abbrevPats := by
    intro t ht
    rw [htoks4] at ht
    obtain ⟨y3, hy3, rfl⟩ := List.mem_map.mp ht
    obtain ⟨y2, hy2, rfl⟩ := List.mem_map.mp hy3
    obtain ⟨y1, hy1, rfl⟩ := List.mem_map.mp hy2
    obtain ⟨t0, _, rfl⟩ := List.mem_map.mp hy1
    exact chain_notin t0 _ _ _ _ rfl rfl rfl rfl
  have hwf6 := WFB_dotReplB "sv".toList "sving".toList (by decide) (by decide)
    ((((bs.map (replTok "gt".toList "gate".toList)).map
      (replTok "vn".toList "veien".toList)).map
      (replTok "v".toList "veien".toList)).map
      (replTok "vei".toList "veien".toList)).length _ le_rfl hwf4
  refine ⟨azToks (dotReplB "sv".toList "sving".toList
    ((((bs.map (replTok "gt".toList "gate".toList)).map
      (replTok "vn".toList "veien".toList)).map
      (replTok "v".toList "veien".toList)).map
      (replTok "vei".toList "veien".toList))), ?_, ?_⟩
  · rw [subWord_blocks "gt".toList "gate".toList (by decide) (by decide) bs hwf hch]
    rw [subWord_blocks "vn".toList "veien".toList (by decide) (by decide) _ hwf1 hch1]
    rw [subWord_blocks "v".toList "veien".toList (by decide) (by decide) _ hwf2 hch2]
    rw [subWord_blocks "vei".toList "veien".toList (by decide) (by decide) _ hwf3 hch3]
    rw [subWordDot_blocks "vei".toList "veien".toList (by decide) (by decide) _ hwf4 hch4]
    rw [dotReplB_id_ne "vei".toList "veien".toList _ hne_vei]
    rw [subWordDot_blocks "sv".toList "sving".toList (by decide) (by decide) _ hwf4 hch4]
    exact strip_collapse_blocks _ hwf6
  · intro t ht
    obtain ⟨hne, haz⟩ := WFB_azToks _ hwf6 t ht
    refine ⟨hne, haz, ?_⟩
    rcases azToks_dotReplB "sv".toList "sving".toList _ _ le_rfl t ht with h4 | ⟨u, rfl⟩
    · exact hnotin4 t h4
    · exact sving_append_notin u

/-- On a tame (ASCII, no underscore) input, `normalize_for_compare` produces
a canonical space-joined token string with no abbreviation-pattern token. -/
theorem nfc_tame_toks (s : Str) (hs : ∀ c ∈ s, tameChar c) :
    ∃ toks, normalize_for_compare s = joinToks toks ∧
      ∀ t ∈ toks, t ≠ [] ∧ (∀ c ∈ t, azDigit c = true) ∧ t ∉ abbrevPats := by
  have hnt : ∀ c ∈ normalize_text s, tameChar c := by
    intro c hc
    rw [normalize_text] at hc
    have hc2 := stripWs_subset _ c hc
    rcases collapseWs_chars _ c hc2 with h | rfl
    · obtain ⟨a, ha, hfa⟩ := List.mem_map.mp h
      have hta := hs a ha
      have hid : (if a.val = 0xa0 then ' ' else a) = a := by
        rw [if_neg]
        intro hcon
        have h160 : a.toNat = 160 := by
          rw [show a.toNat = a.val.toNat from rfl, hcon]
          rfl
        have := hta.1
        omega
      rw [hid] at hfa
      rw [← hfa]
      exact hta
    · exact ⟨by decide, by decide⟩
  have hlow : ∀ c ∈ (normalize_text s).map pyLower, tameLow c := by
    intro c hc
    obtain ⟨a, ha, rfl⟩ := List.mem_map.mp hc
    exact tameLow_pyLower (hnt a ha)
  have hflat : ((normalize_text s).map pyLower).flatMap foldVowel
      = (normalize_text s).map pyLower :=
    flatMap_singleton_id _ _ (fun c hc => foldVowel_id_of_ascii (hlow c hc).1)
  obtain ⟨toks, heq, hgood⟩ := pipeline_blocks (blocks ((normalize_text s).map pyLower))
    (blocks_wf _) (fun p hp c hc => hlow c (blocks_chars _ p hp c hc))
  refine ⟨toks, ?_, hgood⟩
  show stripWs (collapseNonAz
    (subWordDot "sv".toList "sving".toList
      (subWordDot "vei".toList "veien".toList
        (subWord "vei".toList "veien".toList
          (subWord "v".toList "veien".toList
            (subWord "vn".toList "veien".toList
              (subWord "gt".toList "gate".toList
                (nfkdStrip (((normalize_text s).map pyLower).flatMap
                  foldVowel))))))))) = _
  rw [show nfkdStrip (((normalize_text s).map pyLower).flatMap foldVowel)
    = ((normalize_text s).map pyLower).flatMap foldVowel from rfl]
  rw [hflat]
  rw [show (normalize_text s).map pyLower
    = render (blocks ((normalize_text s).map pyLower)) from (render_blocks _).symm]
  exact heq

/-- C7 (amended): `normalize_for_compare` is idempotent on every string of
ASCII characters other than underscore. -/
theorem c7_idempotent_ascii (s : Str)
    (h : ∀ c ∈ s, c.toNat < 128 ∧ c ≠ '_') :
    normalize_for_compare (normalize_for_compare s) = normalize_for_compare s := by
  obtain ⟨toks, heq, hgood⟩ := nfc_tame_toks s (fun c hc => ⟨(h c hc).1, (h c hc).2⟩)
  rw [heq, nfc_joinToks_fixed toks hgood]

/-- C7 witness: the idempotence theorem applied to a concrete address. -/
theorem c7_witness :
    (∀ c ∈ ("Storgata 5, Oslo".toList : Str), c.toNat < 128 ∧ c ≠ '_') ∧
    normalize_for_compare (normalize_for_compare "Storgata 5, Oslo".toList)
      = normalize_for_compare "Storgata 5, Oslo".toList :=
  ⟨by decide, c7_idempotent_ascii "Storgata 5, Oslo".toList (by decide)⟩
